import Mathlib

/-!
# Tokenizer and recursive-descent parser of `src/parser.cpp`

A shallow embedding of the `Lexer` and `Parser` classes.

* A C++ `string` used as input is a `List Char`, one `Char` per byte; the
  classification functions of `<cctype>` are those of the "C" locale and are
  false on every byte above 127.
* Token texts and node labels are `String`s.
* `int` counters (`line`, `col`) are natural numbers: they only ever grow by
  one per consumed byte, so they stay below `2^31` on every input shorter
  than `2^31 - 1` bytes, and signed overflow is undefined beyond that.
* Mutable object state is passed explicitly; `throw` becomes an error outcome
  that keeps the state the objects are left in, and the statements after a
  call of `error` are the `else` branch of its test.
-/

set_option autoImplicit false

/-! # Definitions -/

/-! ## Data model -/

/-- The enumeration `TokenType` (lines 10-14). -/
inductive TokenType where
  | PROGRAM | BEGIN | END | ID | NUM | ASSIGN | IF | THEN | WHILE | DO
  | PLUS | MINUS | MUL | DIV | MOD | LPAREN | RPAREN | SEMICOLON | RELOP | DOT
  | UNKNOWN | END_OF_FILE
  | AND | OR | NOT | ELSE | BREAK
  deriving DecidableEq, Repr

/-- The struct `Token` (lines 16-21). -/
structure Token where
  type : TokenType
  value : String
  line : Nat
  col : Nat
  deriving DecidableEq, Repr

/-- The struct `ASTNode` (lines 23-38): a label and the owned children. -/
inductive ASTNode where
  | mk (value : String) (children : List ASTNode)
  deriving Repr

namespace ASTNode

/-- The label of a node. -/
def value : ASTNode → String
  | mk v _ => v

/-- The children of a node. -/
def children : ASTNode → List ASTNode
  | mk _ cs => cs

mutual
/-- Decidable equality of trees. -/
def decEq : (a b : ASTNode) → Decidable (a = b)
  | mk v cs, mk w ds =>
    if h : v = w then
      match decEqList cs ds with
      | isTrue h2 => isTrue (by rw [h, h2])
      | isFalse h2 => isFalse (by intro e; injection e with _ e2; exact h2 e2)
    else isFalse (by intro e; injection e with e1 _; exact h e1)
/-- Decidable equality of lists of trees. -/
def decEqList : (a b : List ASTNode) → Decidable (a = b)
  | [], [] => isTrue rfl
  | [], _ :: _ => isFalse (by simp)
  | _ :: _, [] => isFalse (by simp)
  | a :: as, b :: bs =>
    match decEq a b with
    | isTrue h1 =>
      match decEqList as bs with
      | isTrue h2 => isTrue (by rw [h1, h2])
      | isFalse h2 => isFalse (by intro e; injection e with _ e2; exact h2 e2)
    | isFalse h1 => isFalse (by intro e; injection e with e1 _; exact h1 e1)
end

instance : DecidableEq ASTNode := decEq

end ASTNode

/-! ## Character classes of `<cctype>` in the "C" locale -/

/-- The function `isspace`: space, `\t`, `\n`, `\v`, `\f`, `\r`. -/
def isspace (c : Char) : Bool :=
  c.toNat = 32 || (9 ≤ c.toNat && c.toNat ≤ 13)

/-- The function `isalpha`: `A`-`Z` and `a`-`z`. -/
def isalpha (c : Char) : Bool :=
  (65 ≤ c.toNat && c.toNat ≤ 90) || (97 ≤ c.toNat && c.toNat ≤ 122)

/-- The function `isdigit`: `0`-`9`. -/
def isdigit (c : Char) : Bool :=
  48 ≤ c.toNat && c.toNat ≤ 57

/-- The function `isalnum`: `isalpha` or `isdigit`. -/
def isalnum (c : Char) : Bool :=
  isalpha c || isdigit c

/-! ## The tokenizer (class `Lexer`, lines 40-183) -/

/-- The fields of `Lexer`: the (BOM-stripped) text, the scan offset, and the
line and column counters. -/
structure Lexer where
  source : List Char
  pos : Nat
  line : Nat
  col : Nat
  deriving DecidableEq, Repr

namespace Lexer

/-- The constructor `Lexer::Lexer` (lines 75-79): strips a leading UTF-8
byte-order-mark `EF BB BF`; `pos = 0`, `line = 1`, `col = 1`. -/
def new (src : List Char) : Lexer :=
  if 3 ≤ src.length ∧ src[0]? = some (Char.ofNat 0xEF) ∧ src[1]? = some (Char.ofNat 0xBB)
      ∧ src[2]? = some (Char.ofNat 0xBF) then
    { source := src.drop 3, pos := 0, line := 1, col := 1 }
  else
    { source := src, pos := 0, line := 1, col := 1 }

/-- The unread part of the text, `source[pos..]`. -/
def rest (lx : Lexer) : List Char := lx.source.drop lx.pos

/-- The loop of `skipWhitespace` (lines 47-55); the first argument is the
unread part `source[pos..]`. -/
def skipWhitespaceLoop : List Char → Lexer → Lexer
  | [], lx => lx
  | c :: cs, lx =>
    if isspace c then
      if c = '\n' then
        skipWhitespaceLoop cs { lx with line := lx.line + 1, col := 1, pos := lx.pos + 1 }
      else
        skipWhitespaceLoop cs { lx with col := lx.col + 1, pos := lx.pos + 1 }
    else lx

/-- The method `Lexer::skipWhitespace` (lines 46-56). -/
def skipWhitespace (lx : Lexer) : Lexer :=
  skipWhitespaceLoop lx.rest lx

/-- The loop of `skipComment` (lines 59-67), followed by the step over the
closing brace (lines 68-71); the first argument is the unread part. -/
def skipCommentLoop : List Char → Lexer → Lexer
  | [], lx => lx
  | c :: cs, lx =>
    if c ≠ '}' then
      if c = '\n' then
        skipCommentLoop cs { lx with line := lx.line + 1, col := 1, pos := lx.pos + 1 }
      else
        skipCommentLoop cs { lx with col := lx.col + 1, pos := lx.pos + 1 }
    else { lx with pos := lx.pos + 1, col := lx.col + 1 }

/-- The method `Lexer::skipComment` (lines 58-72). -/
def skipComment (lx : Lexer) : Lexer :=
  skipCommentLoop lx.rest lx

/-- The accumulation loops of lines 97-101 and 124-128: while the next
character satisfies `p`, append it to the text and advance `pos` and `col`.
The first argument is the unread part, the second the text so far. -/
def scanLoop (p : Char → Bool) : List Char → List Char → Lexer → List Char × Lexer
  | [], acc, lx => (acc, lx)
  | c :: cs, acc, lx =>
    if p c then scanLoop p cs (acc ++ [c]) { lx with pos := lx.pos + 1, col := lx.col + 1 }
    else (acc, lx)

/-- The condition of the identifier loop (line 97). -/
def isIdentChar (c : Char) : Bool := isalnum c || c = '_'

/-- The keyword table of lines 103-116. -/
def keywordType (id : String) : TokenType :=
  if id = "program" then .PROGRAM
  else if id = "begin" then .BEGIN
  else if id = "end" then .END
  else if id = "if" then .IF
  else if id = "then" then .THEN
  else if id = "while" then .WHILE
  else if id = "do" then .DO
  else if id = "and" then .AND
  else if id = "or" then .OR
  else if id = "not" then .NOT
  else if id = "else" then .ELSE
  else if id = "break" then .BREAK
  else if id = "mod" then .MOD
  else .ID

/-- The operator part of `getNextToken` (lines 132-181). `ch` is the
character just read, `cs` the unread part after it, and `lx` the state after
`pos++; col++`; `start_col` is the column of `ch`. -/
def scanOperator (ch : Char) (cs : List Char) (lx : Lexer) (start_col : Nat) : Token × Lexer :=
  let one (t : TokenType) : Token × Lexer :=
    ({ type := t, value := String.mk [ch], line := lx.line, col := start_col }, lx)
  let two (t : TokenType) (s : String) : Token × Lexer :=
    ({ type := t, value := s, line := lx.line, col := start_col },
      { lx with pos := lx.pos + 1, col := lx.col + 1 })
  if ch = '+' then one .PLUS
  else if ch = '-' then one .MINUS
  else if ch = '*' then one .MUL
  else if ch = '/' then one .DIV
  else if ch = '(' then one .LPAREN
  else if ch = ')' then one .RPAREN
  else if ch = ';' then one .SEMICOLON
  else if ch = '.' then one .DOT
  else if ch = ':' then
    if cs.head? = some '=' then two .ASSIGN ":=" else one .UNKNOWN
  else if ch = '<' then
    if cs.head? = some '=' then two .RELOP "<="
    else if cs.head? = some '>' then two .RELOP "<>"
    else one .RELOP
  else if ch = '>' then
    if cs.head? = some '=' then two .RELOP ">=" else one .RELOP
  else if ch = '=' then one .RELOP
  else if ch = '!' then
    if cs.head? = some '=' then two .RELOP "!=" else one .UNKNOWN
  else one .UNKNOWN

/-- The token-building part of `getNextToken` (lines 93-181): `ch` is the
character at `pos`, neither blank nor an opening brace, `cs` the unread part
after it, and `lx` the state in which `ch` is still unread. -/
def scanToken (ch : Char) (cs : List Char) (lx : Lexer) : Token × Lexer :=
  if isalpha ch then
    let r := scanLoop isIdentChar (ch :: cs) [] lx
    ({ type := keywordType (String.mk r.1), value := String.mk r.1,
       line := r.2.line, col := lx.col }, r.2)
  else if isdigit ch then
    let r := scanLoop isdigit (ch :: cs) [] lx
    ({ type := .NUM, value := String.mk r.1, line := r.2.line, col := lx.col }, r.2)
  else
    scanOperator ch cs { lx with pos := lx.pos + 1, col := lx.col + 1 } lx.col

/-- The method `Lexer::getNextToken` (lines 81-182) with a bound on the number of
self-calls after a comment (line 90); `none` when the bound is used up. -/
def getNextTokenFuel : Nat → Lexer → Option (Token × Lexer)
  | 0, _ => none
  | fuel + 1, lx0 =>
    let lx := lx0.skipWhitespace
    match lx.rest with
    | [] => some ({ type := .END_OF_FILE, value := "", line := lx.line, col := lx.col }, lx)
    | ch :: cs =>
      if ch = '{' then getNextTokenFuel fuel lx.skipComment
      else some (scanToken ch cs lx)

/-- The method `Lexer::getNextToken`: every self-call follows a comment, which consumes
at least its opening brace, so `source.size() - pos + 1` calls suffice (see
`getNextTokenFuel_isSome`). -/
def getNextToken (lx : Lexer) : Token × Lexer :=
  match getNextTokenFuel (lx.source.length - lx.pos + 1) lx with
  | some r => r
  | none => ({ type := .END_OF_FILE, value := "", line := lx.line, col := lx.col }, lx)

/-- The state after `n` calls of `getNextToken`. -/
def after : Nat → Lexer → Lexer
  | 0, lx => lx
  | n + 1, lx => after n (getNextToken lx).2

/-- The token returned by call number `n` (counted from 0). -/
def nthToken (n : Nat) (lx : Lexer) : Token := (getNextToken (after n lx)).1

/-- The tokens returned by the first `n` calls. -/
def tokens : Nat → Lexer → List Token
  | 0, _ => []
  | n + 1, lx => (getNextToken lx).1 :: tokens n (getNextToken lx).2

end Lexer

/-! ## The parser (class `Parser`, lines 185-487) -/

/-- The line `Parser::error` writes to the output stream (lines 190-192):
the message, and the line, column and text of the lookahead token. -/
structure Diagnostic where
  message : String
  line : Nat
  col : Nat
  value : String
  deriving DecidableEq, Repr

/-- The text of the line written for a diagnostic. -/
def Diagnostic.text (d : Diagnostic) : String :=
  "错误：" ++ d.message ++ "（在行 " ++ toString d.line ++ ", 列 " ++ toString d.col
    ++ "，遇到 '" ++ d.value ++ "'）"

/-- The fields of `Parser`: the tokenizer it pulls from and the lookahead. -/
structure Parser where
  lexer : Lexer
  currentToken : Token
  deriving DecidableEq, Repr

/-- How a grammar procedure ends: it returns a value, or `error` has written
a diagnostic and thrown, or the recursion bound of the model is used up.
The first two carry the state the parser and its tokenizer are left in. -/
inductive Outcome (α : Type) where
  | ok (a : α) (p : Parser)
  | error (d : Diagnostic) (p : Parser)
  | outOfFuel
  deriving DecidableEq, Repr

/-- A procedure of the parser: a function of the parser state. -/
def PM (α : Type) : Type := Parser → Outcome α

namespace PM

/-- Sequencing: an error or an exhausted bound ends the whole computation. -/
def bind {α β : Type} (m : PM α) (f : α → PM β) : PM β := fun p =>
  match m p with
  | .ok a p1 => f a p1
  | .error d p1 => .error d p1
  | .outOfFuel => .outOfFuel

instance : Monad PM where
  pure a := fun p => .ok a p
  bind := bind

/-- The bound of the model is used up. -/
def outOfFuel {α : Type} : PM α := fun _ => .outOfFuel

end PM

namespace Parser

open Lexer

/-- The constructor `Parser::Parser` (line 473): the lookahead is primed with
the first token. -/
def new (lexer : Lexer) : Parser :=
  { lexer := lexer.getNextToken.2, currentToken := lexer.getNextToken.1 }

/-- A read of the field `currentToken`. -/
def lookahead : PM Token := fun p => .ok p.currentToken p

/-- The method `Parser::error` (lines 189-194): writes the diagnostic and throws. -/
def error {α : Type} (message : String) : PM α := fun p =>
  .error { message := message, line := p.currentToken.line, col := p.currentToken.col,
           value := p.currentToken.value } p

/-- The table of expected-construct labels in `eat` (lines 201-224). -/
def expectedLabel : TokenType → String
  | .PROGRAM => "program"
  | .BEGIN => "begin"
  | .END => "end"
  | .SEMICOLON => "分号"
  | .DOT => "点号"
  | .ID => "标识符"
  | .ASSIGN => ":="
  | .IF => "if"
  | .THEN => "then"
  | .WHILE => "while"
  | .DO => "do"
  | .ELSE => "else"
  | .BREAK => "break"
  | .PLUS => "+"
  | .MINUS => "-"
  | .MUL => "*"
  | .DIV => "/"
  | .MOD => "mod"
  | .LPAREN => "("
  | .RPAREN => ")"
  | .RELOP => "关系运算符"
  | _ => "特定符号"

/-- The method `Parser::eat` (lines 196-227). -/
def eat (type : TokenType) : PM Unit := fun p =>
  if p.currentToken.type = type then
    .ok () { lexer := p.lexer.getNextToken.2, currentToken := p.lexer.getNextToken.1 }
  else
    error ("应为 '" ++ expectedLabel type ++ "'") p

mutual
/-- The method `Parser::Expr` (lines 352-362). -/
def Expr : Nat → PM ASTNode
  | 0 => PM.outOfFuel
  | fuel + 1 => do
    let node ← Term fuel
    ExprLoop fuel node
/-- The loop of `Expr` (lines 354-360); `node` is the tree built so far. -/
def ExprLoop : Nat → ASTNode → PM ASTNode
  | 0, _ => PM.outOfFuel
  | fuel + 1, node => do
    let tok ← lookahead
    if tok.type = .PLUS ∨ tok.type = .MINUS then
      eat tok.type
      let rhs ← Term fuel
      ExprLoop fuel (.mk tok.value [node, rhs])
    else
      pure node
/-- The method `Parser::Term` (lines 364-374). -/
def Term : Nat → PM ASTNode
  | 0 => PM.outOfFuel
  | fuel + 1 => do
    let node ← Factor fuel
    TermLoop fuel node
/-- The loop of `Term` (lines 366-372); `node` is the tree built so far. -/
def TermLoop : Nat → ASTNode → PM ASTNode
  | 0, _ => PM.outOfFuel
  | fuel + 1, node => do
    let tok ← lookahead
    if tok.type = .MUL ∨ tok.type = .DIV ∨ tok.type = .MOD then
      eat tok.type
      let rhs ← Factor fuel
      TermLoop fuel (.mk tok.value [node, rhs])
    else
      pure node
/-- The method `Parser::Factor` (lines 376-395). -/
def Factor : Nat → PM ASTNode
  | 0 => PM.outOfFuel
  | fuel + 1 => do
    let tok ← lookahead
    if tok.type = .NUM then
      eat .NUM
      pure (.mk ("数字: " ++ tok.value) [])
    else if tok.type = .ID then
      eat .ID
      pure (.mk ("变量: " ++ tok.value) [])
    else if tok.type = .LPAREN then
      eat .LPAREN
      let node ← Expr fuel
      eat .RPAREN
      pure node
    else
      error "应为数字、变量或括号表达式"
end

mutual
/-- The method `Parser::Cond` (lines 397-464). -/
def Cond : Nat → PM ASTNode
  | 0 => PM.outOfFuel
  | fuel + 1 => do
    let tok ← lookahead
    if tok.type = .NOT then
      eat .NOT
      let operand ← Cond fuel
      pure (.mk ("逻辑非: " ++ tok.value) [operand])
    else if tok.type = .LPAREN then
      eat .LPAREN
      let leftNode ← Expr fuel
      let rel ← lookahead
      let node ←
        (if rel.type = .RELOP then do
          eat .RELOP
          let rightNode ← Expr fuel
          pure (ASTNode.mk "条件表达式" [leftNode, .mk ("关系符: " ++ rel.value) [], rightNode])
        else if rel.type = .RPAREN then
          error "括号内的条件表达式必须包含关系运算符"
        else
          error "括号内的条件表达式格式错误")
      eat .RPAREN
      CondLoop fuel node
    else
      let leftNode ← Expr fuel
      let rel ← lookahead
      if rel.type ≠ .RELOP then
        error "条件表达式中缺少关系运算符"
      else
        eat .RELOP
        let rightNode ← Expr fuel
        CondLoop fuel (.mk "条件表达式" [leftNode, .mk ("关系符: " ++ rel.value) [], rightNode])
/-- The two identical loops of `Cond` (lines 433-439 and 455-461); `node` is
the tree built so far. -/
def CondLoop : Nat → ASTNode → PM ASTNode
  | 0, _ => PM.outOfFuel
  | fuel + 1, node => do
    let tok ← lookahead
    if tok.type = .AND ∨ tok.type = .OR then
      eat tok.type
      let rhs ← Cond fuel
      CondLoop fuel (.mk ("逻辑符: " ++ tok.value) [node, rhs])
    else
      pure node
end

/-- The method `Parser::AssignStmt` (lines 303-316). -/
def AssignStmt (fuel : Nat) : PM ASTNode := do
  let tok ← lookahead
  if tok.type ≠ .ID then
    error "赋值语句左值必须是标识符"
  else
    eat .ID
    eat .ASSIGN
    let rhs ← Expr fuel
    pure (.mk "赋值语句" [.mk ("左值: " ++ tok.value) [], rhs])

/-- The method `Parser::BreakStmt` (lines 466-470). -/
def BreakStmt : PM ASTNode := do
  eat .BREAK
  pure (.mk "Break语句" [])

mutual
/-- The method `Parser::Block` (lines 259-265). -/
def Block : Nat → PM ASTNode
  | 0 => PM.outOfFuel
  | fuel + 1 => do
    eat .BEGIN
    let list ← StmtList fuel
    eat .END
    pure (.mk "块" [list])
/-- The method `Parser::StmtList` (lines 267-281). -/
def StmtList : Nat → PM ASTNode
  | 0 => PM.outOfFuel
  | fuel + 1 => do
    let tok ← lookahead
    if tok.type = .END then
      pure (.mk "语句列表" [])
    else
      let first ← Stmt fuel
      StmtListLoop fuel [first]
/-- The loop of `StmtList` (lines 273-279); `children` are the statements
collected so far. -/
def StmtListLoop : Nat → List ASTNode → PM ASTNode
  | 0, _ => PM.outOfFuel
  | fuel + 1, children => do
    let tok ← lookahead
    if tok.type = .SEMICOLON then
      eat .SEMICOLON
      let next ← lookahead
      if next.type = .END then
        pure (.mk "语句列表" children)
      else
        let stmt ← Stmt fuel
        StmtListLoop fuel (children ++ [stmt])
    else
      pure (.mk "语句列表" children)
/-- The method `Parser::Stmt` (lines 283-301). -/
def Stmt : Nat → PM ASTNode
  | 0 => PM.outOfFuel
  | fuel + 1 => do
    let tok ← lookahead
    if tok.type = .ID then AssignStmt fuel
    else if tok.type = .IF then IfStmt fuel
    else if tok.type = .WHILE then WhileStmt fuel
    else if tok.type = .BREAK then BreakStmt
    else if tok.type = .BEGIN then
      let block ← Block fuel
      pure (.mk "语句块" [block])
    else if tok.type = .NUM then
      error "语句不能以数字开头，可能是赋值语句左值错误"
    else
      error "应为赋值语句、if语句、while语句、break语句或语句块"
/-- The method `Parser::IfStmt` (lines 318-337). -/
def IfStmt : Nat → PM ASTNode
  | 0 => PM.outOfFuel
  | fuel + 1 => do
    eat .IF
    let cond ← Cond fuel
    eat .THEN
    let tok ← lookahead
    let thenNode ← (if tok.type = .BEGIN then Block fuel else Stmt fuel)
    let tok2 ← lookahead
    if tok2.type = .ELSE then
      eat .ELSE
      let tok3 ← lookahead
      let elseNode ← (if tok3.type = .BEGIN then Block fuel else Stmt fuel)
      pure (.mk "If语句" [cond, thenNode, elseNode])
    else
      pure (.mk "If语句" [cond, thenNode])
/-- The method `Parser::WhileStmt` (lines 339-350). -/
def WhileStmt : Nat → PM ASTNode
  | 0 => PM.outOfFuel
  | fuel + 1 => do
    eat .WHILE
    let cond ← Cond fuel
    eat .DO
    let tok ← lookahead
    let body ← (if tok.type = .BEGIN then Block fuel else Stmt fuel)
    pure (.mk "While语句" [cond, body])
end

/-- The method `Parser::Program` (lines 229-257). -/
def Program (fuel : Nat) : PM ASTNode := do
  let kw ← lookahead
  if kw.type ≠ .PROGRAM then
    error "程序必须以program关键字开始"
  else
    eat .PROGRAM
    let name ← lookahead
    if name.type ≠ .ID then
      error "program后必须跟程序名"
    else
      eat .ID
      let semi ← lookahead
      if semi.type ≠ .SEMICOLON then
        error "程序名后必须有分号"
      else
        eat .SEMICOLON
        let block ← Block fuel
        let dot ← lookahead
        if dot.type ≠ .DOT then
          error "程序必须以点号结束"
        else
          eat .DOT
          pure (.mk "程序"
            [.mk ("关键字: " ++ kw.value) [], .mk ("程序名: " ++ name.value) [], block])

/-- The body of the `try` block of `parse` (lines 477-481). -/
def parseBody (fuel : Nat) : PM ASTNode := do
  let root ← Program fuel
  let tok ← lookahead
  if tok.type ≠ .END_OF_FILE then
    error "程序结束后有多余内容"
  else
    pure root

/-- What a call of `parse` leaves behind: the returned pointer (`none` is
`nullptr`), the diagnostics written to the output stream, and the state of
the parser object. -/
structure ParseResult where
  root : Option ASTNode
  out : List Diagnostic
  parser : Parser
  deriving DecidableEq, Repr

/-- The method `Parser::parse` (lines 475-486) under a recursion bound; `none` when the
bound is used up. -/
def parseFuel (fuel : Nat) (p : Parser) : Option ParseResult :=
  match parseBody fuel p with
  | .ok root p1 => some { root := some root, out := [], parser := p1 }
  | .error d p1 => some { root := none, out := [d], parser := p1 }
  | .outOfFuel => none

end Parser

namespace Lexer

/-! ## Reasoning about the tokenizer -/

/-- The line and column counters after scanning over a piece of text: a
newline increments the line and resets the column to 1, any other character
increments the column. -/
def track : List Char → Nat × Nat → Nat × Nat
  | [], lc => lc
  | c :: cs, lc => if c = '\n' then track cs (lc.1 + 1, 1) else track cs (lc.1, lc.2 + 1)

/-- The characters a comment that starts in `cs` covers: everything up to
and including the first closing brace, or all of `cs` when there is none. -/
def commentSpan (cs : List Char) : List Char :=
  cs.takeWhile (fun c => c ≠ '}') ++ (cs.dropWhile (fun c => c ≠ '}')).take 1

/-- The state `lx1` is reached from `lx` by scanning over the piece of text `s`. -/
structure Skips (lx : Lexer) (s : List Char) (lx1 : Lexer) : Prop where
  rest_eq : lx.rest = s ++ lx1.rest
  source_eq : lx1.source = lx.source
  pos_eq : lx1.pos = lx.pos + s.length
  line_col : (lx1.line, lx1.col) = track s (lx.line, lx.col)

/-- What one call of `getNextToken` does: it scans over `skipped`, then reads
the token `t`, and leaves the state `lx1`. -/
structure TokenSpec (lx : Lexer) (skipped : List Char) (t : Token) (lx1 : Lexer) : Prop where
  rest_eq : lx.rest = skipped ++ (t.value.data ++ lx1.rest)
  source_eq : lx1.source = lx.source
  pos_eq : lx1.pos = lx.pos + skipped.length + t.value.length
  line_col : (t.line, t.col) = track skipped (lx.line, lx.col)
  line_eq : lx1.line = t.line
  col_eq : lx1.col = t.col + t.value.length
  no_newline : '\n' ∉ t.value.data
  nonempty : t.type ≠ .END_OF_FILE → t.value.data ≠ []
  eof : t.type = .END_OF_FILE → t.value = "" ∧ lx1.rest = []

/-- The cases of the operator switch of `getNextToken` (lines 137-181):
`OpShape ch next ty text` says that the character `ch`, followed by `next`,
yields a token of kind `ty` with text `text`. -/
inductive OpShape : Char → Option Char → TokenType → List Char → Prop
  | plus (n : Option Char) : OpShape '+' n .PLUS ['+']
  | minus (n : Option Char) : OpShape '-' n .MINUS ['-']
  | mul (n : Option Char) : OpShape '*' n .MUL ['*']
  | div (n : Option Char) : OpShape '/' n .DIV ['/']
  | lparen (n : Option Char) : OpShape '(' n .LPAREN ['(']
  | rparen (n : Option Char) : OpShape ')' n .RPAREN [')']
  | semicolon (n : Option Char) : OpShape ';' n .SEMICOLON [';']
  | dot (n : Option Char) : OpShape '.' n .DOT ['.']
  | assign : OpShape ':' (some '=') .ASSIGN [':', '=']
  | colon (n : Option Char) : n ≠ some '=' → OpShape ':' n .UNKNOWN [':']
  | le : OpShape '<' (some '=') .RELOP ['<', '=']
  | ne : OpShape '<' (some '>') .RELOP ['<', '>']
  | lt (n : Option Char) : n ≠ some '=' → n ≠ some '>' → OpShape '<' n .RELOP ['<']
  | ge : OpShape '>' (some '=') .RELOP ['>', '=']
  | gt (n : Option Char) : n ≠ some '=' → OpShape '>' n .RELOP ['>']
  | eq (n : Option Char) : OpShape '=' n .RELOP ['=']
  | bangEq : OpShape '!' (some '=') .RELOP ['!', '=']
  | bang (n : Option Char) : n ≠ some '=' → OpShape '!' n .UNKNOWN ['!']
  | other (ch : Char) (n : Option Char) :
      ch ≠ '+' → ch ≠ '-' → ch ≠ '*' → ch ≠ '/' → ch ≠ '(' → ch ≠ ')' → ch ≠ ';' → ch ≠ '.' → ch ≠ ':' → ch ≠ '<' → ch ≠ '>' → ch ≠ '=' → ch ≠ '!' →
      OpShape ch n .UNKNOWN [ch]

/-- The state after an operator token of `k + 1` characters; `lx` is the
state after the first of them. -/
def afterOperator (lx : Lexer) : Nat → Lexer
  | 0 => lx
  | _ + 1 => { lx with pos := lx.pos + 1, col := lx.col + 1 }

/-- The counters of a state agree with its offset. -/
structure Inv (lx : Lexer) : Prop where
  pos_le : lx.pos ≤ lx.source.length
  line_col : (lx.line, lx.col) = track (lx.source.take lx.pos) (1, 1)

/-- The offset at which the text of the token returned by the next call of
`getNextToken` begins: the offset after the call minus the length of the
text. -/
def tokenStart (lx : Lexer) : Nat :=
  (getNextToken lx).2.pos - (getNextToken lx).1.value.length

/-- Two results of `getNextToken` agree in the kind and text of the token and
in the text left unread. -/
def Agree (r1 r2 : Token × Lexer) : Prop :=
  r1.1.type = r2.1.type ∧ r1.1.value = r2.1.value ∧ r1.2.rest = r2.2.rest

/-- Text the tokenizer scans over without producing a token: whitespace and
complete comments. -/
inductive Trivia : List Char → Prop
  | nil : Trivia []
  | space (c : Char) (w : List Char) : isspace c = true → Trivia w → Trivia (c :: w)
  | comment (body w : List Char) : '}' ∉ body → Trivia w →
      Trivia ('{' :: (body ++ '}' :: w))

/-- The UTF-8 byte-order-mark. -/
def bom : List Char := [Char.ofNat 0xEF, Char.ofNat 0xBB, Char.ofNat 0xBF]

/-- The number of characters the constructor strips from the front of a
text: 3 for a byte-order-mark, else 0. -/
def bomLength (src : List Char) : Nat := src.length - (Lexer.new src).source.length

/-- An offset of a text that lies between two tokens, outside any comment:
the end of token number `k - 1` (or the start of the text, after the
byte-order-mark, for `k = 0`), followed by a run `w` of whitespace and
complete comments of the text. -/
def IsBoundary (src : List Char) (o : Nat) : Prop :=
  ∃ (k : Nat) (w : List Char),
    (k = 0 ∨ (nthToken (k - 1) (Lexer.new src)).type ≠ .END_OF_FILE) ∧
    Trivia w ∧ w <+: (after k (Lexer.new src)).rest ∧
    o = bomLength src + ((after k (Lexer.new src)).pos + w.length)

end Lexer

namespace Parser

open Lexer

/-- The state after the lookahead has been consumed: what a successful `eat`
leaves. -/
def advance (p : Parser) : Parser :=
  { lexer := p.lexer.getNextToken.2, currentToken := p.lexer.getNextToken.1 }

/-- The state after `n` tokens have been consumed. -/
def advanceN : Nat → Parser → Parser
  | 0, p => p
  | n + 1, p => advanceN n (advance p)

/-- The lookahead followed by the next `n` tokens of the tokenizer. -/
def upcoming : Nat → Parser → List Token
  | 0, p => [p.currentToken]
  | n + 1, p => p.currentToken :: upcoming n (advance p)

/-- A token that is an operand on its own: a number or an identifier. -/
def IsOperand (t : Token) : Prop := t.type = .NUM ∨ t.type = .ID

instance (t : Token) : Decidable (IsOperand t) := by unfold IsOperand; infer_instance

/-- The node `Factor` builds for an operand token (lines 377-386). -/
def leaf (t : Token) : ASTNode :=
  if t.type = .NUM then .mk ("数字: " ++ t.value) [] else .mk ("变量: " ++ t.value) []

/-- A token of kind `*`, `/` or `mod`. -/
def IsMulOp (t : Token) : Prop := t.type = .MUL ∨ t.type = .DIV ∨ t.type = .MOD

/-- A token of kind `+` or `-`. -/
def IsAddOp (t : Token) : Prop := t.type = .PLUS ∨ t.type = .MINUS

instance (t : Token) : Decidable (IsMulOp t) := by unfold IsMulOp; infer_instance

instance (t : Token) : Decidable (IsAddOp t) := by unfold IsAddOp; infer_instance

/-- The flattening of operator/operand pairs into a token sequence. -/
def flatten (rest : List (Token × Token)) : List Token :=
  rest.flatMap fun x => [x.1, x.2]

/-- The left fold of operator/operand pairs onto a tree: each operator node
is labelled with the operator's text and has two children, the tree of
everything to its left and the node of the operand to its right. -/
def foldLeft (first : ASTNode) (rest : List (Token × Token)) : ASTNode :=
  rest.foldl (fun acc x => .mk x.1.value [acc, leaf x.2]) first

/-- The procedure `m'` refines `m`: wherever `m` does not run out of fuel, `m'` does the
same. -/
def Refines {α : Type} (m m' : PM α) : Prop :=
  ∀ p, m p ≠ .outOfFuel → m' p = m p

/-- A token of kind `and` or `or`. -/
def IsLogicOp (t : Token) : Prop := t.type = .AND ∨ t.type = .OR

instance (t : Token) : Decidable (IsLogicOp t) := by unfold IsLogicOp; infer_instance

/-- The node `Cond` builds for the relation `x r y` of two operands
(lines 418-421 and 444-452). -/
def relNode (x r y : Token) : ASTNode :=
  .mk "条件表达式" [leaf x, .mk ("关系符: " ++ r.value) [], leaf y]

end Parser

namespace Lexer

/-- The keywords of lines 104-116 with their token kinds. -/
def keywordTable : List (String × TokenType) :=
  [("program", .PROGRAM), ("begin", .BEGIN), ("end", .END), ("if", .IF), ("then", .THEN), ("while", .WHILE), ("do", .DO), ("and", .AND), ("or", .OR), ("not", .NOT), ("else", .ELSE), ("break", .BREAK), ("mod", .MOD)]

/-- The texts of the tokens of kind `RELOP` (lines 153-178). -/
def relops : List String := ["=", "<>", "<", "<=", ">", ">=", "!="]

/-- The texts of the tokens of an arithmetic operator kind. -/
def arithops : List String := ["+", "-", "*", "/", "mod"]

/-- What the tokenizer guarantees about the text of an operator token. -/
def TokenOK (t : Token) : Prop :=
  (t.type = .RELOP → t.value ∈ relops) ∧
  ((t.type = .PLUS ∨ t.type = .MINUS ∨ t.type = .MUL ∨ t.type = .DIV ∨ t.type = .MOD) →
    t.value ∈ arithops)

end Lexer

namespace ASTNode

mutual
/-- All nodes of a tree, in pre-order. -/
def nodes : ASTNode → List ASTNode
  | mk v cs => mk v cs :: nodesList cs
/-- All nodes of a list of trees. -/
def nodesList : List ASTNode → List ASTNode
  | [] => []
  | c :: cs => nodes c ++ nodesList cs
end

end ASTNode

namespace Parser

open Lexer

/-- A label is fine: if it is a '关系符: ' label, its operator is one of the
texts of `relops`. -/
def LabelOK (s : String) : Prop := ∀ v, s = "关系符: " ++ v → v ∈ relops

/-- Every '关系符: ' node of a tree carries one of the texts of `relops`. -/
def Good (t : ASTNode) : Prop := ∀ n ∈ t.nodes, LabelOK n.value

/-- The procedure `m` keeps the guarantee of the tokenizer on the lookahead and returns
values that satisfy `Q`. -/
def Sat {α : Type} (Q : α → Prop) (m : PM α) : Prop :=
  ∀ p, TokenOK p.currentToken →
    match m p with
    | .ok a p1 => Q a ∧ TokenOK p1.currentToken
    | .error _ _ => True
    | .outOfFuel => True

/-- The parser states `p` and `q` see the same lookahead and the same next
`k` tokens. -/
def Agrees (k : Nat) (p q : Parser) : Prop :=
  ∀ i, i ≤ k → (advanceN i q).currentToken = (advanceN i p).currentToken

/-- The procedure `m` reads its input only through the lookahead and the tokens it pulls:
it leaves the parser `k` tokens further, for some `k`, and does the same on
every state that agrees on the lookahead and the next `k` tokens. A
diagnostic names the text, line and column of the lookahead it leaves. -/
def Local {α : Type} (m : PM α) : Prop :=
  ∀ p,
    match m p with
    | .ok a p1 => ∃ k, p1 = advanceN k p ∧ ∀ q, Agrees k p q → m q = .ok a (advanceN k q)
    | .error d p1 => ∃ k, p1 = advanceN k p ∧
        d.value = p1.currentToken.value ∧ d.line = p1.currentToken.line ∧
        d.col = p1.currentToken.col ∧ ∀ q, Agrees k p q → m q = .error d (advanceN k q)
    | .outOfFuel => True

/-- A successful run of `m` leaves a lookahead that is neither `and` nor `or`. -/
def Ends (m : PM ASTNode) : Prop :=
  ∀ p t p1, m p = .ok t p1 → ¬ IsLogicOp p1.currentToken

/-- The size of the input the parser has not consumed yet: the unread
characters of the tokenizer, plus one for a lookahead that is not the
end-of-file token. -/
def remaining (p : Parser) : Nat :=
  p.lexer.rest.length + (if p.currentToken.type = .END_OF_FILE then 0 else 1)

/-- On every state with at most `N` of the input left, `m` does not use up the
recursion bound, and it leaves no more of the input than it found. -/
def Halts (N : Nat) {α : Type} (m : PM α) : Prop :=
  ∀ p, remaining p ≤ N →
    match m p with
    | .ok _ p1 => remaining p1 ≤ remaining p
    | .error _ _ => True
    | .outOfFuel => False

/-- On every state with at most `N` of the input left, `m` does not use up the
recursion bound, and when it succeeds it has consumed at least one token. -/
def Advances (N : Nat) {α : Type} (m : PM α) : Prop :=
  ∀ p, remaining p ≤ N →
    match m p with
    | .ok _ p1 => remaining p1 < remaining p
    | .error _ _ => True
    | .outOfFuel => False

/-- The method `Parser::parse` (lines 475-486): the recursion bound of three per
unit of remaining input, plus six, is never used up (see
`parseFuel_remaining`). -/
def parse (p : Parser) : ParseResult :=
  match parseFuel (3 * remaining p + 6) p with
  | some r => r
  | none => { root := none, out := [], parser := p }

/-- Two tokens of the same kind and text (their positions may differ). -/
def SameToken (t u : Token) : Prop := t.type = u.type ∧ t.value = u.value

/-- Both tokens end a statement: each is `end` or `;`. -/
def BothStop (t u : Token) : Prop :=
  (t.type = .END ∨ t.type = .SEMICOLON) ∧ (u.type = .END ∨ u.type = .SEMICOLON)

/-- The relation between tokens that never holds. -/
def Never (_ _ : Token) : Prop := False

/-- The states `p` and `q` see the same input for `k` tokens: the lookahead and
the tokens after it, `k` in all, have the same kinds and texts, and the token
after these has the same kind and text or the two are related by `R`. -/
def Similar (R : Token → Token → Prop) (k : Nat) (p q : Parser) : Prop :=
  (∀ i, i < k → SameToken (advanceN i q).currentToken (advanceN i p).currentToken) ∧
  (SameToken (advanceN k q).currentToken (advanceN k p).currentToken ∨
    R (advanceN k q).currentToken (advanceN k p).currentToken)

/-- The lookahead of `p` and the tokens after it, `k` in all, are neither the
end-of-file token nor of kind `UNKNOWN`. -/
def Eaten (k : Nat) (p : Parser) : Prop :=
  ∀ i, i < k → (advanceN i p).currentToken.type ≠ .END_OF_FILE ∧
    (advanceN i p).currentToken.type ≠ .UNKNOWN

/-- A successful run of `m` consumes some number `k` of tokens, none of them
end-of-file or `UNKNOWN`, and `m` succeeds with the same value, consuming `k`
tokens, on every state that sees the same input for `k` tokens. -/
def Uniform (R : Token → Token → Prop) {α : Type} (m : PM α) : Prop :=
  ∀ p a p1, m p = .ok a p1 →
    ∃ k, p1 = advanceN k p ∧ Eaten k p ∧ ∀ q, Similar R k p q → m q = .ok a (advanceN k q)

instance (t u : Token) : Decidable (SameToken t u) := by unfold SameToken; infer_instance

end Parser

/-! # Theorems -/

namespace Lexer

theorem track_append (xs ys : List Char) (lc : Nat × Nat) :
    track (xs ++ ys) lc = track ys (track xs lc) := by
  induction xs generalizing lc with
  | nil => rfl
  | cons c cs ih => simp only [List.cons_append, track]; split <;> exact ih _

theorem track_no_newline (xs : List Char) (lc : Nat × Nat) (h : '\n' ∉ xs) :
    track xs lc = (lc.1, lc.2 + xs.length) := by
  induction xs generalizing lc with
  | nil => rfl
  | cons c cs ih =>
    simp only [List.mem_cons, not_or] at h
    have hc : c ≠ '\n' := fun e => h.1 e.symm
    simp only [track, hc, if_false, List.length_cons]
    rw [ih _ h.2]; simp only [Prod.mk.injEq, true_and]; omega

theorem drop_length_takeWhile (p : Char → Bool) (cs : List Char) :
    cs.drop (cs.takeWhile p).length = cs.dropWhile p := by
  induction cs with
  | nil => rfl
  | cons c cs ih =>
    by_cases h : p c = true <;> simp [List.takeWhile_cons, List.dropWhile_cons, h, ih]

theorem rest_length (lx : Lexer) : lx.rest.length = lx.source.length - lx.pos := by
  simp [rest]

theorem rest_advance (lx : Lexer) (k l c : Nat) :
    ({ source := lx.source, pos := lx.pos + k, line := l, col := c } : Lexer).rest
      = lx.rest.drop k := by
  simp [rest, List.drop_drop, Nat.add_comm]

theorem skipWhitespaceLoop_eq (cs : List Char) (lx : Lexer) :
    skipWhitespaceLoop cs lx =
      { source := lx.source, pos := lx.pos + (cs.takeWhile isspace).length,
        line := (track (cs.takeWhile isspace) (lx.line, lx.col)).1,
        col := (track (cs.takeWhile isspace) (lx.line, lx.col)).2 } := by
  induction cs generalizing lx with
  | nil => rfl
  | cons c cs ih =>
    by_cases hs : isspace c = true
    · by_cases hn : c = '\n'
      · simp only [skipWhitespaceLoop, hs, hn, if_true, List.takeWhile_cons, track, ih,
          List.length_cons]
        simp only [← hn, hs, if_true, List.length_cons, track, Lexer.mk.injEq, true_and,
          and_true]
        omega
      · simp only [skipWhitespaceLoop, hs, hn, if_true, if_false, List.takeWhile_cons, track, ih,
          List.length_cons, Lexer.mk.injEq, true_and, and_true]
        omega
    · simp [skipWhitespaceLoop, hs, List.takeWhile_cons, track]

theorem skipCommentLoop_eq (cs : List Char) (lx : Lexer) :
    skipCommentLoop cs lx =
      { source := lx.source, pos := lx.pos + (commentSpan cs).length,
        line := (track (commentSpan cs) (lx.line, lx.col)).1,
        col := (track (commentSpan cs) (lx.line, lx.col)).2 } := by
  induction cs generalizing lx with
  | nil => rfl
  | cons c cs ih =>
    by_cases hc : c = '}'
    · subst hc
      simp [skipCommentLoop, commentSpan, List.takeWhile_cons, List.dropWhile_cons, track]
    · by_cases hn : c = '\n'
      · subst hn
        simp only [skipCommentLoop, ih, commentSpan]
        simp [List.takeWhile_cons, List.dropWhile_cons, track]
        omega
      · simp only [skipCommentLoop, ih, commentSpan]
        simp [List.takeWhile_cons, List.dropWhile_cons, track, hc, hn]
        omega

theorem commentSpan_drop (cs : List Char) :
    cs.drop (commentSpan cs).length = (cs.dropWhile (fun c => c ≠ '}')).drop 1 := by
  induction cs with
  | nil => rfl
  | cons c cs ih =>
    by_cases hc : c = '}'
    · subst hc; simp [commentSpan, List.takeWhile_cons, List.dropWhile_cons]
    · simp only [commentSpan] at ih ⊢
      simp [List.takeWhile_cons, List.dropWhile_cons, hc] 
      simpa using ih

theorem scanLoop_eq (p : Char → Bool) (cs acc : List Char) (lx : Lexer) :
    scanLoop p cs acc lx =
      (acc ++ cs.takeWhile p,
        { source := lx.source, pos := lx.pos + (cs.takeWhile p).length, line := lx.line,
          col := lx.col + (cs.takeWhile p).length }) := by
  induction cs generalizing acc lx with
  | nil => simp [scanLoop]
  | cons c cs ih =>
    by_cases h : p c = true
    · simp only [scanLoop, h, if_true, ih, List.takeWhile_cons, List.length_cons,
        List.append_assoc, List.singleton_append, Prod.mk.injEq, Lexer.mk.injEq, true_and]
      omega
    · simp [scanLoop, h, List.takeWhile_cons]

theorem skipWhitespace_eq (lx : Lexer) :
    skipWhitespace lx =
      { source := lx.source, pos := lx.pos + (lx.rest.takeWhile isspace).length,
        line := (track (lx.rest.takeWhile isspace) (lx.line, lx.col)).1,
        col := (track (lx.rest.takeWhile isspace) (lx.line, lx.col)).2 } :=
  skipWhitespaceLoop_eq _ _

theorem skipWhitespace_rest (lx : Lexer) :
    (skipWhitespace lx).rest = lx.rest.dropWhile isspace := by
  rw [skipWhitespace_eq, rest_advance, drop_length_takeWhile]

theorem skipComment_eq (lx : Lexer) :
    skipComment lx =
      { source := lx.source, pos := lx.pos + (commentSpan lx.rest).length,
        line := (track (commentSpan lx.rest) (lx.line, lx.col)).1,
        col := (track (commentSpan lx.rest) (lx.line, lx.col)).2 } :=
  skipCommentLoop_eq _ _

theorem skipComment_rest (lx : Lexer) :
    (skipComment lx).rest = (lx.rest.dropWhile (fun c => c ≠ '}')).drop 1 := by
  rw [skipComment_eq, rest_advance, commentSpan_drop]

theorem dropWhile_length_le (p : Char → Bool) (cs : List Char) :
    (cs.dropWhile p).length ≤ cs.length := by
  induction cs with
  | nil => simp
  | cons c cs ih =>
    by_cases h : p c = true
    · simp only [List.dropWhile_cons, h, if_true, List.length_cons]; omega
    · simp [List.dropWhile_cons, h]

theorem skipComment_rest_lt (lx : Lexer) (cs : List Char) (h : lx.rest = '{' :: cs) :
    (skipComment lx).rest.length < lx.rest.length := by
  rw [skipComment_rest, h]
  have h1 : ('{' : Char) ≠ '}' := by decide
  simp only [List.dropWhile_cons, ne_eq, h1, not_false_eq_true, decide_True, if_true,
    List.length_drop, List.length_cons]
  have := dropWhile_length_le (fun c => c ≠ '}') cs
  simp only [ne_eq] at this
  omega

theorem getNextTokenFuel_succ (n : Nat) (lx : Lexer) (r : Token × Lexer)
    (h : getNextTokenFuel n lx = some r) : getNextTokenFuel (n + 1) lx = some r := by
  induction n generalizing lx with
  | zero => simp [getNextTokenFuel] at h
  | succ n ih =>
    rw [getNextTokenFuel] at h ⊢
    split
    · simpa [*] using h
    · next ch cs hr =>
      rw [hr] at h
      simp only at h
      split
      · next hc => rw [if_pos hc] at h; exact ih _ h
      · next hc => rw [if_neg hc] at h; exact h

theorem getNextTokenFuel_mono (n m : Nat) (lx : Lexer) (r : Token × Lexer)
    (h : getNextTokenFuel n lx = some r) (hm : n ≤ m) : getNextTokenFuel m lx = some r := by
  induction hm with
  | refl => exact h
  | step _ ih => exact getNextTokenFuel_succ _ _ _ ih

/-- Termination of `getNextToken`: the bound `source.size() - pos + 1` on the
number of self-calls is never used up. -/
theorem getNextTokenFuel_isSome (n : Nat) (lx : Lexer) (h : lx.rest.length < n) :
    ∃ r, getNextTokenFuel n lx = some r := by
  induction n generalizing lx with
  | zero => omega
  | succ n ih =>
    rw [getNextTokenFuel]
    split
    · exact ⟨_, rfl⟩
    · next ch cs hr =>
      split
      · next hc =>
        subst hc
        apply ih
        have h1 := skipComment_rest_lt _ _ hr
        have h2 : (skipWhitespace lx).rest.length ≤ lx.rest.length := by
          rw [skipWhitespace_rest]; exact dropWhile_length_le _ _
        omega
      · exact ⟨_, rfl⟩

theorem getNextToken_eq_fuel (lx : Lexer) (n : Nat) (r : Token × Lexer)
    (h : getNextTokenFuel n lx = some r) : getNextToken lx = r := by
  obtain ⟨r', hr'⟩ := getNextTokenFuel_isSome (lx.source.length - lx.pos + 1) lx
    (by rw [rest_length]; omega)
  have : r' = r := by
    rcases Nat.le_total n (lx.source.length - lx.pos + 1) with hle | hle
    · have := getNextTokenFuel_mono _ _ _ _ h hle
      rw [hr'] at this; exact Option.some.inj this
    · have := getNextTokenFuel_mono _ _ _ _ hr' hle
      rw [h] at this; exact (Option.some.inj this).symm
  rw [getNextToken, hr', this]

theorem getNextToken_eof (lx : Lexer) (h : (skipWhitespace lx).rest = []) :
    getNextToken lx =
      ({ type := .END_OF_FILE, value := "", line := (skipWhitespace lx).line,
         col := (skipWhitespace lx).col }, skipWhitespace lx) := by
  apply getNextToken_eq_fuel lx 1
  rw [getNextTokenFuel]; simp only [h]

theorem getNextToken_comment (lx : Lexer) (cs : List Char)
    (h : (skipWhitespace lx).rest = '{' :: cs) :
    getNextToken lx = getNextToken (skipComment (skipWhitespace lx)) := by
  obtain ⟨r, hr⟩ := getNextTokenFuel_isSome _ (skipComment (skipWhitespace lx)) (Nat.lt_succ_self _)
  rw [getNextToken_eq_fuel _ _ _ hr]
  apply getNextToken_eq_fuel lx ((skipComment (skipWhitespace lx)).rest.length + 1 + 1)
  rw [getNextTokenFuel]; simp only [h, if_true]; exact hr

theorem getNextToken_token (lx : Lexer) (ch : Char) (cs : List Char)
    (h : (skipWhitespace lx).rest = ch :: cs) (hc : ch ≠ '{') :
    getNextToken lx = scanToken ch cs (skipWhitespace lx) := by
  apply getNextToken_eq_fuel lx 1
  rw [getNextTokenFuel]; simp only [h, hc, if_false]

theorem Skips.followedBy {a b c : Lexer} {s t : List Char} (h1 : Skips a s b) (h2 : Skips b t c) :
    Skips a (s ++ t) c where
  rest_eq := by rw [h1.rest_eq, h2.rest_eq, List.append_assoc]
  source_eq := by rw [h2.source_eq, h1.source_eq]
  pos_eq := by rw [h2.pos_eq, h1.pos_eq, List.length_append, Nat.add_assoc]
  line_col := by rw [track_append, ← h1.line_col, h2.line_col]

theorem skips_skipWhitespace (lx : Lexer) :
    Skips lx (lx.rest.takeWhile isspace) (skipWhitespace lx) where
  rest_eq := by rw [skipWhitespace_rest, List.takeWhile_append_dropWhile]
  source_eq := by rw [skipWhitespace_eq]
  pos_eq := by rw [skipWhitespace_eq]
  line_col := by rw [skipWhitespace_eq]

theorem commentSpan_append (cs : List Char) :
    commentSpan cs ++ (cs.dropWhile (fun c => c ≠ '}')).drop 1 = cs := by
  rw [commentSpan, List.append_assoc, List.take_append_drop, List.takeWhile_append_dropWhile]

theorem skips_skipComment (lx : Lexer) :
    Skips lx (commentSpan lx.rest) (skipComment lx) where
  rest_eq := by rw [skipComment_rest, commentSpan_append]
  source_eq := by rw [skipComment_eq]
  pos_eq := by rw [skipComment_eq]
  line_col := by rw [skipComment_eq]

theorem TokenSpec.of_skips {a b c : Lexer} {s sk : List Char} {t : Token}
    (h1 : Skips a s b) (h2 : TokenSpec b sk t c) : TokenSpec a (s ++ sk) t c where
  rest_eq := by rw [h1.rest_eq, h2.rest_eq, List.append_assoc]
  source_eq := by rw [h2.source_eq, h1.source_eq]
  pos_eq := by rw [h2.pos_eq, h1.pos_eq, List.length_append]; omega
  line_col := by rw [track_append, ← h1.line_col, h2.line_col]
  line_eq := h2.line_eq
  col_eq := h2.col_eq
  no_newline := h2.no_newline
  nonempty := h2.nonempty
  eof := h2.eof

theorem keywordType_ne_eof (s : String) : keywordType s ≠ .END_OF_FILE := by
  have key : ∀ (c : Prop) [Decidable c] (a b : TokenType),
      a ≠ .END_OF_FILE → b ≠ .END_OF_FILE → (if c then a else b) ≠ .END_OF_FILE := by
    intro c _ a b ha hb; split <;> assumption
  unfold keywordType
  repeat' apply key
  all_goals decide

theorem isspace_newline : isspace '\n' = true := by decide

theorem not_isIdentChar_newline : isIdentChar '\n' = false := by decide

theorem not_isdigit_newline : isdigit '\n' = false := by decide

theorem newline_not_mem_takeWhile (p : Char → Bool) (hp : p '\n' = false) (cs : List Char) :
    '\n' ∉ cs.takeWhile p := by
  intro h
  have := List.mem_takeWhile_imp h
  rw [hp] at this
  exact Bool.noConfusion this

theorem scanOperator_shape (ch : Char) (cs : List Char) :
    ∃ ty text, OpShape ch cs.head? ty text ∧ ∀ (lx : Lexer) (sc : Nat),
      scanOperator ch cs lx sc =
        ({ type := ty, value := String.mk text, line := lx.line, col := sc },
          afterOperator lx (text.length - 1)) := by
  by_cases h1 : ch = '+'
  · subst h1
    exact ⟨_, _, .plus _, fun lx sc => by simp [scanOperator, afterOperator]⟩
  by_cases h2 : ch = '-'
  · subst h2
    exact ⟨_, _, .minus _, fun lx sc => by simp [scanOperator, afterOperator]⟩
  by_cases h3 : ch = '*'
  · subst h3
    exact ⟨_, _, .mul _, fun lx sc => by simp [scanOperator, afterOperator]⟩
  by_cases h4 : ch = '/'
  · subst h4
    exact ⟨_, _, .div _, fun lx sc => by simp [scanOperator, afterOperator]⟩
  by_cases h5 : ch = '('
  · subst h5
    exact ⟨_, _, .lparen _, fun lx sc => by simp [scanOperator, afterOperator]⟩
  by_cases h6 : ch = ')'
  · subst h6
    exact ⟨_, _, .rparen _, fun lx sc => by simp [scanOperator, afterOperator]⟩
  by_cases h7 : ch = ';'
  · subst h7
    exact ⟨_, _, .semicolon _, fun lx sc => by simp [scanOperator, afterOperator]⟩
  by_cases h8 : ch = '.'
  · subst h8
    exact ⟨_, _, .dot _, fun lx sc => by simp [scanOperator, afterOperator]⟩
  by_cases h9 : ch = ':'
  · subst h9
    by_cases g0 : cs.head? = some '='
    · rw [g0]
      exact ⟨_, _, .assign, fun lx sc => by simp [scanOperator, afterOperator, g0]⟩
    exact ⟨_, _, .colon _ g0, fun lx sc => by simp [scanOperator, afterOperator, g0]⟩
  by_cases h10 : ch = '<'
  · subst h10
    by_cases g0 : cs.head? = some '='
    · rw [g0]
      exact ⟨_, _, .le, fun lx sc => by simp [scanOperator, afterOperator, g0]⟩
    by_cases g1 : cs.head? = some '>'
    · rw [g1]
      exact ⟨_, _, .ne, fun lx sc => by simp [scanOperator, afterOperator, g1]⟩
    exact ⟨_, _, .lt _ g0 g1, fun lx sc => by simp [scanOperator, afterOperator, g0, g1]⟩
  by_cases h11 : ch = '>'
  · subst h11
    by_cases g0 : cs.head? = some '='
    · rw [g0]
      exact ⟨_, _, .ge, fun lx sc => by simp [scanOperator, afterOperator, g0]⟩
    exact ⟨_, _, .gt _ g0, fun lx sc => by simp [scanOperator, afterOperator, g0]⟩
  by_cases h12 : ch = '='
  · subst h12
    exact ⟨_, _, .eq _, fun lx sc => by simp [scanOperator, afterOperator]⟩
  by_cases h13 : ch = '!'
  · subst h13
    by_cases g0 : cs.head? = some '='
    · rw [g0]
      exact ⟨_, _, .bangEq, fun lx sc => by simp [scanOperator, afterOperator, g0]⟩
    exact ⟨_, _, .bang _ g0, fun lx sc => by simp [scanOperator, afterOperator, g0]⟩
  exact ⟨_, _, .other ch _ h1 h2 h3 h4 h5 h6 h7 h8 h9 h10 h11 h12 h13, fun lx sc => by simp [scanOperator, afterOperator, h1, h2, h3, h4, h5, h6, h7, h8, h9, h10, h11, h12, h13]⟩

theorem scanOperator_of_shape (ch : Char) (n : Option Char) (ty : TokenType) (text : List Char)
    (h : OpShape ch n ty text) (cs : List Char) (hn : cs.head? = n) (lx : Lexer) (sc : Nat) :
    scanOperator ch cs lx sc =
      ({ type := ty, value := String.mk text, line := lx.line, col := sc },
        afterOperator lx (text.length - 1)) := by
  cases h <;> simp_all [scanOperator, afterOperator]

theorem OpShape.of_brace {ch : Char} {n : Option Char} {ty : TokenType} {text : List Char}
    (h : OpShape ch n ty text) (hl : text.length ≤ 1) : OpShape ch (some '{') ty text := by
  cases h
  case assign => simp at hl
  case le => simp at hl
  case ne => simp at hl
  case ge => simp at hl
  case bangEq => simp at hl
  case colon => exact .colon _ (by decide)
  case lt => exact .lt _ (by decide) (by decide)
  case gt => exact .gt _ (by decide)
  case bang => exact .bang _ (by decide)
  case other h1 h2 h3 h4 h5 h6 h7 h8 h9 h10 h11 h12 h13 =>
    exact .other _ _ h1 h2 h3 h4 h5 h6 h7 h8 h9 h10 h11 h12 h13
  all_goals constructor

theorem OpShape.text_cases {ch : Char} {n : Option Char} {ty : TokenType} {text : List Char}
    (h : OpShape ch n ty text) :
    ty ≠ .END_OF_FILE ∧
      (text = [ch] ∨ ∃ c, n = some c ∧ text = [ch, c] ∧ c ≠ '\n') := by
  cases h <;> simp

theorem scanOperator_spec (ch : Char) (cs : List Char) (lx : Lexer) (hr : lx.rest = ch :: cs)
    (hs : isspace ch = false) (r : Token × Lexer)
    (hres : scanOperator ch cs { lx with pos := lx.pos + 1, col := lx.col + 1 } lx.col = r) :
    TokenSpec lx [] r.1 r.2 := by
  have hn : ch ≠ '\n' := by
    intro e; rw [e, isspace_newline] at hs; exact Bool.noConfusion hs
  obtain ⟨ty, text, hsh, heq⟩ := scanOperator_shape ch cs
  rw [heq] at hres
  subst hres
  obtain ⟨hty, htext | ⟨c, hc, htext, hcn⟩⟩ := hsh.text_cases
  · subst htext
    refine ⟨?_, rfl, ?_, rfl, rfl, ?_, ?_, ?_, ?_⟩
    · rw [hr]
      simp only [List.nil_append, List.cons_append, List.length_singleton, Nat.sub_self,
        afterOperator, List.cons.injEq, true_and]
      rw [rest_advance, hr]; rfl
    · simp [String.length, afterOperator]
    · simp [String.length, afterOperator]
    · simpa using hn.symm
    · simp
    · intro h; exact absurd h hty
  · subst htext
    obtain ⟨t, rfl⟩ : ∃ t, cs = c :: t := by
      cases cs with
      | nil => simp at hc
      | cons d t => simp only [List.head?_cons, Option.some.injEq] at hc; exact ⟨t, by rw [hc]⟩
    refine ⟨?_, rfl, ?_, rfl, rfl, ?_, ?_, ?_, ?_⟩
    · rw [hr]
      simp only [List.nil_append, List.cons_append, List.cons.injEq, true_and, afterOperator,
        List.length_cons, List.length_nil]
      show t = (Lexer.mk lx.source (lx.pos + 1 + 1) lx.line (lx.col + 1 + 1)).rest
      rw [Nat.add_assoc, rest_advance, hr]; rfl
    · simp [String.length, afterOperator]
    · simp [String.length, afterOperator]
    · simp only [List.mem_cons, List.mem_singleton, not_or, List.not_mem_nil, or_false]
      exact ⟨hn.symm, hcn.symm⟩
    · simp
    · intro h; exact absurd h hty

theorem not_isspace_of_isalpha (c : Char) (h : isalpha c = true) : isspace c = false := by
  simp only [isalpha, isspace, Bool.or_eq_true, Bool.and_eq_true, decide_eq_true_eq] at h ⊢
  simp only [Bool.or_eq_false_iff, decide_eq_false_iff_not, Bool.and_eq_false_iff]
  omega

theorem scanToken_spec (ch : Char) (cs : List Char) (lx : Lexer) (hr : lx.rest = ch :: cs)
    (hs : isspace ch = false) :
    TokenSpec lx [] (scanToken ch cs lx).1 (scanToken ch cs lx).2 := by
  have run : ∀ (p : Char → Bool) (ty : TokenType), p '\n' = false → p ch = true →
      ty ≠ .END_OF_FILE →
      TokenSpec lx []
        { type := ty, value := String.mk (scanLoop p (ch :: cs) [] lx).1,
          line := (scanLoop p (ch :: cs) [] lx).2.line, col := lx.col }
        (scanLoop p (ch :: cs) [] lx).2 := by
    intro p ty hp hch hty
    rw [scanLoop_eq]
    refine ⟨?_, rfl, ?_, rfl, rfl, ?_, ?_, ?_, ?_⟩
    · rw [rest_advance, ← hr, drop_length_takeWhile]
      simp [List.takeWhile_append_dropWhile]
    · simp [String.length]
    · simp [String.length]
    · simpa using newline_not_mem_takeWhile p hp (ch :: cs)
    · intro _; simp [List.takeWhile_cons, hch]
    · intro h; exact absurd h hty
  unfold scanToken
  by_cases ha : isalpha ch = true
  · simp only [ha, if_true]
    exact run isIdentChar _ not_isIdentChar_newline (by simp [isIdentChar, isalnum, ha])
      (keywordType_ne_eof _)
  · simp only [ha, if_false]
    by_cases hd : isdigit ch = true
    · simp only [hd, if_true]
      exact run isdigit _ not_isdigit_newline hd (by decide)
    · simp only [hd, if_false]
      exact scanOperator_spec ch cs lx hr hs _ rfl

theorem dropWhile_head_not (p : Char → Bool) (cs : List Char) (c : Char) (t : List Char)
    (h : cs.dropWhile p = c :: t) : p c = false := by
  induction cs with
  | nil => simp at h
  | cons d ds ih =>
    by_cases hd : p d = true
    · rw [List.dropWhile_cons, if_pos hd] at h; exact ih h
    · rw [List.dropWhile_cons, if_neg hd] at h
      injection h with h1 _
      rw [← h1]; simpa using hd

/-- The effect of one call of `getNextToken`, for every tokenizer state. -/
theorem getNextToken_spec (lx : Lexer) :
    ∃ skipped, TokenSpec lx skipped (getNextToken lx).1 (getNextToken lx).2 := by
  generalize hn : lx.rest.length = n
  induction n using Nat.strong_induction_on generalizing lx with
  | _ n ih =>
    have hws := skips_skipWhitespace lx
    cases hrest : (skipWhitespace lx).rest with
    | nil =>
      rw [getNextToken_eof lx hrest]
      have hempty : TokenSpec (skipWhitespace lx) []
          { type := .END_OF_FILE, value := "", line := (skipWhitespace lx).line,
            col := (skipWhitespace lx).col } (skipWhitespace lx) := by
        refine ⟨?_, rfl, ?_, rfl, rfl, rfl, ?_, ?_, ?_⟩
        · simp [hrest]
        · simp
        · simp
        · simp
        · intro _; exact ⟨rfl, hrest⟩
      exact ⟨_, TokenSpec.of_skips hws hempty⟩
    | cons ch cs =>
      by_cases hc : ch = '{'
      · subst hc
        rw [getNextToken_comment lx cs hrest]
        have hlt := skipComment_rest_lt _ _ hrest
        have hle : (skipWhitespace lx).rest.length ≤ lx.rest.length := by
          rw [skipWhitespace_rest]; exact dropWhile_length_le _ _
        obtain ⟨sk, hsk⟩ := ih _ (by omega) (skipComment (skipWhitespace lx)) rfl
        exact ⟨_, TokenSpec.of_skips (hws.followedBy (skips_skipComment _)) hsk⟩
      · rw [getNextToken_token lx ch cs hrest hc]
        have hsp : isspace ch = false := by
          rw [skipWhitespace_rest] at hrest
          exact dropWhile_head_not _ _ _ _ hrest
        exact ⟨_, TokenSpec.of_skips hws (scanToken_spec ch cs _ hrest hsp)⟩

theorem track_start (xs : List Char) :
    track xs (1, 1) =
      (1 + xs.count '\n', 1 + ((xs.reverse).takeWhile (fun c => c ≠ '\n')).length) := by
  induction xs using List.reverseRecOn with
  | nil => rfl
  | append_singleton xs x ih =>
    rw [track_append, ih]
    by_cases hx : x = '\n'
    · subst hx
      simp [track, List.takeWhile_cons, List.count_append]
      omega
    · have hx' : ('\n' == x) = false := by simpa using fun e => hx e.symm
      simp [track, List.takeWhile_cons, List.count_append, hx, List.count_cons, hx']
      omega

theorem inv_new (src : List Char) : Inv (Lexer.new src) := by
  unfold Lexer.new
  split <;> exact ⟨Nat.zero_le _, rfl⟩

theorem take_add_of_rest (lx : Lexer) (a b : List Char) (hp : lx.pos ≤ lx.source.length)
    (h : lx.rest = a ++ b) : lx.source.take (lx.pos + a.length) = lx.source.take lx.pos ++ a := by
  have hsrc : lx.source = lx.source.take lx.pos ++ (a ++ b) := by
    rw [← h, rest, List.take_append_drop]
  have hlen : (lx.source.take lx.pos).length = lx.pos := by
    rw [List.length_take]; omega
  conv_lhs => rw [hsrc]
  rw [← List.append_assoc]
  have : lx.pos + a.length = (lx.source.take lx.pos ++ a).length := by
    rw [List.length_append, hlen]
  rw [this, List.take_left']
  rfl

theorem TokenSpec.inv {lx lx1 : Lexer} {sk : List Char} {t : Token}
    (h : TokenSpec lx sk t lx1) (hi : Inv lx) : Inv lx1 := by
  have hlen : lx.rest.length = sk.length + (t.value.data.length + lx1.rest.length) := by
    rw [h.rest_eq]; simp
  rw [rest_length] at hlen
  have hp := hi.pos_le
  have hl : t.value.length = t.value.data.length := rfl
  refine ⟨?_, ?_⟩
  · rw [h.source_eq, h.pos_eq]; omega
  · have h1 : lx.rest = (sk ++ t.value.data) ++ lx1.rest := by
      rw [h.rest_eq, List.append_assoc]
    have h2 := take_add_of_rest lx _ _ hp h1
    rw [h.source_eq, h.pos_eq]
    have h3 : lx.pos + sk.length + t.value.length = lx.pos + (sk ++ t.value.data).length := by
      rw [List.length_append]; omega
    rw [h3, h2, ← List.append_assoc, track_append, track_append, ← hi.line_col, ← h.line_col,
      track_no_newline _ _ h.no_newline, h.line_eq, h.col_eq]
    rfl

theorem inv_after (n : Nat) (lx : Lexer) (hi : Inv lx) : Inv (after n lx) := by
  induction n generalizing lx with
  | zero => exact hi
  | succ n ih =>
    obtain ⟨sk, hsk⟩ := getNextToken_spec lx
    exact ih _ (hsk.inv hi)

theorem after_source (n : Nat) (lx : Lexer) : (after n lx).source = lx.source := by
  induction n generalizing lx with
  | zero => rfl
  | succ n ih =>
    obtain ⟨sk, hsk⟩ := getNextToken_spec lx
    rw [after, ih, hsk.source_eq]

/-- C1. Every token returned by `getNextToken` on a state reachable from the
start of a source text carries the position of its first character: with
`tokenStart` the offset at which the token's text begins, its line is one
more than the number of newlines of the (BOM-stripped) text before that
offset, and its column is one more than the number of characters between the
last such newline (or the start of the text) and that offset. -/
theorem token_position_is_first_character (src : List Char) (n : Nat) :
    (after n (Lexer.new src)).pos ≤ tokenStart (after n (Lexer.new src)) ∧
    ((Lexer.new src).source.drop (tokenStart (after n (Lexer.new src)))).take
        (getNextToken (after n (Lexer.new src))).1.value.length
      = (getNextToken (after n (Lexer.new src))).1.value.data ∧
    (getNextToken (after n (Lexer.new src))).1.line
      = 1 + ((Lexer.new src).source.take (tokenStart (after n (Lexer.new src)))).count '\n' ∧
    (getNextToken (after n (Lexer.new src))).1.col
      = 1 + ((((Lexer.new src).source.take (tokenStart (after n (Lexer.new src)))).reverse).takeWhile
          (fun c => c ≠ '\n')).length := by
  generalize hlx : after n (Lexer.new src) = lx
  generalize hstart : tokenStart lx = start
  generalize ht : (getNextToken lx).1 = t
  have hstart' : (getNextToken lx).2.pos - t.value.length = start := by
    rw [← hstart, ← ht]; rfl
  obtain ⟨sk, hsk⟩ := getNextToken_spec lx
  rw [ht] at hsk
  have hi : Inv lx := hlx ▸ inv_after n _ (inv_new src)
  have hsrc : lx.source = (Lexer.new src).source := hlx ▸ after_source n _
  have hstart : start = lx.pos + sk.length := by
    rw [← hstart', hsk.pos_eq]; omega
  have htake := take_add_of_rest lx sk _ hi.pos_le hsk.rest_eq
  have hlc : (t.line, t.col) = track (lx.source.take start) (1, 1) := by
    rw [hstart, htake, track_append, ← hi.line_col]; exact hsk.line_col
  rw [track_start] at hlc
  rw [← hsrc]
  refine ⟨by omega, ?_, ?_, ?_⟩
  · have : lx.source.drop start = t.value.data ++ (getNextToken lx).2.rest := by
      have h1 : lx.source.drop start = lx.rest.drop sk.length := by
        rw [hstart, rest, List.drop_drop, Nat.add_comm]
      rw [h1, hsk.rest_eq, List.drop_left]
    rw [this]
    exact List.take_left' rfl
  · exact congrArg Prod.fst hlc
  · exact congrArg Prod.snd hlc

theorem skipWhitespace_of_rest_nil (lx : Lexer) (h : lx.rest = []) : skipWhitespace lx = lx := by
  rw [skipWhitespace_eq, h]; rfl

theorem getNextToken_of_rest_nil (lx : Lexer) (h : lx.rest = []) :
    getNextToken lx =
      ({ type := .END_OF_FILE, value := "", line := lx.line, col := lx.col }, lx) := by
  have h1 := skipWhitespace_of_rest_nil lx h
  have h2 := getNextToken_eof lx (by rw [h1]; exact h)
  rw [h1] at h2; exact h2

theorem getNextToken_eof_fixed (lx : Lexer) (h : (getNextToken lx).1.type = .END_OF_FILE) :
    getNextToken (getNextToken lx).2 = getNextToken lx := by
  obtain ⟨sk, hsk⟩ := getNextToken_spec lx
  obtain ⟨hv, hr⟩ := hsk.eof h
  rw [getNextToken_of_rest_nil _ hr]
  have hc := hsk.col_eq
  have hl := hsk.line_eq
  rw [hv] at hc
  generalize getNextToken lx = r at *
  obtain ⟨⟨ty, v, l, c⟩, lx1⟩ := r
  simp only at h hv hc hl
  subst h hv
  simp only [String.length, List.length_nil, Nat.add_zero] at hc
  rw [hc, hl]

/-- C2. Idempotent end-of-stream: once `getNextToken` has returned an
`END_OF_FILE` token, that token has empty text, and every later call on the
same tokenizer returns the same token (same kind, text, line and column) and
leaves the state (`pos`, `line`, `col`) as it was. -/
theorem eof_is_idempotent (lx : Lexer) (h : (getNextToken lx).1.type = .END_OF_FILE)
    (n : Nat) :
    (getNextToken lx).1.value = "" ∧
    after n (getNextToken lx).2 = (getNextToken lx).2 ∧
    getNextToken (after n (getNextToken lx).2) = ((getNextToken lx).1, (getNextToken lx).2) := by
  obtain ⟨sk, hsk⟩ := getNextToken_spec lx
  have hfix := getNextToken_eof_fixed lx h
  have hafter : after n (getNextToken lx).2 = (getNextToken lx).2 := by
    induction n with
    | zero => rfl
    | succ n ih => rw [after, hfix]; exact ih
  exact ⟨(hsk.eof h).1, hafter, by rw [hafter, hfix]⟩

theorem eof_is_idempotent_witness :
    (getNextToken (Lexer.new "a ".toList).getNextToken.2).1.type = .END_OF_FILE ∧
    (getNextToken (Lexer.new "a ".toList).getNextToken.2).1.value = "" ∧
    after 3 (getNextToken (Lexer.new "a ".toList).getNextToken.2).2
      = (getNextToken (Lexer.new "a ".toList).getNextToken.2).2 ∧
    getNextToken (after 3 (getNextToken (Lexer.new "a ".toList).getNextToken.2).2)
      = ({ type := .END_OF_FILE, value := "", line := 1, col := 3 },
         { source := "a ".toList, pos := 2, line := 1, col := 3 }) :=
  ⟨by decide, (eof_is_idempotent _ (by decide) 3).1, (eof_is_idempotent _ (by decide) 3).2.1,
    (eof_is_idempotent _ (by decide) 3).2.2.trans (by decide)⟩

theorem track_fst (xs : List Char) (lc : Nat × Nat) :
    (track xs lc).1 = lc.1 + xs.count '\n' := by
  induction xs generalizing lc with
  | nil => rfl
  | cons c cs ih =>
    by_cases hc : c = '\n'
    · subst hc; simp [track, ih]; omega
    · have hc' : ('\n' == c) = false := by simpa using fun e => hc e.symm
      simp [track, ih, hc, List.count_cons, hc']

theorem position_core (lx lx1 lx2 : Lexer) (t1 t2 : Token) (sk1 sk2 : List Char)
    (h1 : TokenSpec lx sk1 t1 lx1) (h2 : TokenSpec lx1 sk2 t2 lx2) :
    t1.line ≤ t2.line ∧
    (t1.line < t2.line ↔ '\n' ∈ (lx.source.drop (lx1.pos - t1.value.length)).take
      ((lx2.pos - t2.value.length) - (lx1.pos - t1.value.length))) ∧
    (t1.line = t2.line → t1.type ≠ .END_OF_FILE → t1.col < t2.col) := by
  have hl1 : t1.value.length = t1.value.data.length := rfl
  have hl2 : t2.value.length = t2.value.data.length := rfl
  have hs1 : lx1.pos - t1.value.length = lx.pos + sk1.length := by
    rw [h1.pos_eq]; omega
  have hs2 : lx2.pos - t2.value.length
      = lx.pos + sk1.length + t1.value.data.length + sk2.length := by
    rw [h2.pos_eq, h1.pos_eq]; omega
  have hseg : (lx.source.drop (lx1.pos - t1.value.length)).take
      ((lx2.pos - t2.value.length) - (lx1.pos - t1.value.length)) = t1.value.data ++ sk2 := by
    have e1 : lx.source.drop (lx.pos + sk1.length) = lx.rest.drop sk1.length := by
      rw [rest, List.drop_drop, Nat.add_comm]
    have e2 : lx.pos + sk1.length + t1.value.data.length + sk2.length - (lx.pos + sk1.length)
        = (t1.value.data ++ sk2).length := by
      rw [List.length_append]; omega
    rw [hs2, hs1, e1, h1.rest_eq, List.drop_left, h2.rest_eq, ← List.append_assoc, e2]
    exact List.take_left' rfl
  have hline : t2.line = t1.line + sk2.count '\n' := by
    have := congrArg Prod.fst h2.line_col
    rw [track_fst] at this
    simp only at this
    rw [this, h1.line_eq]
  refine ⟨by omega, ?_, ?_⟩
  · rw [hseg, List.mem_append, hline]
    constructor
    · intro h
      right
      exact List.count_pos_iff.mp (by omega)
    · rintro (h | h)
      · exact absurd h h1.no_newline
      · have := List.count_pos_iff.mpr h
        omega
  · intro he hne
    have hno : '\n' ∉ sk2 := by
      intro h
      have := List.count_pos_iff.mpr h
      omega
    have hcol := congrArg Prod.snd h2.line_col
    rw [track_no_newline _ _ hno] at hcol
    simp only at hcol
    have hpos : 0 < t1.value.data.length := List.length_pos.mpr (h1.nonempty hne)
    have := h1.col_eq
    rw [hcol]
    omega

/-- C4. Position monotonicity: for two tokens `t1`, `t2` returned by
consecutive calls of `getNextToken`, `t1.line ≤ t2.line`; `t2.line > t1.line`
exactly when a newline lies between the start of `t1` and the start of `t2`;
and when both are on the same line and `t1` is not `END_OF_FILE`,
`t1.col < t2.col`. -/
theorem position_is_monotone (lx : Lexer) :
    (getNextToken lx).1.line ≤ (getNextToken (getNextToken lx).2).1.line ∧
    ((getNextToken lx).1.line < (getNextToken (getNextToken lx).2).1.line ↔
      '\n' ∈ (lx.source.drop (tokenStart lx)).take
        (tokenStart (getNextToken lx).2 - tokenStart lx)) ∧
    ((getNextToken lx).1.line = (getNextToken (getNextToken lx).2).1.line →
      (getNextToken lx).1.type ≠ .END_OF_FILE →
      (getNextToken lx).1.col < (getNextToken (getNextToken lx).2).1.col) := by
  obtain ⟨sk1, h1⟩ := getNextToken_spec lx
  obtain ⟨sk2, h2⟩ := getNextToken_spec (getNextToken lx).2
  exact position_core _ _ _ _ _ _ _ h1 h2

theorem Agree.refl (r : Token × Lexer) : Agree r r := ⟨rfl, rfl, rfl⟩

theorem Agree.symm {r1 r2 : Token × Lexer} (h : Agree r1 r2) : Agree r2 r1 :=
  ⟨h.1.symm, h.2.1.symm, h.2.2.symm⟩

theorem Agree.chain {r1 r2 r3 : Token × Lexer} (h : Agree r1 r2) (h' : Agree r2 r3) :
    Agree r1 r3 :=
  ⟨h.1.trans h'.1, h.2.1.trans h'.2.1, h.2.2.trans h'.2.2⟩

theorem scanToken_alpha (ch : Char) (cs : List Char) (lx : Lexer) (h : isalpha ch = true) :
    scanToken ch cs lx =
      ({ type := keywordType (String.mk ((ch :: cs).takeWhile isIdentChar)),
         value := String.mk ((ch :: cs).takeWhile isIdentChar), line := lx.line, col := lx.col },
       { source := lx.source, pos := lx.pos + ((ch :: cs).takeWhile isIdentChar).length,
         line := lx.line, col := lx.col + ((ch :: cs).takeWhile isIdentChar).length }) := by
  unfold scanToken
  rw [if_pos h]
  simp only [scanLoop_eq, List.nil_append]

theorem scanToken_digit (ch : Char) (cs : List Char) (lx : Lexer) (ha : ¬ isalpha ch = true)
    (h : isdigit ch = true) :
    scanToken ch cs lx =
      ({ type := .NUM, value := String.mk ((ch :: cs).takeWhile isdigit), line := lx.line,
         col := lx.col },
       { source := lx.source, pos := lx.pos + ((ch :: cs).takeWhile isdigit).length,
         line := lx.line, col := lx.col + ((ch :: cs).takeWhile isdigit).length }) := by
  unfold scanToken
  rw [if_neg ha, if_pos h]
  simp only [scanLoop_eq, List.nil_append]

theorem scanToken_operator (ch : Char) (cs : List Char) (lx : Lexer) (ha : ¬ isalpha ch = true)
    (hd : ¬ isdigit ch = true) :
    scanToken ch cs lx
      = scanOperator ch cs { lx with pos := lx.pos + 1, col := lx.col + 1 } lx.col := by
  unfold scanToken
  rw [if_neg ha, if_neg hd]

theorem scanToken_fst (ch : Char) (cs : List Char) (lx lx' : Lexer) :
    (scanToken ch cs lx).1.type = (scanToken ch cs lx').1.type ∧
    (scanToken ch cs lx).1.value = (scanToken ch cs lx').1.value := by
  by_cases ha : isalpha ch = true
  · rw [scanToken_alpha _ _ _ ha, scanToken_alpha _ _ _ ha]
    exact ⟨rfl, rfl⟩
  · by_cases hd : isdigit ch = true
    · rw [scanToken_digit _ _ _ ha hd, scanToken_digit _ _ _ ha hd]
      exact ⟨rfl, rfl⟩
    · rw [scanToken_operator _ _ _ ha hd, scanToken_operator _ _ _ ha hd]
      obtain ⟨ty, text, _, h⟩ := scanOperator_shape ch cs
      rw [h, h]
      exact ⟨rfl, rfl⟩

theorem TokenSpec.rest_eq_drop {lx lx1 : Lexer} {t : Token} (h : TokenSpec lx [] t lx1) :
    lx1.rest = lx.rest.drop t.value.data.length := by
  rw [h.rest_eq, List.nil_append, List.drop_left]

theorem scanToken_agree (ch : Char) (cs : List Char) (lx lx' : Lexer)
    (h : lx.rest = ch :: cs) (h' : lx'.rest = ch :: cs) (hs : isspace ch = false) :
    Agree (scanToken ch cs lx) (scanToken ch cs lx') := by
  obtain ⟨h1, h2⟩ := scanToken_fst ch cs lx lx'
  refine ⟨h1, h2, ?_⟩
  rw [(scanToken_spec ch cs lx h hs).rest_eq_drop, (scanToken_spec ch cs lx' h' hs).rest_eq_drop,
    h, h', h2]

/-- The next token depends only on the unread text after its leading
whitespace. -/
theorem getNextToken_agree (lx lx' : Lexer)
    (h : lx.rest.dropWhile isspace = lx'.rest.dropWhile isspace) :
    Agree (getNextToken lx) (getNextToken lx') := by
  generalize hn : (skipWhitespace lx).rest.length = n
  induction n using Nat.strong_induction_on generalizing lx lx' with
  | _ n ih =>
    have hw : (skipWhitespace lx).rest = (skipWhitespace lx').rest := by
      rw [skipWhitespace_rest, skipWhitespace_rest, h]
    cases hrest : (skipWhitespace lx).rest with
    | nil =>
      rw [getNextToken_eof lx hrest, getNextToken_eof lx' (hw ▸ hrest)]
      exact ⟨rfl, rfl, hw⟩
    | cons ch cs =>
      have hrest' := hw ▸ hrest
      by_cases hc : ch = '{'
      · subst hc
        rw [getNextToken_comment lx cs hrest, getNextToken_comment lx' cs hrest']
        have hlt := skipComment_rest_lt _ _ hrest
        have hc2 : (skipComment (skipWhitespace lx)).rest
            = (skipComment (skipWhitespace lx')).rest := by
          rw [skipComment_rest, skipComment_rest, hw]
        have hle : (skipWhitespace (skipComment (skipWhitespace lx))).rest.length
            ≤ (skipComment (skipWhitespace lx)).rest.length := by
          rw [skipWhitespace_rest]; exact dropWhile_length_le _ _
        exact ih _ (by omega) _ _ (by rw [hc2]) rfl
      · rw [getNextToken_token lx ch cs hrest hc, getNextToken_token lx' ch cs hrest' hc]
        have hsp : isspace ch = false := by
          rw [skipWhitespace_rest] at hrest
          exact dropWhile_head_not _ _ _ _ hrest
        exact scanToken_agree ch cs _ _ hrest hrest' hsp

theorem getNextToken_agree_of_rest (lx lx' : Lexer) (h : lx.rest = lx'.rest) :
    Agree (getNextToken lx) (getNextToken lx') :=
  getNextToken_agree lx lx' (by rw [h])

theorem after_rest_congr (n : Nat) (lx lx' : Lexer) (h : lx.rest = lx'.rest) :
    (after n lx).rest = (after n lx').rest := by
  induction n generalizing lx lx' with
  | zero => exact h
  | succ n ih => exact ih _ _ (getNextToken_agree_of_rest lx lx' h).2.2

theorem nthToken_congr (n : Nat) (lx lx' : Lexer) (h : lx.rest = lx'.rest) :
    (nthToken n lx).type = (nthToken n lx').type ∧
    (nthToken n lx).value = (nthToken n lx').value := by
  have := getNextToken_agree_of_rest _ _ (after_rest_congr n lx lx' h)
  exact ⟨this.1, this.2.1⟩

theorem Trivia.append {w v : List Char} (hw : Trivia w) (hv : Trivia v) : Trivia (w ++ v) := by
  induction hw with
  | nil => exact hv
  | space c w hc _ ih => exact .space c _ hc ih
  | comment body w hb _ ih =>
    have : '{' :: (body ++ '}' :: w) ++ v = '{' :: (body ++ '}' :: (w ++ v)) := by simp
    rw [this]
    exact .comment body _ hb ih

theorem dropWhile_comment (body tail : List Char) (hb : '}' ∉ body) :
    (body ++ '}' :: tail).dropWhile (fun c => c ≠ '}') = '}' :: tail := by
  induction body with
  | nil => simp [List.dropWhile_cons]
  | cons c cs ih =>
    simp only [List.mem_cons, not_or] at hb
    have hc : c ≠ '}' := fun e => hb.1 e.symm
    simp only [List.cons_append, List.dropWhile_cons, ne_eq, hc, not_false_eq_true,
      decide_True, if_true]
    simpa using ih hb.2

/-- The tokenizer scans over whitespace and complete comments: the next token
after `w ++ x` is the next token after `x`. -/
theorem getNextToken_trivia {w : List Char} (hw : Trivia w) (x : List Char) (lx lx' : Lexer)
    (h : lx.rest = w ++ x) (h' : lx'.rest = x) :
    Agree (getNextToken lx) (getNextToken lx') := by
  induction hw generalizing lx with
  | nil => exact getNextToken_agree_of_rest _ _ (by rw [h, h']; rfl)
  | space c w hc _ ih =>
    let mid : Lexer := { source := w ++ x, pos := 0, line := 0, col := 0 }
    have hmid : mid.rest = w ++ x := rfl
    refine Agree.chain (getNextToken_agree lx mid ?_) (ih mid hmid)
    rw [h, hmid, List.cons_append, List.dropWhile_cons, if_pos hc]
  | comment body w hb _ ih =>
    have hsp : isspace '{' = false := by decide
    have hws : (skipWhitespace lx).rest = '{' :: (body ++ '}' :: (w ++ x)) := by
      rw [skipWhitespace_rest, h]
      simp [List.dropWhile_cons, hsp]
    rw [getNextToken_comment lx _ hws]
    apply ih
    rw [skipComment_rest, hws]
    have h1 : ('{' : Char) ≠ '}' := by decide
    simp only [List.dropWhile_cons, ne_eq, h1, not_false_eq_true, decide_True, if_true]
    have := dropWhile_comment body (w ++ x) hb
    simp only [ne_eq] at this
    rw [this]; rfl

theorem takeWhile_stable (p : Char → Bool) (l y1 y2 : List Char)
    (hlen : ((l ++ y1).takeWhile p).length ≤ l.length)
    (hd : y1.head? = y2.head? ∨ ∃ b, y2.head? = some b ∧ p b = false) :
    (l ++ y2).takeWhile p = (l ++ y1).takeWhile p := by
  induction l with
  | nil =>
    simp only [List.nil_append, List.length_nil, Nat.le_zero, List.length_eq_zero] at hlen ⊢
    rw [hlen]
    cases y2 with
    | nil => rfl
    | cons b t =>
      rcases hd with hd | ⟨b', hb, hp⟩
      · cases y1 with
        | nil => simp at hd
        | cons a t' =>
          simp only [List.head?_cons, Option.some.injEq] at hd
          subst hd
          by_cases ha : p a = true
          · simp [List.takeWhile_cons, ha] at hlen
          · simp [List.takeWhile_cons, ha]
      · simp only [List.head?_cons, Option.some.injEq] at hb
        subst hb
        simp [List.takeWhile_cons, hp]
  | cons x l ih =>
    by_cases hx : p x = true
    · simp only [List.cons_append, List.takeWhile_cons, hx, if_true, List.length_cons,
        Nat.add_le_add_iff_right] at hlen ⊢
      rw [ih hlen]
    · simp [List.takeWhile_cons, hx]

theorem dropWhile_append_of_ne_nil (p : Char → Bool) (r y : List Char)
    (h : r.dropWhile p ≠ []) : (r ++ y).dropWhile p = r.dropWhile p ++ y := by
  induction r with
  | nil => simp at h
  | cons c r ih =>
    by_cases hc : p c = true
    · simp only [List.cons_append, List.dropWhile_cons, hc, if_true] at h ⊢
      exact ih h
    · simp [List.dropWhile_cons, hc]

theorem dropWhile_append_of_eq_nil (p : Char → Bool) (r y : List Char)
    (h : r.dropWhile p = []) : (r ++ y).dropWhile p = y.dropWhile p := by
  induction r with
  | nil => rfl
  | cons c r ih =>
    by_cases hc : p c = true
    · simp only [List.cons_append, List.dropWhile_cons, hc, if_true] at h ⊢
      exact ih h
    · simp [List.dropWhile_cons, hc] at h

theorem dropWhile_idem (p : Char → Bool) (l : List Char) :
    (l.dropWhile p).dropWhile p = l.dropWhile p := by
  induction l with
  | nil => rfl
  | cons c l ih =>
    by_cases hc : p c = true
    · simp only [List.dropWhile_cons, hc, if_true]; exact ih
    · simp [List.dropWhile_cons, hc]

theorem rest_lt_of_not_eof (lx : Lexer) (h : (getNextToken lx).1.type ≠ .END_OF_FILE) :
    (getNextToken lx).2.rest.length < (skipWhitespace lx).rest.length := by
  have ha : Agree (getNextToken lx) (getNextToken (skipWhitespace lx)) :=
    getNextToken_agree _ _ (by rw [skipWhitespace_rest, dropWhile_idem])
  obtain ⟨sk, hsk⟩ := getNextToken_spec (skipWhitespace lx)
  have hne := hsk.nonempty (by rw [← ha.1]; exact h)
  have hpos : 0 < (getNextToken (skipWhitespace lx)).1.value.data.length :=
    List.length_pos.mpr hne
  have hlen := congrArg List.length hsk.rest_eq
  simp only [List.length_append] at hlen
  rw [ha.2.2]
  omega

theorem not_isIdentChar_brace : isIdentChar '{' = false := by decide

theorem not_isdigit_brace : isdigit '{' = false := by decide

theorem scanToken_stable (c : Char) (r y1 y2 : List Char)
    (hd : y1.head? = y2.head? ∨ y2.head? = some '{') (s1 s2 : Lexer)
    (h1 : s1.rest = c :: (r ++ y1)) (h2 : s2.rest = c :: (r ++ y2)) (hs : isspace c = false)
    (hlen : y1.length ≤ (scanToken c (r ++ y1) s1).2.rest.length) :
    ∃ r', (scanToken c (r ++ y1) s1).2.rest = r' ++ y1 ∧
      (scanToken c (r ++ y2) s2).2.rest = r' ++ y2 ∧
      (scanToken c (r ++ y1) s1).1.type = (scanToken c (r ++ y2) s2).1.type ∧
      (scanToken c (r ++ y1) s1).1.value = (scanToken c (r ++ y2) s2).1.value := by
  have e1 := (scanToken_spec c _ s1 h1 hs).rest_eq_drop
  have e2 := (scanToken_spec c _ s2 h2 hs).rest_eq_drop
  rw [h1] at e1
  rw [h2] at e2
  have hv : (scanToken c (r ++ y1) s1).1.value.data.length ≤ (c :: r).length := by
    have := congrArg List.length (scanToken_spec c _ s1 h1 hs).rest_eq
    rw [h1] at this
    simp only [List.length_cons, List.length_append, List.length_nil] at this
    simp only [List.length_cons]
    omega
  have key : (scanToken c (r ++ y1) s1).1.type = (scanToken c (r ++ y2) s2).1.type ∧
      (scanToken c (r ++ y1) s1).1.value = (scanToken c (r ++ y2) s2).1.value := by
    by_cases ha : isalpha c = true
    · rw [scanToken_alpha _ _ _ ha] at hv ⊢
      rw [scanToken_alpha _ _ _ ha]
      have hst := takeWhile_stable isIdentChar (c :: r) y1 y2 hv
        (hd.imp id fun h => ⟨_, h, not_isIdentChar_brace⟩)
      simp only [List.cons_append] at hst
      simp only [hst, and_self]
    · by_cases hdg : isdigit c = true
      · rw [scanToken_digit _ _ _ ha hdg] at hv ⊢
        rw [scanToken_digit _ _ _ ha hdg]
        have hst := takeWhile_stable isdigit (c :: r) y1 y2 hv
          (hd.imp id fun h => ⟨_, h, not_isdigit_brace⟩)
        simp only [List.cons_append] at hst
        simp only [hst, and_self]
      · rw [scanToken_operator _ _ _ ha hdg] at hv ⊢
        rw [scanToken_operator _ _ _ ha hdg]
        obtain ⟨ty, text, hsh, heq⟩ := scanOperator_shape c (r ++ y1)
        rw [heq] at hv ⊢
        have hsh2 : OpShape c (r ++ y2).head? ty text := by
          cases r with
          | nil =>
            rcases hd with hd | hd
            · simpa [← hd] using hsh
            · simp only [List.nil_append, hd]
              exact hsh.of_brace (by simpa using hv)
          | cons d r => simpa using hsh
        rw [scanOperator_of_shape c _ ty text hsh2 (r ++ y2) rfl]
        exact ⟨rfl, rfl⟩
  refine ⟨(c :: r).drop (scanToken c (r ++ y1) s1).1.value.data.length, ?_, ?_, key.1, key.2⟩
  · rw [e1, ← List.cons_append, List.drop_append_of_le_length hv]
  · rw [e2, ← key.2, ← List.cons_append, List.drop_append_of_le_length hv]

/-- A token that ends within `r` does not depend on the text after `r`, as
long as that text starts either with the same character or with an opening
brace. -/
theorem getNextToken_stable (r y1 y2 : List Char)
    (hd : y1.head? = y2.head? ∨ y2.head? = some '{') (lx1 lx2 : Lexer)
    (h1 : lx1.rest = r ++ y1) (h2 : lx2.rest = r ++ y2)
    (hne : (getNextToken lx1).1.type ≠ .END_OF_FILE)
    (hlen : y1.length ≤ (getNextToken lx1).2.rest.length) :
    ∃ r', (getNextToken lx1).2.rest = r' ++ y1 ∧ (getNextToken lx2).2.rest = r' ++ y2 ∧
      (getNextToken lx1).1.type = (getNextToken lx2).1.type ∧
      (getNextToken lx1).1.value = (getNextToken lx2).1.value := by
  generalize hn : r.length = n
  induction n using Nat.strong_induction_on generalizing r lx1 lx2 with
  | _ n ih =>
    have hlt := rest_lt_of_not_eof lx1 hne
    cases hr : r.dropWhile isspace with
    | nil =>
      exfalso
      have : (skipWhitespace lx1).rest.length ≤ y1.length := by
        rw [skipWhitespace_rest, h1, dropWhile_append_of_eq_nil _ _ _ hr]
        exact dropWhile_length_le _ _
      omega
    | cons c rt =>
      have hw1 : (skipWhitespace lx1).rest = c :: (rt ++ y1) := by
        rw [skipWhitespace_rest, h1, dropWhile_append_of_ne_nil _ _ _ (by rw [hr]; exact List.cons_ne_nil _ _), hr]; rfl
      have hw2 : (skipWhitespace lx2).rest = c :: (rt ++ y2) := by
        rw [skipWhitespace_rest, h2, dropWhile_append_of_ne_nil _ _ _ (by rw [hr]; exact List.cons_ne_nil _ _), hr]; rfl
      have hrt : rt.length < r.length := by
        have := dropWhile_length_le isspace r
        rw [hr] at this; simp only [List.length_cons] at this; omega
      by_cases hc : c = '{'
      · subst hc
        have g1 := getNextToken_comment lx1 _ hw1
        have g2 := getNextToken_comment lx2 _ hw2
        have hb : ('{' : Char) ≠ '}' := by decide
        have c1 : (skipComment (skipWhitespace lx1)).rest
            = ((rt ++ y1).dropWhile (fun c => c ≠ '}')).drop 1 := by
          rw [skipComment_rest, hw1]
          simp only [List.dropWhile_cons, ne_eq, hb, not_false_eq_true, decide_True, if_true]
        have c2 : (skipComment (skipWhitespace lx2)).rest
            = ((rt ++ y2).dropWhile (fun c => c ≠ '}')).drop 1 := by
          rw [skipComment_rest, hw2]
          simp only [List.dropWhile_cons, ne_eq, hb, not_false_eq_true, decide_True, if_true]
        rw [g1] at hne hlen ⊢
        rw [g2]
        cases hcl : rt.dropWhile (fun c => c ≠ '}') with
        | nil =>
          exfalso
          have hlt' := rest_lt_of_not_eof _ hne
          have : (skipWhitespace (skipComment (skipWhitespace lx1))).rest.length ≤ y1.length := by
            rw [skipWhitespace_rest, c1, dropWhile_append_of_eq_nil _ _ _ hcl]
            refine le_trans (dropWhile_length_le _ _) ?_
            rw [List.length_drop]
            have := dropWhile_length_le (fun c => c ≠ '}') y1
            simp only [ne_eq] at this ⊢
            omega
          omega
        | cons b r2 =>
          have hr2 : r2.length < rt.length := by
            have := dropWhile_length_le (fun c => c ≠ '}') rt
            rw [hcl] at this; simp only [List.length_cons] at this; omega
          rw [dropWhile_append_of_ne_nil _ _ _ (by rw [hcl]; exact List.cons_ne_nil _ _), hcl] at c1 c2
          exact ih r2.length (by omega) r2 _ _ c1 c2 hne hlen rfl
      · have hsp : isspace c = false := dropWhile_head_not _ _ _ _ hr
        rw [getNextToken_token lx1 c _ hw1 hc] at hlen ⊢
        rw [getNextToken_token lx2 c _ hw2 hc]
        exact scanToken_stable c rt y1 y2 hd _ _ hw1 hw2 hsp hlen

theorem bom_cond_iff (src : List Char) :
    (3 ≤ src.length ∧ src[0]? = some (Char.ofNat 0xEF) ∧ src[1]? = some (Char.ofNat 0xBB)
      ∧ src[2]? = some (Char.ofNat 0xBF)) ↔ src.take 3 = bom := by
  match src with
  | [] => simp [bom]
  | [a] => simp [bom]
  | [a, b] => simp [bom]
  | a :: b :: c :: rest => simp [bom]

theorem new_of_bom (src : List Char) (h : src.take 3 = bom) :
    Lexer.new src = { source := src.drop 3, pos := 0, line := 1, col := 1 } := by
  unfold Lexer.new
  rw [if_pos ((bom_cond_iff src).mpr h)]

theorem new_of_not_bom (src : List Char) (h : src.take 3 ≠ bom) :
    Lexer.new src = { source := src, pos := 0, line := 1, col := 1 } := by
  unfold Lexer.new
  rw [if_neg (fun hc => h ((bom_cond_iff src).mp hc))]

theorem new_eq (src : List Char) :
    Lexer.new src = { source := (Lexer.new src).source, pos := 0, line := 1, col := 1 } := by
  unfold Lexer.new
  split <;> rfl

theorem new_rest (src : List Char) : (Lexer.new src).rest = (Lexer.new src).source := by
  rw [new_eq]; rfl

theorem new_pos (src : List Char) : (Lexer.new src).pos = 0 := by
  rw [new_eq]

theorem take_three_length (src : List Char) (h : src.take 3 = bom) : 3 ≤ src.length := by
  have := congrArg List.length h
  simp only [List.length_take, bom, List.length_cons, List.length_nil] at this
  omega

/-- Inserting text that starts with an opening brace after the byte-order-mark
(if any) does not change what the constructor strips. -/
theorem new_source_insert (src x : List Char) (o : Nat) :
    (Lexer.new (src.take (bomLength src + o) ++ ('{' :: x ++ src.drop (bomLength src + o)))).source
      = (Lexer.new src).source.take o ++ ('{' :: x ++ (Lexer.new src).source.drop o) := by
  by_cases h : src.take 3 = bom
  · have hl := take_three_length src h
    have hbl : bomLength src = 3 := by
      rw [bomLength, new_of_bom src h]; simp only [List.length_drop]; omega
    have hsrc : src = bom ++ src.drop 3 := by
      conv_lhs => rw [← List.take_append_drop 3 src, h]
    rw [hbl, new_of_bom src h]
    simp only
    have h2 : (src.take (3 + o) ++ ('{' :: x ++ src.drop (3 + o))).take 3 = bom := by
      rw [List.take_append_of_le_length (by rw [List.length_take]; omega), List.take_take]
      rw [show min 3 (3 + o) = 3 by omega]; exact h
    rw [new_of_bom _ h2]
    simp only
    rw [List.drop_append_of_le_length (by rw [List.length_take]; omega), List.drop_take,
      List.drop_drop]
    simp [Nat.add_comm]
  · have hbl : bomLength src = 0 := by
      rw [bomLength, new_of_not_bom src h]; simp
    rw [hbl, new_of_not_bom src h, Nat.zero_add]
    simp only
    have h2 : (src.take o ++ ('{' :: x ++ src.drop o)).take 3 ≠ bom := by
      intro hc
      by_cases ho : 3 ≤ (src.take o).length
      · rw [List.take_append_of_le_length ho, List.take_take] at hc
        rw [List.length_take] at ho
        rw [show min 3 o = 3 by omega] at hc
        exact h hc
      · have hget := congrArg (fun l => l[(src.take o).length]?) hc
        simp only at hget
        rw [List.getElem?_take_of_lt (by omega), List.getElem?_append_right (Nat.le_refl _)] at hget
        simp only [Nat.sub_self, List.cons_append, List.getElem?_cons_zero] at hget
        generalize (src.take o).length = m at ho hget
        have hm : m = 0 ∨ m = 1 ∨ m = 2 := by omega
        rcases hm with rfl | rfl | rfl <;> revert hget <;> decide
    rw [new_of_not_bom _ h2]

theorem after_succ (n : Nat) (lx : Lexer) :
    after (n + 1) lx = (getNextToken (after n lx)).2 := by
  induction n generalizing lx with
  | zero => rfl
  | succ n ih => rw [after, ih]; rfl

theorem after_add (a b : Nat) (lx : Lexer) : after (a + b) lx = after b (after a lx) := by
  induction a generalizing lx with
  | zero => rw [Nat.zero_add]; rfl
  | succ a ih => rw [Nat.add_right_comm, after, ih]; rfl

theorem nthToken_add (a b : Nat) (lx : Lexer) :
    nthToken (a + b) lx = nthToken b (after a lx) := by
  rw [nthToken, after_add]; rfl

theorem getNextToken_rest_le (lx : Lexer) : (getNextToken lx).2.rest.length ≤ lx.rest.length := by
  obtain ⟨sk, hsk⟩ := getNextToken_spec lx
  rw [hsk.rest_eq]; simp only [List.length_append]; omega

theorem after_rest_le (n : Nat) (lx : Lexer) : (after n lx).rest.length ≤ lx.rest.length := by
  induction n generalizing lx with
  | zero => exact Nat.le_refl _
  | succ n ih => exact le_trans (ih _) (getNextToken_rest_le lx)

theorem after_rest_mono (j k : Nat) (lx : Lexer) (h : j ≤ k) :
    (after k lx).rest.length ≤ (after j lx).rest.length := by
  obtain ⟨d, rfl⟩ := Nat.exists_eq_add_of_le h
  rw [after_add]; exact after_rest_le _ _

theorem nthToken_eof_succ (n : Nat) (lx : Lexer) (h : (nthToken n lx).type = .END_OF_FILE) :
    (nthToken (n + 1) lx).type = .END_OF_FILE := by
  rw [nthToken, after_succ, getNextToken_eof_fixed _ h]; exact h

theorem nthToken_eof_mono (j k : Nat) (lx : Lexer) (hjk : j ≤ k)
    (h : (nthToken j lx).type = .END_OF_FILE) : (nthToken k lx).type = .END_OF_FILE := by
  induction hjk with
  | refl => exact h
  | step _ ih => exact nthToken_eof_succ _ _ ih

/-- The first `k` tokens do not depend on the text after the end of token
`k - 1`, as long as that text starts with the same character or with an
opening brace. -/
theorem tokens_stable (y1 y2 : List Char) (hd : y1.head? = y2.head? ∨ y2.head? = some '{')
    (lx1 lx2 : Lexer) (k : Nat) (hk : k = 0 ∨ (nthToken (k - 1) lx1).type ≠ .END_OF_FILE)
    (hy : (after k lx1).rest = y1) (a : List Char) (h1 : lx1.rest = a ++ y1)
    (h2 : lx2.rest = a ++ y2) (j : Nat) (hj : j ≤ k) :
    (∃ r, (after j lx1).rest = r ++ y1 ∧ (after j lx2).rest = r ++ y2) ∧
    ∀ i, i < j → (nthToken i lx1).type = (nthToken i lx2).type ∧
      (nthToken i lx1).value = (nthToken i lx2).value := by
  induction j with
  | zero => exact ⟨⟨a, h1, h2⟩, fun i hi => absurd hi (Nat.not_lt_zero _)⟩
  | succ j ih =>
    obtain ⟨⟨r, hr1, hr2⟩, hprev⟩ := ih (by omega)
    have hne : (getNextToken (after j lx1)).1.type ≠ .END_OF_FILE := by
      intro he
      rcases hk with hk | hk
      · omega
      · exact hk (nthToken_eof_mono j (k - 1) lx1 (by omega) he)
    have hlen : y1.length ≤ (getNextToken (after j lx1)).2.rest.length := by
      rw [← after_succ, ← hy]
      exact after_rest_mono _ _ _ hj
    obtain ⟨r', e1, e2, et, ev⟩ := getNextToken_stable r y1 y2 hd _ _ hr1 hr2 hne hlen
    refine ⟨⟨r', by rw [after_succ]; exact e1, by rw [after_succ]; exact e2⟩, fun i hi => ?_⟩
    rcases Nat.lt_succ_iff_lt_or_eq.mp hi with hlt | rfl
    · exact hprev i hlt
    · exact ⟨et, ev⟩

/-- C3. Comment transparency: a comment `{c}` whose text `c` has no closing
brace, inserted into a source at an offset between two tokens (outside any
comment), leaves the kinds and texts of all tokens as they were. -/
theorem comment_is_transparent (src c : List Char) (o : Nat) (hb : IsBoundary src o)
    (hc : '}' ∉ c) (n : Nat) :
    (nthToken n (Lexer.new (src.take o ++ ('{' :: (c ++ ['}']) ++ src.drop o)))).type
      = (nthToken n (Lexer.new src)).type ∧
    (nthToken n (Lexer.new (src.take o ++ ('{' :: (c ++ ['}']) ++ src.drop o)))).value
      = (nthToken n (Lexer.new src)).value := by
  obtain ⟨k, w, hk, hw, ⟨b, hwb⟩, ho⟩ := hb
  subst ho
  generalize hq : Lexer.new (src.take (bomLength src + ((after k (Lexer.new src)).pos + w.length))
    ++ ('{' :: (c ++ ['}']) ++ src.drop (bomLength src + ((after k (Lexer.new src)).pos
      + w.length)))) = lxQ
  have hqs := congrArg Lexer.source hq
  rw [new_source_insert] at hqs
  have hqr : lxQ.rest = lxQ.source := by rw [← hq, new_rest]
  generalize hp : Lexer.new src = lxP at *
  have hpr : lxP.rest = lxP.source := by rw [← hp, new_rest]
  have hinv : Inv (after k lxP) := inv_after k _ (hp ▸ inv_new src)
  have hsrc : (after k lxP).source = lxP.source := after_source k _
  -- the source splits at the end of token `k - 1`
  have hsplit : lxP.source = lxP.source.take (after k lxP).pos ++ (w ++ b) := by
    rw [hwb, rest, hsrc, List.take_append_drop]
  have htk : lxP.source.take ((after k lxP).pos + w.length)
      = lxP.source.take (after k lxP).pos ++ w := by
    have := take_add_of_rest (after k lxP) w b hinv.pos_le hwb.symm
    rw [hsrc] at this; exact this
  have hdr : lxP.source.drop ((after k lxP).pos + w.length) = b := by
    have : lxP.source.drop ((after k lxP).pos + w.length) = (after k lxP).rest.drop w.length := by
      rw [rest, hsrc, List.drop_drop, Nat.add_comm]
    rw [this, ← hwb, List.drop_left]
  rw [htk, hdr] at hqs
  have h1 : lxP.rest = lxP.source.take (after k lxP).pos ++ (w ++ b) := by
    rw [hpr]; exact hsplit
  have h2 : lxQ.rest = lxP.source.take (after k lxP).pos ++ (w ++ ('{' :: (c ++ '}' :: b))) := by
    rw [hqr, ← hqs]; simp
  have hd : (w ++ b).head? = (w ++ ('{' :: (c ++ '}' :: b))).head?
      ∨ (w ++ ('{' :: (c ++ '}' :: b))).head? = some '{' := by
    cases w with
    | nil => right; rfl
    | cons x w => left; rfl
  have hst := tokens_stable _ _ hd lxP lxQ k hk hwb.symm _ h1 h2 k (Nat.le_refl _)
  obtain ⟨⟨r, hr1, hr2⟩, hlow⟩ := hst
  have hrnil : r = [] := by
    have := congrArg List.length hr1
    rw [← hwb] at this
    simp only [List.length_append] at this
    exact List.length_eq_zero.mp (by omega)
  subst hrnil
  rw [List.nil_append] at hr1 hr2
  by_cases hn : n < k
  · exact ⟨(hlow n hn).1.symm, (hlow n hn).2.symm⟩
  · -- from token `k` on, both texts are scanned from `b` after whitespace and comments
    let mid : Lexer := { source := b, pos := 0, line := 0, col := 0 }
    have hmid : mid.rest = b := rfl
    have a1 : Agree (getNextToken (after k lxP)) (getNextToken mid) :=
      getNextToken_trivia hw b _ _ hr1 hmid
    have hw2 : Trivia (w ++ ('{' :: (c ++ '}' :: []))) := hw.append (.comment c [] hc .nil)
    have a2 : Agree (getNextToken (after k lxQ)) (getNextToken mid) :=
      getNextToken_trivia hw2 b _ _ (by rw [hr2]; simp) hmid
    have a12 := a2.chain a1.symm
    rcases Nat.eq_or_lt_of_le (Nat.le_of_not_lt hn) with rfl | hgt
    · exact ⟨a12.1, a12.2.1⟩
    · obtain ⟨d, rfl⟩ := Nat.exists_eq_add_of_le (Nat.succ_le_of_lt hgt)
      rw [nthToken_add, nthToken_add]
      apply nthToken_congr
      rw [after_succ, after_succ]
      exact a12.2.2

theorem comment_is_transparent_witness :
    IsBoundary "a  :=1".toList 2 ∧ '}' ∉ " x\n\x7b ".toList ∧
    (nthToken 1 (Lexer.new "a \x7b x\n\x7b \x7d :=1".toList)).type = .ASSIGN ∧
    (nthToken 1 (Lexer.new "a \x7b x\n\x7b \x7d :=1".toList)).value = ":=" :=
  have hb : IsBoundary "a  :=1".toList 2 :=
    ⟨1, [' '], Or.inr (by decide), .space _ _ (by decide) .nil, ⟨_, rfl⟩, by decide⟩
  ⟨hb, by decide,
    (comment_is_transparent "a  :=1".toList " x\n\x7b ".toList 2 hb (by decide) 1).1.trans
      (by decide),
    (comment_is_transparent "a  :=1".toList " x\n\x7b ".toList 2 hb (by decide) 1).2.trans
      (by decide)⟩

end Lexer

namespace Parser

open Lexer

theorem bind_apply {α β : Type} (m : PM α) (f : α → PM β) (p : Parser) :
    (m >>= f) p = match m p with
      | .ok a p1 => f a p1
      | .error d p1 => .error d p1
      | .outOfFuel => .outOfFuel := rfl

theorem bind_ok {α β : Type} (m : PM α) (f : α → PM β) (p p1 : Parser) (a : α)
    (h : m p = .ok a p1) : (m >>= f) p = f a p1 := by
  rw [bind_apply, h]

theorem bind_error {α β : Type} (m : PM α) (f : α → PM β) (p p1 : Parser) (d : Diagnostic)
    (h : m p = .error d p1) : (m >>= f) p = .error d p1 := by
  rw [bind_apply, h]

theorem pure_apply {α : Type} (a : α) (p : Parser) : (pure a : PM α) p = .ok a p := rfl

theorem lookahead_apply (p : Parser) : lookahead p = .ok p.currentToken p := rfl

theorem eat_ok (ty : TokenType) (p : Parser) (h : p.currentToken.type = ty) :
    eat ty p = .ok () (advance p) := by
  unfold eat
  rw [if_pos h]; rfl

theorem eat_error (ty : TokenType) (p : Parser) (h : p.currentToken.type ≠ ty) :
    eat ty p = .error (Diagnostic.mk ("应为 '" ++ expectedLabel ty ++ "'")
      p.currentToken.line p.currentToken.col p.currentToken.value) p := by
  unfold eat
  rw [if_neg h]; rfl

theorem Expr_succ (f : Nat) : Expr (f + 1) = (Term f >>= fun node => ExprLoop f node) := by
  rw [Expr]

theorem ExprLoop_succ (f : Nat) (node : ASTNode) :
    ExprLoop (f + 1) node = (lookahead >>= fun tok =>
      if tok.type = .PLUS ∨ tok.type = .MINUS then
        eat tok.type >>= fun _ => Term f >>= fun rhs => ExprLoop f (.mk tok.value [node, rhs])
      else pure node) := by
  rw [ExprLoop]

theorem Term_succ (f : Nat) : Term (f + 1) = (Factor f >>= fun node => TermLoop f node) := by
  rw [Term]

theorem TermLoop_succ (f : Nat) (node : ASTNode) :
    TermLoop (f + 1) node = (lookahead >>= fun tok =>
      if tok.type = .MUL ∨ tok.type = .DIV ∨ tok.type = .MOD then
        eat tok.type >>= fun _ => Factor f >>= fun rhs => TermLoop f (.mk tok.value [node, rhs])
      else pure node) := by
  rw [TermLoop]

theorem Factor_succ (f : Nat) :
    Factor (f + 1) = (lookahead >>= fun tok =>
      if tok.type = .NUM then
        eat .NUM >>= fun _ => pure (.mk ("数字: " ++ tok.value) [])
      else if tok.type = .ID then
        eat .ID >>= fun _ => pure (.mk ("变量: " ++ tok.value) [])
      else if tok.type = .LPAREN then
        eat .LPAREN >>= fun _ => Expr f >>= fun node => eat .RPAREN >>= fun _ => pure node
      else error "应为数字、变量或括号表达式") := by
  rw [Factor]

theorem Factor_operand (f : Nat) (p : Parser) (h : IsOperand p.currentToken) :
    Factor (f + 1) p = .ok (leaf p.currentToken) (advance p) := by
  rw [Factor_succ, bind_ok _ _ _ _ _ (lookahead_apply p)]
  rcases h with h | h
  · rw [if_pos h, bind_ok _ _ _ _ _ (eat_ok _ _ h), pure_apply, leaf, if_pos h]
  · have hn : p.currentToken.type ≠ .NUM := by rw [h]; decide
    rw [if_neg hn, if_pos h, bind_ok _ _ _ _ _ (eat_ok _ _ h), pure_apply, leaf, if_neg hn]

theorem TermLoop_stop (f : Nat) (node : ASTNode) (p : Parser) (h : ¬ IsMulOp p.currentToken) :
    TermLoop (f + 1) node p = .ok node p := by
  unfold IsMulOp at h
  rw [TermLoop_succ, bind_ok _ _ _ _ _ (lookahead_apply p), if_neg h, pure_apply]

theorem TermLoop_step (f : Nat) (node : ASTNode) (p : Parser) (h : IsMulOp p.currentToken) :
    TermLoop (f + 1) node p
      = (Factor f >>= fun rhs => TermLoop f (.mk p.currentToken.value [node, rhs])) (advance p) := by
  unfold IsMulOp at h
  rw [TermLoop_succ, bind_ok _ _ _ _ _ (lookahead_apply p), if_pos h,
    bind_ok _ _ _ _ _ (eat_ok _ _ rfl)]

theorem ExprLoop_stop (f : Nat) (node : ASTNode) (p : Parser) (h : ¬ IsAddOp p.currentToken) :
    ExprLoop (f + 1) node p = .ok node p := by
  unfold IsAddOp at h
  rw [ExprLoop_succ, bind_ok _ _ _ _ _ (lookahead_apply p), if_neg h, pure_apply]

theorem ExprLoop_step (f : Nat) (node : ASTNode) (p : Parser) (h : IsAddOp p.currentToken) :
    ExprLoop (f + 1) node p
      = (Term f >>= fun rhs => ExprLoop f (.mk p.currentToken.value [node, rhs])) (advance p) := by
  unfold IsAddOp at h
  rw [ExprLoop_succ, bind_ok _ _ _ _ _ (lookahead_apply p), if_pos h,
    bind_ok _ _ _ _ _ (eat_ok _ _ rfl)]

theorem Term_operand (f : Nat) (p : Parser) (h : IsOperand p.currentToken)
    (hn : ¬ IsMulOp (advance p).currentToken) :
    Term (f + 2) p = .ok (leaf p.currentToken) (advance p) := by
  rw [Term_succ, bind_ok _ _ _ _ _ (Factor_operand f p h), TermLoop_stop f _ _ hn]

theorem Expr_operand (f : Nat) (p : Parser) (h : IsOperand p.currentToken)
    (hn : ¬ IsMulOp (advance p).currentToken) (ha : ¬ IsAddOp (advance p).currentToken) :
    Expr (f + 3) p = .ok (leaf p.currentToken) (advance p) := by
  rw [Expr_succ, bind_ok _ _ _ _ _ (Term_operand f p h hn), ExprLoop_stop _ _ _ ha]

theorem advanceN_succ (n : Nat) (p : Parser) : advanceN (n + 1) p = advanceN n (advance p) := rfl

theorem upcoming_cons (n : Nat) (p : Parser) (t : Token) (l : List Token)
    (h : upcoming n p = t :: l) : p.currentToken = t := by
  cases n with
  | zero => simp only [upcoming, List.cons.injEq] at h; exact h.1
  | succ n => simp only [upcoming, List.cons.injEq] at h; exact h.1

theorem upcoming_tail (n : Nat) (p : Parser) (t : Token) (l : List Token)
    (h : upcoming (n + 1) p = t :: l) : upcoming n (advance p) = l := by
  simp only [upcoming, List.cons.injEq] at h; exact h.2

theorem ExprLoop_fold (rest : List (Token × Token)) (z : Token) (p : Parser) (node : ASTNode)
    (f : Nat) (hup : upcoming (2 * rest.length) p = flatten rest ++ [z])
    (hops : ∀ x ∈ rest, IsAddOp x.1) (hrest : ∀ x ∈ rest, IsOperand x.2)
    (hza : ¬ IsAddOp z) (hzm : ¬ IsMulOp z) (hf : rest.length + 3 ≤ f) :
    ExprLoop f node p = .ok (foldLeft node rest) (advanceN (2 * rest.length) p) := by
  induction rest generalizing p node f with
  | nil =>
    obtain ⟨f, rfl⟩ := Nat.exists_eq_add_of_le' (show 1 ≤ f by simp at hf; omega)
    have hz : p.currentToken = z := upcoming_cons _ _ _ _ hup
    rw [ExprLoop_stop _ _ _ (hz ▸ hza)]; rfl
  | cons x tl ih =>
    obtain ⟨f, rfl⟩ := Nat.exists_eq_add_of_le' (show 3 ≤ f by simp at hf; omega)
    have hlen : 2 * (x :: tl).length = 2 * tl.length + 1 + 1 := by simp; omega
    rw [hlen] at hup ⊢
    have hx1 : p.currentToken = x.1 := upcoming_cons _ _ _ _ hup
    have hup1 := upcoming_tail _ _ _ _ hup
    have hx2 : (advance p).currentToken = x.2 := upcoming_cons _ _ _ _ hup1
    have hup2 := upcoming_tail _ _ _ _ hup1
    have hnext : ¬ IsMulOp (advance (advance p)).currentToken := by
      cases tl with
      | nil => rw [upcoming_cons _ _ _ _ hup2]; exact hzm
      | cons y tl' =>
        rw [upcoming_cons _ _ _ _ hup2]
        have := hops y (by simp)
        unfold IsAddOp at this; unfold IsMulOp
        rcases this with h | h <;> rw [h] <;> decide
    have hop : IsAddOp p.currentToken := hx1 ▸ hops x (by simp)
    have hopd : IsOperand (advance p).currentToken := hx2 ▸ hrest x (by simp)
    rw [show f + 3 = (f + 2) + 1 from rfl, ExprLoop_step _ _ _ hop,
      bind_ok _ _ _ _ _ (Term_operand f _ hopd hnext), hx1, hx2, advanceN_succ, advanceN_succ]
    rw [ih (advance (advance p)) _ (f + 2) hup2 (fun y hy => hops y (by simp [hy]))
      (fun y hy => hrest y (by simp [hy])) (by simp at hf; omega)]
    rfl

theorem TermLoop_fold (rest : List (Token × Token)) (z : Token) (p : Parser) (node : ASTNode)
    (f : Nat) (hup : upcoming (2 * rest.length) p = flatten rest ++ [z])
    (hops : ∀ x ∈ rest, IsMulOp x.1) (hrest : ∀ x ∈ rest, IsOperand x.2)
    (hzm : ¬ IsMulOp z) (hf : rest.length + 2 ≤ f) :
    TermLoop f node p = .ok (foldLeft node rest) (advanceN (2 * rest.length) p) := by
  induction rest generalizing p node f with
  | nil =>
    obtain ⟨f, rfl⟩ := Nat.exists_eq_add_of_le' (show 1 ≤ f by simp at hf; omega)
    have hz : p.currentToken = z := upcoming_cons _ _ _ _ hup
    rw [TermLoop_stop _ _ _ (hz ▸ hzm)]; rfl
  | cons x tl ih =>
    obtain ⟨f, rfl⟩ := Nat.exists_eq_add_of_le' (show 2 ≤ f by simp at hf; omega)
    have hlen : 2 * (x :: tl).length = 2 * tl.length + 1 + 1 := by simp; omega
    rw [hlen] at hup ⊢
    have hx1 : p.currentToken = x.1 := upcoming_cons _ _ _ _ hup
    have hup1 := upcoming_tail _ _ _ _ hup
    have hx2 : (advance p).currentToken = x.2 := upcoming_cons _ _ _ _ hup1
    have hup2 := upcoming_tail _ _ _ _ hup1
    have hop : IsMulOp p.currentToken := hx1 ▸ hops x (by simp)
    have hopd : IsOperand (advance p).currentToken := hx2 ▸ hrest x (by simp)
    rw [show f + 2 = (f + 1) + 1 from rfl, TermLoop_step _ _ _ hop,
      bind_ok _ _ _ _ _ (Factor_operand f _ hopd), hx1, hx2, advanceN_succ, advanceN_succ]
    rw [ih (advance (advance p)) _ (f + 1) hup2 (fun y hy => hops y (by simp [hy]))
      (fun y hy => hrest y (by simp [hy])) (by simp at hf; omega)]
    rfl

theorem flatten_head_not_mul (rest : List (Token × Token)) (z t : Token) (l : List Token)
    (h : flatten rest ++ [z] = t :: l) (hops : ∀ x ∈ rest, IsAddOp x.1) (hzm : ¬ IsMulOp z) :
    ¬ IsMulOp t := by
  cases rest with
  | nil =>
    simp only [flatten, List.flatMap_nil, List.nil_append, List.cons.injEq] at h
    rw [← h.1]; exact hzm
  | cons y tl =>
    simp only [flatten, List.flatMap_cons, List.cons_append, List.cons.injEq] at h
    have := hops y (by simp)
    rw [← h.1]
    unfold IsAddOp at this; unfold IsMulOp
    rcases this with h | h <;> rw [h] <;> decide

theorem Term_fold (rest : List (Token × Token)) (first z : Token) (p : Parser) (f : Nat)
    (hup : upcoming (2 * rest.length + 1) p = first :: (flatten rest ++ [z]))
    (hfirst : IsOperand first) (hops : ∀ x ∈ rest, IsMulOp x.1)
    (hrest : ∀ x ∈ rest, IsOperand x.2) (hzm : ¬ IsMulOp z) (hf : rest.length + 3 ≤ f) :
    Term f p = .ok (foldLeft (leaf first) rest) (advanceN (2 * rest.length + 1) p) := by
  obtain ⟨f, rfl⟩ := Nat.exists_eq_add_of_le' (show 2 ≤ f by omega)
  have h0 : p.currentToken = first := upcoming_cons _ _ _ _ hup
  have hup1 := upcoming_tail _ _ _ _ hup
  rw [show f + 2 = (f + 1) + 1 from rfl, Term_succ,
    bind_ok _ _ _ _ _ (Factor_operand f p (h0 ▸ hfirst)), h0, advanceN_succ]
  exact TermLoop_fold rest z _ _ _ hup1 hops hrest hzm (by omega)

theorem Expr_fold (rest : List (Token × Token)) (first z : Token) (p : Parser) (f : Nat)
    (hup : upcoming (2 * rest.length + 1) p = first :: (flatten rest ++ [z]))
    (hfirst : IsOperand first) (hops : ∀ x ∈ rest, IsAddOp x.1)
    (hrest : ∀ x ∈ rest, IsOperand x.2) (hza : ¬ IsAddOp z) (hzm : ¬ IsMulOp z)
    (hf : rest.length + 4 ≤ f) :
    Expr f p = .ok (foldLeft (leaf first) rest) (advanceN (2 * rest.length + 1) p) := by
  obtain ⟨f, rfl⟩ := Nat.exists_eq_add_of_le' (show 3 ≤ f by omega)
  have h0 : p.currentToken = first := upcoming_cons _ _ _ _ hup
  have hup1 := upcoming_tail _ _ _ _ hup
  have hnext : ¬ IsMulOp (advance p).currentToken := by
    cases hfl : flatten rest ++ [z] with
    | nil => simp at hfl
    | cons t l =>
      rw [hfl] at hup1
      rw [upcoming_cons _ _ _ _ hup1]
      exact flatten_head_not_mul rest z t l hfl hops hzm
  rw [show f + 3 = (f + 2) + 1 from rfl, Expr_succ,
    bind_ok _ _ _ _ _ (Term_operand f p (h0 ▸ hfirst) hnext), h0, advanceN_succ]
  exact ExprLoop_fold rest z _ _ _ hup1 hops hrest hza hzm (by omega)

/-- C5. Left-associativity: on `n + 1` operands (numbers or identifiers)
separated by `n` operators `+`/`-` and followed by a token that continues
neither a sum nor a product, `Expr` succeeds and returns the left fold of the
operands, each operator node labelled with the operator's text and having two
children: the tree of everything to its left and the node of the operand to
its right. The same holds in `Term` for the operators `*`, `/` and `mod`. -/
theorem expr_and_term_fold_left (p : Parser) (first : Token) (rest : List (Token × Token))
    (z : Token) (fuel : Nat)
    (hup : upcoming (2 * rest.length + 1) p = first :: (flatten rest ++ [z]))
    (hfirst : IsOperand first) (hrest : ∀ x ∈ rest, IsOperand x.2) (hzm : ¬ IsMulOp z)
    (hfuel : rest.length + 4 ≤ fuel) :
    ((∀ x ∈ rest, IsAddOp x.1) → ¬ IsAddOp z →
      Expr fuel p = .ok (foldLeft (leaf first) rest) (advanceN (2 * rest.length + 1) p)) ∧
    ((∀ x ∈ rest, IsMulOp x.1) →
      Term fuel p = .ok (foldLeft (leaf first) rest) (advanceN (2 * rest.length + 1) p)) :=
  ⟨fun hops hza => Expr_fold rest first z p fuel hup hfirst hops hrest hza hzm hfuel,
   fun hops => Term_fold rest first z p fuel hup hfirst hops hrest hzm (by omega)⟩

theorem expr_and_term_fold_left_witness :
    Expr 6 (Parser.new (Lexer.new "1-2-3".toList))
      = .ok (.mk "-" [.mk "-" [.mk "数字: 1" [], .mk "数字: 2" []], .mk "数字: 3" []])
          (advanceN 5 (Parser.new (Lexer.new "1-2-3".toList))) ∧
    Term 6 (Parser.new (Lexer.new "8/x mod 2".toList))
      = .ok (.mk "mod" [.mk "/" [.mk "数字: 8" [], .mk "变量: x" []], .mk "数字: 2" []])
          (advanceN 5 (Parser.new (Lexer.new "8/x mod 2".toList))) :=
  ⟨(expr_and_term_fold_left (Parser.new (Lexer.new "1-2-3".toList))
      { type := .NUM, value := "1", line := 1, col := 1 }
      [({ type := .MINUS, value := "-", line := 1, col := 2 },
        { type := .NUM, value := "2", line := 1, col := 3 }),
       ({ type := .MINUS, value := "-", line := 1, col := 4 },
        { type := .NUM, value := "3", line := 1, col := 5 })]
      { type := .END_OF_FILE, value := "", line := 1, col := 6 } 6
      (by decide) (by decide) (by decide) (by decide) (by decide)).1 (by decide) (by decide),
   (expr_and_term_fold_left (Parser.new (Lexer.new "8/x mod 2".toList))
      { type := .NUM, value := "8", line := 1, col := 1 }
      [({ type := .DIV, value := "/", line := 1, col := 2 },
        { type := .ID, value := "x", line := 1, col := 3 }),
       ({ type := .MOD, value := "mod", line := 1, col := 5 },
        { type := .NUM, value := "2", line := 1, col := 9 })]
      { type := .END_OF_FILE, value := "", line := 1, col := 10 } 6
      (by decide) (by decide) (by decide) (by decide) (by decide)).2 (by decide)⟩

theorem not_mul_of_add (t : Token) (h : IsAddOp t) : ¬ IsMulOp t := by
  unfold IsAddOp at h; unfold IsMulOp
  rcases h with h | h <;> rw [h] <;> decide

/-- C6. Operator precedence: for operands `a`, `b`, `c`, an additive operator
`pop` and a multiplicative operator `mop`, `Expr` on `a pop b mop c` returns
the node `pop` with children `a` and the node `mop(b, c)`, and `Expr` on
`a mop b pop c` returns the node `pop` with children `mop(a, b)` and `c`. -/
theorem multiplication_binds_tighter (p : Parser) (a b c pop mop z : Token) (fuel : Nat)
    (ha : IsOperand a) (hb : IsOperand b) (hc : IsOperand c)
    (hp : IsAddOp pop) (hm : IsMulOp mop) (hza : ¬ IsAddOp z) (hzm : ¬ IsMulOp z)
    (hfuel : 6 ≤ fuel) :
    (upcoming 5 p = [a, pop, b, mop, c, z] →
      Expr fuel p = .ok (.mk pop.value [leaf a, .mk mop.value [leaf b, leaf c]])
        (advanceN 5 p)) ∧
    (upcoming 5 p = [a, mop, b, pop, c, z] →
      Expr fuel p = .ok (.mk pop.value [.mk mop.value [leaf a, leaf b], leaf c])
        (advanceN 5 p)) := by
  obtain ⟨f, rfl⟩ := Nat.exists_eq_add_of_le' hfuel
  constructor
  · intro hup
    have h0 := upcoming_cons _ _ _ _ hup
    have hup1 := upcoming_tail _ _ _ _ hup
    have h1 := upcoming_cons _ _ _ _ hup1
    have hup2 := upcoming_tail _ _ _ _ hup1
    have hterm : Term (f + 4) (advance (advance p))
        = .ok (.mk mop.value [leaf b, leaf c]) (advanceN 3 (advance (advance p))) :=
      Term_fold [(mop, c)] b z _ _ hup2 hb (by simpa using hm) (by simpa using hc) hzm
        (by simp)
    have hz : (advanceN 5 p).currentToken = z := by
      have h3 := upcoming_tail _ _ _ _ (upcoming_tail _ _ _ _ (upcoming_tail _ _ _ _ hup2))
      exact upcoming_cons _ _ _ _ h3
    rw [show f + 6 = (f + 5) + 1 from rfl, Expr_succ,
      bind_ok _ _ _ _ _ (Term_operand (f + 3) p (h0 ▸ ha) (h1 ▸ not_mul_of_add _ hp)),
      show f + 3 + 2 = (f + 4) + 1 from rfl, ExprLoop_step _ _ _ (h1 ▸ hp),
      bind_ok _ _ _ _ _ hterm, h0, h1]
    exact ExprLoop_stop _ _ _ (hz ▸ hza)
  · intro hup
    have hup3 := upcoming_tail _ _ _ _ (upcoming_tail _ _ _ _ (upcoming_tail _ _ _ _ hup))
    have hup' : upcoming 3 p = [a, mop, b, pop] := by
      simp only [upcoming, List.cons.injEq] at hup ⊢
      exact ⟨hup.1, hup.2.1, hup.2.2.1, hup.2.2.2.1, trivial⟩
    have hterm : Term (f + 5) p = .ok (.mk mop.value [leaf a, leaf b]) (advanceN 3 p) :=
      Term_fold [(mop, b)] a pop _ _ hup' ha (by simpa using hm) (by simpa using hb)
        (not_mul_of_add _ hp) (by simp)
    have hloop := ExprLoop_fold [(pop, c)] z (advanceN 3 p) (.mk mop.value [leaf a, leaf b])
      (f + 5) hup3 (by simpa using hp) (by simpa using hc) hza hzm (by simp)
    rw [show f + 6 = (f + 5) + 1 from rfl, Expr_succ, bind_ok _ _ _ _ _ hterm, hloop]
    rfl

theorem multiplication_binds_tighter_witness :
    Expr 6 (Parser.new (Lexer.new "2+3*4".toList))
      = .ok (.mk "+" [.mk "数字: 2" [], .mk "*" [.mk "数字: 3" [], .mk "数字: 4" []]])
          (advanceN 5 (Parser.new (Lexer.new "2+3*4".toList))) ∧
    Expr 6 (Parser.new (Lexer.new "a mod 3-b".toList))
      = .ok (.mk "-" [.mk "mod" [.mk "变量: a" [], .mk "数字: 3" []], .mk "变量: b" []])
          (advanceN 5 (Parser.new (Lexer.new "a mod 3-b".toList))) :=
  ⟨(multiplication_binds_tighter (Parser.new (Lexer.new "2+3*4".toList))
      { type := .NUM, value := "2", line := 1, col := 1 }
      { type := .NUM, value := "3", line := 1, col := 3 }
      { type := .NUM, value := "4", line := 1, col := 5 }
      { type := .PLUS, value := "+", line := 1, col := 2 }
      { type := .MUL, value := "*", line := 1, col := 4 }
      { type := .END_OF_FILE, value := "", line := 1, col := 6 } 6
      (by decide) (by decide) (by decide) (by decide) (by decide) (by decide) (by decide)
      (by decide)).1 (by decide),
   (multiplication_binds_tighter (Parser.new (Lexer.new "a mod 3-b".toList))
      { type := .ID, value := "a", line := 1, col := 1 }
      { type := .NUM, value := "3", line := 1, col := 7 }
      { type := .ID, value := "b", line := 1, col := 9 }
      { type := .MINUS, value := "-", line := 1, col := 8 }
      { type := .MOD, value := "mod", line := 1, col := 3 }
      { type := .END_OF_FILE, value := "", line := 1, col := 10 } 6
      (by decide) (by decide) (by decide) (by decide) (by decide) (by decide) (by decide)
      (by decide)).2 (by decide)⟩

theorem Cond_succ (fuel : Nat) :
    Cond (fuel + 1) = (do
    let tok ← lookahead
    if tok.type = .NOT then
      eat .NOT
      let operand ← Cond fuel
      pure (.mk ("逻辑非: " ++ tok.value) [operand])
    else if tok.type = .LPAREN then
      eat .LPAREN
      let leftNode ← Expr fuel
      let rel ← lookahead
      let node ←
        (if rel.type = .RELOP then do
          eat .RELOP
          let rightNode ← Expr fuel
          pure (ASTNode.mk "条件表达式" [leftNode, .mk ("关系符: " ++ rel.value) [], rightNode])
        else if rel.type = .RPAREN then
          error "括号内的条件表达式必须包含关系运算符"
        else
          error "括号内的条件表达式格式错误")
      eat .RPAREN
      CondLoop fuel node
    else
      let leftNode ← Expr fuel
      let rel ← lookahead
      if rel.type ≠ .RELOP then
        error "条件表达式中缺少关系运算符"
      else
        eat .RELOP
        let rightNode ← Expr fuel
        CondLoop fuel (.mk "条件表达式" [leftNode, .mk ("关系符: " ++ rel.value) [], rightNode])) := by
  rw [Cond]

theorem CondLoop_succ (fuel : Nat) (node : ASTNode) :
    CondLoop (fuel + 1) node = (do
    let tok ← lookahead
    if tok.type = .AND ∨ tok.type = .OR then
      eat tok.type
      let rhs ← Cond fuel
      CondLoop fuel (.mk ("逻辑符: " ++ tok.value) [node, rhs])
    else
      pure node) := by
  rw [CondLoop]

theorem Block_succ (fuel : Nat) :
    Block (fuel + 1) = (do
    eat .BEGIN
    let list ← StmtList fuel
    eat .END
    pure (.mk "块" [list])) := by
  rw [Block]

theorem StmtList_succ (fuel : Nat) :
    StmtList (fuel + 1) = (do
    let tok ← lookahead
    if tok.type = .END then
      pure (.mk "语句列表" [])
    else
      let first ← Stmt fuel
      StmtListLoop fuel [first]) := by
  rw [StmtList]

theorem StmtListLoop_succ (fuel : Nat) (children : List ASTNode) :
    StmtListLoop (fuel + 1) children = (do
    let tok ← lookahead
    if tok.type = .SEMICOLON then
      eat .SEMICOLON
      let next ← lookahead
      if next.type = .END then
        pure (.mk "语句列表" children)
      else
        let stmt ← Stmt fuel
        StmtListLoop fuel (children ++ [stmt])
    else
      pure (.mk "语句列表" children)) := by
  rw [StmtListLoop]

theorem Stmt_succ (fuel : Nat) :
    Stmt (fuel + 1) = (do
    let tok ← lookahead
    if tok.type = .ID then AssignStmt fuel
    else if tok.type = .IF then IfStmt fuel
    else if tok.type = .WHILE then WhileStmt fuel
    else if tok.type = .BREAK then BreakStmt
    else if tok.type = .BEGIN then
      let block ← Block fuel
      pure (.mk "语句块" [block])
    else if tok.type = .NUM then
      error "语句不能以数字开头，可能是赋值语句左值错误"
    else
      error "应为赋值语句、if语句、while语句、break语句或语句块") := by
  rw [Stmt]

theorem IfStmt_succ (fuel : Nat) :
    IfStmt (fuel + 1) = (do
    eat .IF
    let cond ← Cond fuel
    eat .THEN
    let tok ← lookahead
    let thenNode ← (if tok.type = .BEGIN then Block fuel else Stmt fuel)
    let tok2 ← lookahead
    if tok2.type = .ELSE then
      eat .ELSE
      let tok3 ← lookahead
      let elseNode ← (if tok3.type = .BEGIN then Block fuel else Stmt fuel)
      pure (.mk "If语句" [cond, thenNode, elseNode])
    else
      pure (.mk "If语句" [cond, thenNode])) := by
  rw [IfStmt]

theorem WhileStmt_succ (fuel : Nat) :
    WhileStmt (fuel + 1) = (do
    eat .WHILE
    let cond ← Cond fuel
    eat .DO
    let tok ← lookahead
    let body ← (if tok.type = .BEGIN then Block fuel else Stmt fuel)
    pure (.mk "While语句" [cond, body])) := by
  rw [WhileStmt]

theorem refines_refl {α : Type} (m : PM α) : Refines m m := fun _ _ => rfl

theorem refines_outOfFuel {α : Type} (m' : PM α) : Refines PM.outOfFuel m' :=
  fun _ h => absurd rfl h

theorem refines_bind {α β : Type} {m m' : PM α} {f f' : α → PM β} (hm : Refines m m')
    (hf : ∀ a, Refines (f a) (f' a)) : Refines (m >>= f) (m' >>= f') := by
  intro p hp
  rw [bind_apply] at hp
  rw [bind_apply, bind_apply]
  cases h : m p with
  | ok a p1 =>
    rw [h] at hp
    rw [hm p (by rw [h]; exact Outcome.noConfusion), h]
    exact hf a p1 hp
  | error d p1 =>
    rw [hm p (by rw [h]; exact Outcome.noConfusion), h]
  | outOfFuel => rw [h] at hp; exact absurd rfl hp

theorem refines_ite {α : Type} {c : Prop} [Decidable c] {a a' b b' : PM α}
    (ha : Refines a a') (hb : Refines b b') :
    Refines (if c then a else b) (if c then a' else b') := by
  split
  · exact ha
  · exact hb

theorem refines_expr (f : Nat) :
    Refines (Expr f) (Expr (f + 1)) ∧ (∀ node, Refines (ExprLoop f node) (ExprLoop (f + 1) node)) ∧
    Refines (Term f) (Term (f + 1)) ∧ (∀ node, Refines (TermLoop f node) (TermLoop (f + 1) node)) ∧
    Refines (Factor f) (Factor (f + 1)) := by
  induction f with
  | zero =>
    refine ⟨?_, fun _ => ?_, ?_, fun _ => ?_, ?_⟩ <;> exact refines_outOfFuel _
  | succ f ih =>
    obtain ⟨ihE, ihEL, ihT, ihTL, ihF⟩ := ih
    refine ⟨?_, fun node => ?_, ?_, fun node => ?_, ?_⟩
    all_goals
      first
        | rw [Expr_succ, Expr_succ] | rw [ExprLoop_succ, ExprLoop_succ]
        | rw [Term_succ, Term_succ] | rw [TermLoop_succ, TermLoop_succ]
        | rw [Factor_succ, Factor_succ]
      repeat' first
        | exact refines_refl _ | exact ihE | exact ihEL _ | exact ihT | exact ihTL _ | exact ihF
        | apply refines_bind | apply refines_ite | intro _

theorem refines_cond (f : Nat) :
    Refines (Cond f) (Cond (f + 1)) ∧
    (∀ node, Refines (CondLoop f node) (CondLoop (f + 1) node)) := by
  induction f with
  | zero => refine ⟨?_, fun _ => ?_⟩ <;> exact refines_outOfFuel _
  | succ f ih =>
    obtain ⟨ihC, ihCL⟩ := ih
    have ihE := (refines_expr f).1
    refine ⟨?_, fun node => ?_⟩
    all_goals
      first
        | rw [Cond_succ, Cond_succ] | rw [CondLoop_succ, CondLoop_succ]
      repeat' first
        | exact refines_refl _ | exact ihE | exact ihC | exact ihCL _
        | apply refines_bind | apply refines_ite | intro _

theorem refines_assign (f : Nat) : Refines (AssignStmt f) (AssignStmt (f + 1)) := by
  have ihE := (refines_expr f).1
  unfold AssignStmt
  repeat' first
    | exact refines_refl _ | exact ihE
    | apply refines_bind | apply refines_ite | intro _

theorem refines_stmt (f : Nat) :
    Refines (Block f) (Block (f + 1)) ∧ Refines (StmtList f) (StmtList (f + 1)) ∧
    (∀ l, Refines (StmtListLoop f l) (StmtListLoop (f + 1) l)) ∧
    Refines (Stmt f) (Stmt (f + 1)) ∧ Refines (IfStmt f) (IfStmt (f + 1)) ∧
    Refines (WhileStmt f) (WhileStmt (f + 1)) := by
  induction f with
  | zero =>
    refine ⟨?_, ?_, fun _ => ?_, ?_, ?_, ?_⟩ <;> exact refines_outOfFuel _
  | succ f ih =>
    obtain ⟨ihB, ihSL, ihSLL, ihS, ihI, ihW⟩ := ih
    have ihC := (refines_cond f).1
    have ihA := refines_assign f
    refine ⟨?_, ?_, fun l => ?_, ?_, ?_, ?_⟩
    all_goals
      first
        | rw [Block_succ, Block_succ] | rw [StmtList_succ, StmtList_succ]
        | rw [StmtListLoop_succ, StmtListLoop_succ] | rw [Stmt_succ, Stmt_succ]
        | rw [IfStmt_succ, IfStmt_succ] | rw [WhileStmt_succ, WhileStmt_succ]
      repeat' first
        | exact refines_refl _ | exact ihB | exact ihSL | exact ihSLL _ | exact ihS | exact ihI
        | exact ihW | exact ihC | exact ihA
        | apply refines_bind | apply refines_ite | intro _

theorem refines_program (f : Nat) : Refines (Program f) (Program (f + 1)) := by
  have ihB := (refines_stmt f).1
  unfold Program
  repeat' first
    | exact refines_refl _ | exact ihB
    | apply refines_bind | apply refines_ite | intro _

theorem refines_parseBody (f : Nat) : Refines (parseBody f) (parseBody (f + 1)) := by
  have ihP := refines_program f
  unfold parseBody
  repeat' first
    | exact refines_refl _ | exact ihP
    | apply refines_bind | apply refines_ite | intro _

theorem refines_le {α : Type} (m : Nat → PM α) (h : ∀ f, Refines (m f) (m (f + 1)))
    (f f' : Nat) (hle : f ≤ f') : Refines (m f) (m f') := by
  induction hle with
  | refl => exact refines_refl _
  | step _ ih =>
    intro p hp
    rw [h _ p (by rw [ih p hp]; exact hp), ih p hp]

theorem error_apply {α : Type} (msg : String) (p : Parser) :
    (error msg : PM α) p
      = .error (Diagnostic.mk msg p.currentToken.line p.currentToken.col p.currentToken.value) p :=
  rfl

theorem Cond_paren_no_relop (fuel : Nat) (p p1 : Parser) (node : ASTNode)
    (hl : p.currentToken.type = .LPAREN) (he : Expr fuel (advance p) = .ok node p1)
    (hr : p1.currentToken.type = .RPAREN) :
    Cond (fuel + 1) p = .error (Diagnostic.mk "括号内的条件表达式必须包含关系运算符"
      p1.currentToken.line p1.currentToken.col p1.currentToken.value) p1 := by
  have h1 : p.currentToken.type ≠ .NOT := by rw [hl]; decide
  have h2 : p1.currentToken.type ≠ .RELOP := by rw [hr]; decide
  rw [Cond_succ, bind_ok _ _ _ _ _ (lookahead_apply p), if_neg h1, if_pos hl,
    bind_ok _ _ _ _ _ (eat_ok _ _ hl), bind_ok _ _ _ _ _ he,
    bind_ok _ _ _ _ _ (lookahead_apply p1), if_neg h2, if_pos hr]
  exact bind_error _ _ _ _ _ (error_apply _ _)

/-- C7. Parenthesized-condition relop requirement: whenever `Cond` is entered
with lookahead `(` and the `Expr` parsed after it is followed directly by `)`,
`Cond` fails with the diagnostic "括号内的条件表达式必须包含关系运算符" that
reports the line, column and text of that `)`. In particular `IfStmt` on
`if (a+1) then a:=1 end` fails at line 1, column 8, and `IfStmt` on
`if (a<1) then a:=1 end` succeeds, leaving `end` as the lookahead. -/
theorem paren_condition_requires_relop :
    (∀ (fuel : Nat) (p p1 : Parser) (node : ASTNode),
      p.currentToken.type = .LPAREN → Expr fuel (advance p) = .ok node p1 →
      p1.currentToken.type = .RPAREN →
      Cond (fuel + 1) p = .error (Diagnostic.mk "括号内的条件表达式必须包含关系运算符"
        p1.currentToken.line p1.currentToken.col p1.currentToken.value) p1) ∧
    (∀ fuel, 6 ≤ fuel →
      IfStmt fuel (Parser.new (Lexer.new "if (a+1) then a:=1 end".toList))
        = .error (Diagnostic.mk "括号内的条件表达式必须包含关系运算符" 1 8 ")")
            (advanceN 5 (Parser.new (Lexer.new "if (a+1) then a:=1 end".toList)))) ∧
    (∀ fuel, 6 ≤ fuel →
      IfStmt fuel (Parser.new (Lexer.new "if (a<1) then a:=1 end".toList))
        = .ok (.mk "If语句"
            [.mk "条件表达式" [.mk "变量: a" [], .mk "关系符: <" [], .mk "数字: 1" []],
             .mk "赋值语句" [.mk "左值: a" [], .mk "数字: 1" []]])
            (advanceN 10 (Parser.new (Lexer.new "if (a<1) then a:=1 end".toList)))) ∧
    (advanceN 10 (Parser.new (Lexer.new "if (a<1) then a:=1 end".toList))).currentToken.type
      = .END := by
  refine ⟨Cond_paren_no_relop, fun fuel hf => ?_, fun fuel hf => ?_, by decide⟩
  · have h6 : IfStmt 6 (Parser.new (Lexer.new "if (a+1) then a:=1 end".toList))
        = .error (Diagnostic.mk "括号内的条件表达式必须包含关系运算符" 1 8 ")")
            (advanceN 5 (Parser.new (Lexer.new "if (a+1) then a:=1 end".toList))) := by
      decide
    rw [refines_le IfStmt (fun f => (refines_stmt f).2.2.2.2.1) 6 fuel hf _
      (by rw [h6]; exact Outcome.noConfusion), h6]
  · have h6 : IfStmt 6 (Parser.new (Lexer.new "if (a<1) then a:=1 end".toList))
        = .ok (.mk "If语句"
            [.mk "条件表达式" [.mk "变量: a" [], .mk "关系符: <" [], .mk "数字: 1" []],
             .mk "赋值语句" [.mk "左值: a" [], .mk "数字: 1" []]])
            (advanceN 10 (Parser.new (Lexer.new "if (a<1) then a:=1 end".toList))) := by
      decide
    rw [refines_le IfStmt (fun f => (refines_stmt f).2.2.2.2.1) 6 fuel hf _
      (by rw [h6]; exact Outcome.noConfusion), h6]

theorem paren_condition_requires_relop_witness :
    (Parser.new (Lexer.new "(a+1) then".toList)).currentToken.type = .LPAREN ∧
    Cond 5 (Parser.new (Lexer.new "(a+1) then".toList))
      = .error (Diagnostic.mk "括号内的条件表达式必须包含关系运算符" 1 5 ")")
          (advanceN 4 (Parser.new (Lexer.new "(a+1) then".toList))) :=
  ⟨by decide,
   paren_condition_requires_relop.1 4 (Parser.new (Lexer.new "(a+1) then".toList))
     (advanceN 4 (Parser.new (Lexer.new "(a+1) then".toList)))
     (.mk "+" [.mk "变量: a" [], .mk "数字: 1" []]) (by decide) (by decide) (by decide)⟩

theorem CondLoop_stop (f : Nat) (node : ASTNode) (p : Parser) (h : ¬ IsLogicOp p.currentToken) :
    CondLoop (f + 1) node p = .ok node p := by
  unfold IsLogicOp at h
  rw [CondLoop_succ, bind_ok _ _ _ _ _ (lookahead_apply p), if_neg h, pure_apply]

theorem CondLoop_step (f : Nat) (node : ASTNode) (p : Parser) (h : IsLogicOp p.currentToken) :
    CondLoop (f + 1) node p
      = (Cond f >>= fun rhs =>
          CondLoop f (.mk ("逻辑符: " ++ p.currentToken.value) [node, rhs])) (advance p) := by
  unfold IsLogicOp at h
  rw [CondLoop_succ, bind_ok _ _ _ _ _ (lookahead_apply p), if_pos h,
    bind_ok _ _ _ _ _ (eat_ok _ _ rfl)]

theorem not_ops_of_relop (t : Token) (h : t.type = .RELOP) : ¬ IsMulOp t ∧ ¬ IsAddOp t := by
  unfold IsMulOp IsAddOp; rw [h]; decide

theorem not_ops_of_rparen (t : Token) (h : t.type = .RPAREN) : ¬ IsMulOp t ∧ ¬ IsAddOp t := by
  unfold IsMulOp IsAddOp; rw [h]; decide

theorem not_ops_of_logic (t : Token) (h : IsLogicOp t) : ¬ IsMulOp t ∧ ¬ IsAddOp t := by
  unfold IsLogicOp at h; unfold IsMulOp IsAddOp
  rcases h with h | h <;> rw [h] <;> decide

/-- The plain branch of `Cond` on a relation `x r y` of two operands. -/
theorem Cond_rel (f : Nat) (p : Parser) (x r y t : Token)
    (hup : upcoming 3 p = [x, r, y, t])
    (hx : IsOperand x) (hr : r.type = .RELOP) (hy : IsOperand y)
    (ht : ¬ IsMulOp t ∧ ¬ IsAddOp t) :
    Cond (f + 4) p = CondLoop (f + 3) (relNode x r y) (advanceN 3 p) := by
  have h0 := upcoming_cons _ _ _ _ hup
  have hup1 := upcoming_tail _ _ _ _ hup
  have h1 := upcoming_cons _ _ _ _ hup1
  have hup2 := upcoming_tail _ _ _ _ hup1
  have h2 := upcoming_cons _ _ _ _ hup2
  have hup3 := upcoming_tail _ _ _ _ hup2
  have h3 := upcoming_cons _ _ _ _ hup3
  have hn1 : p.currentToken.type ≠ .NOT := by
    rw [h0]; rcases hx with h | h <;> rw [h] <;> decide
  have hn2 : p.currentToken.type ≠ .LPAREN := by
    rw [h0]; rcases hx with h | h <;> rw [h] <;> decide
  have hrel : (advance p).currentToken.type = .RELOP := by rw [h1]; exact hr
  have e1 : Expr (f + 3) p = .ok (leaf x) (advance p) := by
    rw [Expr_operand f p (h0 ▸ hx) (h1 ▸ (not_ops_of_relop r hr).1)
      (h1 ▸ (not_ops_of_relop r hr).2), h0]
  have e2 : Expr (f + 3) (advance (advance p)) = .ok (leaf y) (advance (advance (advance p))) := by
    rw [Expr_operand f _ (h2 ▸ hy) (h3 ▸ ht.1) (h3 ▸ ht.2), h2]
  rw [show f + 4 = (f + 3) + 1 from rfl, Cond_succ, bind_ok _ _ _ _ _ (lookahead_apply p),
    if_neg hn1, if_neg hn2, bind_ok _ _ _ _ _ e1, bind_ok _ _ _ _ _ (lookahead_apply _),
    if_neg (not_not.mpr hrel), bind_ok _ _ _ _ _ (eat_ok _ _ hrel), bind_ok _ _ _ _ _ e2, h1]
  rfl

/-- The parenthesized branch of `Cond` on `( x r y )`. -/
theorem Cond_paren_rel (f : Nat) (p : Parser) (lp x r y rp : Token)
    (hup : upcoming 4 p = [lp, x, r, y, rp])
    (hlp : lp.type = .LPAREN) (hx : IsOperand x) (hr : r.type = .RELOP) (hy : IsOperand y)
    (hrp : rp.type = .RPAREN) :
    Cond (f + 4) p = CondLoop (f + 3) (relNode x r y) (advanceN 5 p) := by
  have h0 := upcoming_cons _ _ _ _ hup
  have hup1 := upcoming_tail _ _ _ _ hup
  have h1 := upcoming_cons _ _ _ _ hup1
  have hup2 := upcoming_tail _ _ _ _ hup1
  have h2 := upcoming_cons _ _ _ _ hup2
  have hup3 := upcoming_tail _ _ _ _ hup2
  have h3 := upcoming_cons _ _ _ _ hup3
  have hup4 := upcoming_tail _ _ _ _ hup3
  have h4 := upcoming_cons _ _ _ _ hup4
  have hl : p.currentToken.type = .LPAREN := by rw [h0]; exact hlp
  have hn1 : p.currentToken.type ≠ .NOT := by rw [hl]; decide
  have hrel : (advance (advance p)).currentToken.type = .RELOP := by rw [h2]; exact hr
  have hrpar : (advance (advance (advance (advance p)))).currentToken.type = .RPAREN := by
    rw [h4]; exact hrp
  have e1 : Expr (f + 3) (advance p) = .ok (leaf x) (advance (advance p)) := by
    rw [Expr_operand f _ (h1 ▸ hx) (h2 ▸ (not_ops_of_relop r hr).1)
      (h2 ▸ (not_ops_of_relop r hr).2), h1]
  have e2 : Expr (f + 3) (advance (advance (advance p)))
      = .ok (leaf y) (advance (advance (advance (advance p)))) := by
    rw [Expr_operand f _ (h3 ▸ hy) (h4 ▸ (not_ops_of_rparen rp hrp).1)
      (h4 ▸ (not_ops_of_rparen rp hrp).2), h3]
  have e3 : (eat .RELOP >>= fun _ => Expr (f + 3) >>= fun rightNode =>
      (pure (ASTNode.mk "条件表达式" [leaf x, .mk ("关系符: " ++ r.value) [], rightNode])
        : PM ASTNode)) (advance (advance p))
      = .ok (relNode x r y) (advance (advance (advance (advance p)))) := by
    rw [bind_ok _ _ _ _ _ (eat_ok _ _ hrel), bind_ok _ _ _ _ _ e2]; rfl
  rw [show f + 4 = (f + 3) + 1 from rfl, Cond_succ, bind_ok _ _ _ _ _ (lookahead_apply p),
    if_neg hn1, if_pos hl, bind_ok _ _ _ _ _ (eat_ok _ _ hl), bind_ok _ _ _ _ _ e1,
    bind_ok _ _ _ _ _ (lookahead_apply _), if_pos hrel, h2, bind_ok _ _ _ _ _ e3,
    bind_ok _ _ _ _ _ (eat_ok _ _ hrpar)]
  rfl

theorem upcoming_drop (k n : Nat) (p : Parser) (l : List Token) (h : upcoming (k + n) p = l) :
    upcoming n (advanceN k p) = l.drop k := by
  induction k generalizing p l with
  | zero => rw [Nat.zero_add] at h; rw [← h]; rfl
  | succ k ih =>
    rw [Nat.add_right_comm] at h
    cases l with
    | nil => simp [upcoming] at h
    | cons t l => exact ih (advance p) l (upcoming_tail _ _ _ _ h)

theorem upcoming_take (k n : Nat) (p : Parser) (l : List Token) (h : upcoming (k + n) p = l) :
    upcoming k p = l.take (k + 1) := by
  induction k generalizing p l with
  | zero =>
    cases n with
    | zero => rw [← h]; rfl
    | succ n => rw [← h]; rfl
  | succ k ih =>
    rw [Nat.add_right_comm] at h
    cases l with
    | nil => simp [upcoming] at h
    | cons t l =>
      rw [upcoming, upcoming_cons _ _ _ _ h, ih (advance p) l (upcoming_tail _ _ _ _ h)]
      rfl

theorem advanceN_add (a b : Nat) (p : Parser) : advanceN (a + b) p = advanceN b (advanceN a p) := by
  induction a generalizing p with
  | zero => rw [Nat.zero_add]; rfl
  | succ a ih => rw [Nat.add_right_comm, advanceN_succ, ih]; rfl

/-- A chain `c1 o1 c2 o2 c3` of relations that starts in state `p1` after
`c1` has been read: the right operand of `o1` is the whole rest of the
chain. -/
theorem CondLoop_chain (f : Nat) (p : Parser) (c1 : ASTNode)
    (o1 x2 r2 y2 o2 x3 r3 y3 z : Token)
    (hup : upcoming 8 p = [o1, x2, r2, y2, o2, x3, r3, y3, z])
    (ho1 : IsLogicOp o1) (hx2 : IsOperand x2) (hr2 : r2.type = .RELOP) (hy2 : IsOperand y2)
    (ho2 : IsLogicOp o2) (hx3 : IsOperand x3) (hr3 : r3.type = .RELOP) (hy3 : IsOperand y3)
    (hz : ¬ IsLogicOp z) (hzo : ¬ IsMulOp z ∧ ¬ IsAddOp z) :
    CondLoop (f + 7) c1 p
      = .ok (.mk ("逻辑符: " ++ o1.value)
          [c1, .mk ("逻辑符: " ++ o2.value) [relNode x2 r2 y2, relNode x3 r3 y3]])
          (advanceN 8 p) := by
  have h0 := upcoming_cons _ _ _ _ hup
  have hupA : upcoming 3 (advanceN 1 p) = [x2, r2, y2, o2] := by
    have := upcoming_take 3 4 _ _ (upcoming_drop 1 7 p _ hup)
    simpa using this
  have hupB : upcoming 3 (advanceN 5 p) = [x3, r3, y3, z] := by
    have := upcoming_drop 5 3 p _ hup
    simpa using this
  have h4 : (advanceN 4 p).currentToken = o2 := by
    have := upcoming_drop 4 4 p _ hup
    exact upcoming_cons _ _ _ _ this
  have h8 : (advanceN 8 p).currentToken = z := by
    have := upcoming_drop 8 0 p _ hup
    exact upcoming_cons _ _ _ _ this
  have inner : Cond (f + 4) (advanceN 5 p) = .ok (relNode x3 r3 y3) (advanceN 8 p) := by
    rw [Cond_rel f _ x3 r3 y3 z hupB hx3 hr3 hy3 hzo]
    exact CondLoop_stop _ _ _ (h8 ▸ hz)
  have middle : Cond (f + 6) (advanceN 1 p)
      = .ok (.mk ("逻辑符: " ++ o2.value) [relNode x2 r2 y2, relNode x3 r3 y3])
          (advanceN 8 p) := by
    have h4' : (advanceN 3 (advanceN 1 p)).currentToken = o2 := h4
    have hl4 : IsLogicOp (advanceN 3 (advanceN 1 p)).currentToken := by rw [h4']; exact ho2
    rw [show f + 6 = (f + 2) + 4 from rfl,
      Cond_rel (f + 2) _ x2 r2 y2 o2 hupA hx2 hr2 hy2 (not_ops_of_logic o2 ho2),
      show f + 2 + 3 = (f + 4) + 1 from rfl, CondLoop_step _ _ (advanceN 3 (advanceN 1 p)) hl4]
    rw [show advance (advanceN 3 (advanceN 1 p)) = advanceN 5 p from rfl,
      bind_ok _ _ _ _ _ inner, h4']
    exact CondLoop_stop _ _ _ (h8 ▸ hz)
  rw [show f + 7 = (f + 6) + 1 from rfl, CondLoop_step _ _ _ (h0 ▸ ho1),
    show advance p = advanceN 1 p from rfl, bind_ok _ _ _ _ _ middle, h0]
  exact CondLoop_stop _ _ _ (h8 ▸ hz)

/-- What `Cond` returns on a chain `c1 o1 c2 o2 c3` of three relations of two
operands each, with `c1` bare or parenthesized: the node of `o1` whose left
child is `c1` and whose right child is the node of `o2` with children `c2`
and `c3`. -/
theorem cond_chain_nests_right (p : Parser) (lp rp x1 r1 y1 o1 x2 r2 y2 o2 x3 r3 y3 z : Token)
    (fuel : Nat)
    (hx1 : IsOperand x1) (hr1 : r1.type = .RELOP) (hy1 : IsOperand y1)
    (ho1 : IsLogicOp o1) (hx2 : IsOperand x2) (hr2 : r2.type = .RELOP) (hy2 : IsOperand y2)
    (ho2 : IsLogicOp o2) (hx3 : IsOperand x3) (hr3 : r3.type = .RELOP) (hy3 : IsOperand y3)
    (hz : ¬ IsLogicOp z) (hzm : ¬ IsMulOp z) (hza : ¬ IsAddOp z)
    (hlp : lp.type = .LPAREN) (hrp : rp.type = .RPAREN) (hfuel : 8 ≤ fuel) :
    (upcoming 11 p = [x1, r1, y1, o1, x2, r2, y2, o2, x3, r3, y3, z] →
      Cond fuel p = .ok (.mk ("逻辑符: " ++ o1.value)
        [relNode x1 r1 y1,
         .mk ("逻辑符: " ++ o2.value) [relNode x2 r2 y2, relNode x3 r3 y3]])
        (advanceN 11 p)) ∧
    (upcoming 13 p = [lp, x1, r1, y1, rp, o1, x2, r2, y2, o2, x3, r3, y3, z] →
      Cond fuel p = .ok (.mk ("逻辑符: " ++ o1.value)
        [relNode x1 r1 y1,
         .mk ("逻辑符: " ++ o2.value) [relNode x2 r2 y2, relNode x3 r3 y3]])
        (advanceN 13 p)) := by
  obtain ⟨f, rfl⟩ := Nat.exists_eq_add_of_le' hfuel
  constructor
  · intro hup
    have hupA : upcoming 3 p = [x1, r1, y1, o1] := by
      have := upcoming_take 3 8 p _ hup
      simpa using this
    have hupB : upcoming 8 (advanceN 3 p) = [o1, x2, r2, y2, o2, x3, r3, y3, z] := by
      have := upcoming_drop 3 8 p _ hup
      simpa using this
    rw [show f + 8 = (f + 4) + 4 from rfl,
      Cond_rel (f + 4) p x1 r1 y1 o1 hupA hx1 hr1 hy1 (not_ops_of_logic o1 ho1),
      show f + 4 + 3 = f + 7 from rfl,
      CondLoop_chain f _ _ o1 x2 r2 y2 o2 x3 r3 y3 z hupB ho1 hx2 hr2 hy2 ho2 hx3 hr3 hy3 hz
        ⟨hzm, hza⟩]
    rfl
  · intro hup
    have hupA : upcoming 4 p = [lp, x1, r1, y1, rp] := by
      have := upcoming_take 4 9 p _ hup
      simpa using this
    have hupB : upcoming 8 (advanceN 5 p) = [o1, x2, r2, y2, o2, x3, r3, y3, z] := by
      have := upcoming_drop 5 8 p _ hup
      simpa using this
    rw [show f + 8 = (f + 4) + 4 from rfl,
      Cond_paren_rel (f + 4) p lp x1 r1 y1 rp hupA hlp hx1 hr1 hy1 hrp,
      show f + 4 + 3 = f + 7 from rfl,
      CondLoop_chain f _ _ o1 x2 r2 y2 o2 x3 r3 y3 z hupB ho1 hx2 hr2 hy2 ho2 hx3 hr3 hy3 hz
        ⟨hzm, hza⟩]
    rfl

theorem refines_unique {α : Type} (m : Nat → PM α) (h : ∀ f, Refines (m f) (m (f + 1)))
    (f f' : Nat) (p : Parser) (h1 : m f p ≠ .outOfFuel) (h2 : m f' p ≠ .outOfFuel) :
    m f p = m f' p := by
  rcases Nat.le_total f f' with hle | hle
  · exact (refines_le m h f f' hle p h1).symm
  · exact refines_le m h f' f hle p h2

theorem cond_chain_nests_right_witness :
    Cond 8 (Parser.new (Lexer.new "a<1 and b<2 or c<3".toList))
      = .ok (.mk "逻辑符: and"
          [.mk "条件表达式" [.mk "变量: a" [], .mk "关系符: <" [], .mk "数字: 1" []],
           .mk "逻辑符: or"
            [.mk "条件表达式" [.mk "变量: b" [], .mk "关系符: <" [], .mk "数字: 2" []],
             .mk "条件表达式" [.mk "变量: c" [], .mk "关系符: <" [], .mk "数字: 3" []]]])
          (advanceN 11 (Parser.new (Lexer.new "a<1 and b<2 or c<3".toList))) :=
  (cond_chain_nests_right (Parser.new (Lexer.new "a<1 and b<2 or c<3".toList))
    { type := .LPAREN, value := "(", line := 1, col := 1 }
    { type := .RPAREN, value := ")", line := 1, col := 1 }
    { type := .ID, value := "a", line := 1, col := 1 }
    { type := .RELOP, value := "<", line := 1, col := 2 }
    { type := .NUM, value := "1", line := 1, col := 3 }
    { type := .AND, value := "and", line := 1, col := 5 }
    { type := .ID, value := "b", line := 1, col := 9 }
    { type := .RELOP, value := "<", line := 1, col := 10 }
    { type := .NUM, value := "2", line := 1, col := 11 }
    { type := .OR, value := "or", line := 1, col := 13 }
    { type := .ID, value := "c", line := 1, col := 16 }
    { type := .RELOP, value := "<", line := 1, col := 17 }
    { type := .NUM, value := "3", line := 1, col := 18 }
    { type := .END_OF_FILE, value := "", line := 1, col := 19 } 8
    (by decide) (by decide) (by decide) (by decide) (by decide) (by decide) (by decide)
    (by decide) (by decide) (by decide) (by decide) (by decide) (by decide) (by decide)
    (by decide) (by decide) (by decide)).1 (by decide)

end Parser

namespace Lexer

theorem keywordType_cases (s : String) :
    (s, keywordType s) ∈ keywordTable ∨
    (s ∉ keywordTable.map (fun x => x.1) ∧ keywordType s = .ID) := by
  unfold keywordType
  by_cases h0 : s = "program"
  · subst h0; left; decide
  rw [if_neg h0]
  by_cases h1 : s = "begin"
  · subst h1; left; decide
  rw [if_neg h1]
  by_cases h2 : s = "end"
  · subst h2; left; decide
  rw [if_neg h2]
  by_cases h3 : s = "if"
  · subst h3; left; decide
  rw [if_neg h3]
  by_cases h4 : s = "then"
  · subst h4; left; decide
  rw [if_neg h4]
  by_cases h5 : s = "while"
  · subst h5; left; decide
  rw [if_neg h5]
  by_cases h6 : s = "do"
  · subst h6; left; decide
  rw [if_neg h6]
  by_cases h7 : s = "and"
  · subst h7; left; decide
  rw [if_neg h7]
  by_cases h8 : s = "or"
  · subst h8; left; decide
  rw [if_neg h8]
  by_cases h9 : s = "not"
  · subst h9; left; decide
  rw [if_neg h9]
  by_cases h10 : s = "else"
  · subst h10; left; decide
  rw [if_neg h10]
  by_cases h11 : s = "break"
  · subst h11; left; decide
  rw [if_neg h11]
  by_cases h12 : s = "mod"
  · subst h12; left; decide
  rw [if_neg h12]
  right
  refine ⟨?_, rfl⟩
  simp only [keywordTable, List.map_cons, List.map_nil, List.mem_cons, List.mem_singleton,
    List.not_mem_nil, or_false, not_or]
  exact ⟨h0, h1, h2, h3, h4, h5, h6, h7, h8, h9, h10, h11, h12⟩

/-- Where the token of a call of `getNextToken` comes from: the end of the
text, or `scanToken` at a character that is neither blank nor an opening
brace. -/
theorem getNextToken_cases (lx : Lexer) :
    ((getNextToken lx).1.type = .END_OF_FILE ∧ (getNextToken lx).1.value = "") ∨
    ∃ (lx1 : Lexer) (ch : Char) (cs : List Char), lx1.rest = ch :: cs ∧ isspace ch = false ∧
      ch ≠ '{' ∧ getNextToken lx = scanToken ch cs lx1 := by
  generalize hn : lx.rest.length = n
  induction n using Nat.strong_induction_on generalizing lx with
  | _ n ih =>
    cases hrest : (skipWhitespace lx).rest with
    | nil =>
      left
      rw [getNextToken_eof lx hrest]
      exact ⟨rfl, rfl⟩
    | cons ch cs =>
      by_cases hc : ch = '{'
      · subst hc
        rw [getNextToken_comment lx cs hrest]
        have hlt := skipComment_rest_lt _ _ hrest
        have hle : (skipWhitespace lx).rest.length ≤ lx.rest.length := by
          rw [skipWhitespace_rest]; exact dropWhile_length_le _ _
        exact ih _ (by omega) (skipComment (skipWhitespace lx)) rfl
      · right
        have hsp : isspace ch = false := by
          rw [skipWhitespace_rest] at hrest
          exact dropWhile_head_not _ _ _ _ hrest
        exact ⟨_, ch, cs, hrest, hsp, hc, getNextToken_token lx ch cs hrest hc⟩

theorem OpShape.tokenOK {ch : Char} {n : Option Char} {ty : TokenType} {text : List Char}
    (h : OpShape ch n ty text) :
    (ty = .RELOP → String.mk text ∈ relops) ∧
    ((ty = .PLUS ∨ ty = .MINUS ∨ ty = .MUL ∨ ty = .DIV ∨ ty = .MOD) →
      String.mk text ∈ arithops) := by
  cases h <;> first | decide | (constructor <;> intro h <;> simp at h)

theorem scanToken_tokenOK (ch : Char) (cs : List Char) (lx : Lexer) :
    TokenOK (scanToken ch cs lx).1 := by
  by_cases ha : isalpha ch = true
  · rw [scanToken_alpha _ _ _ ha]
    generalize String.mk (List.takeWhile isIdentChar (ch :: cs)) = s
    unfold TokenOK
    simp only
    rcases keywordType_cases s with h | ⟨_, h⟩
    · simp only [keywordTable, List.mem_cons, Prod.mk.injEq, List.mem_singleton,
        List.not_mem_nil, or_false] at h
      rcases h with h | h | h | h | h | h | h | h | h | h | h | h | h <;>
        (obtain ⟨h1, h2⟩ := h; subst h1; rw [h2]; decide)
    · rw [h]; constructor <;> intro h <;> simp at h
  · by_cases hd : isdigit ch = true
    · rw [scanToken_digit _ _ _ ha hd]
      unfold TokenOK; simp
    · rw [scanToken_operator _ _ _ ha hd]
      obtain ⟨ty, text, hsh, heq⟩ := scanOperator_shape ch cs
      rw [heq]
      exact hsh.tokenOK

theorem getNextToken_tokenOK (lx : Lexer) : TokenOK (getNextToken lx).1 := by
  rcases getNextToken_cases lx with ⟨h, _⟩ | ⟨lx1, ch, cs, _, _, _, h⟩
  · unfold TokenOK; rw [h]; simp
  · rw [h]; exact scanToken_tokenOK ch cs lx1

end Lexer

namespace ASTNode

theorem mem_nodesList (n : ASTNode) (cs : List ASTNode) :
    n ∈ nodesList cs ↔ ∃ c ∈ cs, n ∈ nodes c := by
  induction cs with
  | nil => simp [nodesList]
  | cons c cs ih => simp [nodesList, ih]

end ASTNode

namespace Parser

open Lexer

theorem good_mk (l : String) (cs : List ASTNode) (hl : LabelOK l) (hc : ∀ c ∈ cs, Good c) :
    Good (.mk l cs) := by
  intro n hn
  simp only [ASTNode.nodes, List.mem_cons, ASTNode.mem_nodesList] at hn
  rcases hn with rfl | ⟨c, hc1, hc2⟩
  · exact hl
  · exact hc c hc1 n hc2

theorem good_mk0 (l : String) (hl : LabelOK l) : Good (.mk l []) :=
  good_mk l [] hl (by simp)

theorem good_mk1 (l : String) (a : ASTNode) (hl : LabelOK l) (ha : Good a) :
    Good (.mk l [a]) :=
  good_mk l [a] hl (by simpa using ha)

theorem good_mk2 (l : String) (a b : ASTNode) (hl : LabelOK l) (ha : Good a) (hb : Good b) :
    Good (.mk l [a, b]) :=
  good_mk l [a, b] hl (by simpa using ⟨ha, hb⟩)

theorem good_mk3 (l : String) (a b c : ASTNode) (hl : LabelOK l) (ha : Good a) (hb : Good b)
    (hc : Good c) : Good (.mk l [a, b, c]) :=
  good_mk l [a, b, c] hl (by simpa using ⟨ha, hb, hc⟩)

theorem forall_good_single (a : ASTNode) (ha : Good a) : ∀ c ∈ [a], Good c := by
  simpa using ha

theorem forall_good_snoc (l : List ASTNode) (a : ASTNode) (hl : ∀ c ∈ l, Good c) (ha : Good a) :
    ∀ c ∈ l ++ [a], Good c := by
  intro c hc
  rcases List.mem_append.mp hc with h | h
  · exact hl c h
  · rw [List.mem_singleton.mp h]; exact ha

theorem labelOK_const (s : String) (h : s.data.head? ≠ some '关') : LabelOK s := by
  intro v hv
  exfalso; apply h
  rw [hv]; rfl

theorem zip_eq_of_append_eq (l1 l2 a b : List Char) (h : l1 ++ a = l2 ++ b) :
    ∀ x ∈ l1.zip l2, x.1 = x.2 := by
  induction l1 generalizing l2 with
  | nil => simp
  | cons c l1 ih =>
    cases l2 with
    | nil => simp
    | cons d l2 =>
      simp only [List.cons_append, List.cons.injEq] at h
      intro x hx
      simp only [List.zip_cons_cons, List.mem_cons] at hx
      rcases hx with rfl | hx
      · exact h.1
      · exact ih l2 h.2 x hx

theorem labelOK_append (pre v : String)
    (h : (pre.data.zip "关系符: ".data).any (fun x => decide (x.1 ≠ x.2)) = true) :
    LabelOK (pre ++ v) := by
  intro w hw
  exfalso
  have hd := congrArg String.data hw
  rw [String.data_append, String.data_append] at hd
  have hz := zip_eq_of_append_eq _ _ _ _ hd
  rw [List.any_eq_true] at h
  obtain ⟨x, hx, hne⟩ := h
  exact (of_decide_eq_true hne) (hz x hx)

theorem labelOK_rel (t : Token) (ht : TokenOK t) (hr : t.type = .RELOP) :
    LabelOK ("关系符: " ++ t.value) := by
  intro v hv
  have := congrArg String.data hv
  simp only [String.data_append, List.append_cancel_left_eq] at this
  rw [← String.ext this]
  exact ht.1 hr

theorem labelOK_arith (t : Token) (ht : TokenOK t)
    (h : t.type = .PLUS ∨ t.type = .MINUS ∨ t.type = .MUL ∨ t.type = .DIV ∨ t.type = .MOD) :
    LabelOK t.value := by
  have := ht.2 h
  simp only [arithops, List.mem_cons, List.mem_singleton, List.not_mem_nil, or_false] at this
  rcases this with h | h | h | h | h <;> rw [h] <;> exact labelOK_const _ (by decide)

theorem labelOK_add (t : Token) (ht : TokenOK t) (h : t.type = .PLUS ∨ t.type = .MINUS) :
    LabelOK t.value :=
  labelOK_arith t ht (by rcases h with h | h <;> simp [h])

theorem labelOK_mul (t : Token) (ht : TokenOK t)
    (h : t.type = .MUL ∨ t.type = .DIV ∨ t.type = .MOD) : LabelOK t.value :=
  labelOK_arith t ht (by rcases h with h | h | h <;> simp [h])

theorem sat_pure {α : Type} {Q : α → Prop} {a : α} (h : Q a) : Sat Q (pure a) :=
  fun _ hp => ⟨h, hp⟩

theorem sat_bind {α β : Type} {R : α → Prop} {Q : β → Prop} {m : PM α} {f : α → PM β}
    (hm : Sat R m) (hf : ∀ a, R a → Sat Q (f a)) : Sat Q (m >>= f) := by
  intro p hp
  have := hm p hp
  rw [bind_apply]
  cases h : m p with
  | ok a p1 => rw [h] at this; exact hf a this.1 p1 this.2
  | error d p1 => trivial
  | outOfFuel => trivial

theorem sat_lookahead : Sat TokenOK lookahead := fun _ hp => ⟨hp, hp⟩

theorem sat_eat (ty : TokenType) : Sat (fun _ => True) (eat ty) := by
  intro p _
  by_cases h : p.currentToken.type = ty
  · rw [eat_ok _ _ h]
    exact ⟨trivial, getNextToken_tokenOK _⟩
  · rw [eat_error _ _ h]
    trivial

theorem sat_error {α : Type} {Q : α → Prop} (msg : String) : Sat Q (error msg) :=
  fun _ _ => trivial

theorem sat_outOfFuel {α : Type} {Q : α → Prop} : Sat Q (PM.outOfFuel) :=
  fun _ _ => trivial

theorem sat_ite {α : Type} {Q : α → Prop} {c : Prop} [Decidable c] {a b : PM α}
    (ha : c → Sat Q a) (hb : ¬ c → Sat Q b) : Sat Q (if c then a else b) := by
  split
  · exact ha ‹_›
  · exact hb ‹_›

theorem Expr_zero : Expr 0 = PM.outOfFuel := by
  rw [Expr]

theorem ExprLoop_zero (node : ASTNode) : ExprLoop 0 node = PM.outOfFuel := by
  rw [ExprLoop]

theorem Term_zero : Term 0 = PM.outOfFuel := by
  rw [Term]

theorem TermLoop_zero (node : ASTNode) : TermLoop 0 node = PM.outOfFuel := by
  rw [TermLoop]

theorem Factor_zero : Factor 0 = PM.outOfFuel := by
  rw [Factor]

theorem Cond_zero : Cond 0 = PM.outOfFuel := by
  rw [Cond]

theorem CondLoop_zero (node : ASTNode) : CondLoop 0 node = PM.outOfFuel := by
  rw [CondLoop]

theorem Block_zero : Block 0 = PM.outOfFuel := by
  rw [Block]

theorem StmtList_zero : StmtList 0 = PM.outOfFuel := by
  rw [StmtList]

theorem StmtListLoop_zero (children : List ASTNode) : StmtListLoop 0 children = PM.outOfFuel := by
  rw [StmtListLoop]

theorem Stmt_zero : Stmt 0 = PM.outOfFuel := by
  rw [Stmt]

theorem IfStmt_zero : IfStmt 0 = PM.outOfFuel := by
  rw [IfStmt]

theorem WhileStmt_zero : WhileStmt 0 = PM.outOfFuel := by
  rw [WhileStmt]

section

attribute [local irreducible] Parser.error Parser.eat Parser.lookahead PM.bind PM.outOfFuel
  Expr ExprLoop Term TermLoop Factor Cond CondLoop Block StmtList StmtListLoop Stmt IfStmt
  WhileStmt Sat Good LabelOK Lexer.TokenOK

set_option maxHeartbeats 4000000 in
theorem sat_expr (f : Nat) :
    Sat Good (Expr f) ∧ (∀ node, Good node → Sat Good (ExprLoop f node)) ∧
    Sat Good (Term f) ∧ (∀ node, Good node → Sat Good (TermLoop f node)) ∧
    Sat Good (Factor f) := by
  induction f with
  | zero =>
    refine ⟨?_, fun _ _ => ?_, ?_, fun _ _ => ?_, ?_⟩ <;>
    (first | rw [Expr_zero] | rw [ExprLoop_zero] | rw [Term_zero] | rw [TermLoop_zero]
           | rw [Factor_zero]) <;> exact sat_outOfFuel
  | succ f ih =>
    obtain ⟨ihE, ihEL, ihT, ihTL, ihF⟩ := ih
    refine ⟨?_, fun node hnode => ?_, ?_, fun node hnode => ?_, ?_⟩
    all_goals
      first
        | rw [Expr_succ] | rw [ExprLoop_succ] | rw [Term_succ] | rw [TermLoop_succ]
        | rw [Factor_succ]
      repeat' first
        | exact sat_error _
        | exact ihE | exact ihT | exact ihF
        | refine sat_bind sat_lookahead ?_ | refine sat_bind (sat_eat _) ?_
        | apply sat_bind (R := Good) | apply sat_ite | apply sat_pure
        | apply ihEL | apply ihTL
        | apply good_mk0 | apply good_mk1 | apply good_mk2 | apply good_mk3
        | refine forall_good_single _ ?_ | refine forall_good_snoc _ _ ?_ ?_ | apply good_mk
        | exact labelOK_const _ (by decide) | exact labelOK_append _ _ (by decide)
        | exact labelOK_rel _ (by assumption) (by assumption)
        | exact labelOK_rel _ (by assumption) (not_not.mp (by assumption))
        | exact labelOK_add _ (by assumption) (by assumption)
        | exact labelOK_mul _ (by assumption) (by assumption)
        | assumption
        | intro _

set_option maxHeartbeats 4000000 in
theorem sat_cond (f : Nat) :
    Sat Good (Cond f) ∧ (∀ node, Good node → Sat Good (CondLoop f node)) := by
  induction f with
  | zero =>
    refine ⟨?_, fun _ _ => ?_⟩ <;> (first | rw [Cond_zero] | rw [CondLoop_zero]) <;>
    exact sat_outOfFuel
  | succ f ih =>
    obtain ⟨ihC, ihCL⟩ := ih
    have ihE := (sat_expr f).1
    refine ⟨?_, fun node hnode => ?_⟩
    all_goals
      first
        | rw [Cond_succ] | rw [CondLoop_succ]
      repeat' first
        | exact sat_error _
        | exact ihE | exact ihC
        | refine sat_bind sat_lookahead ?_ | refine sat_bind (sat_eat _) ?_
        | apply sat_bind (R := Good) | apply sat_ite | apply sat_pure
        | apply ihCL
        | apply good_mk0 | apply good_mk1 | apply good_mk2 | apply good_mk3
        | refine forall_good_single _ ?_ | refine forall_good_snoc _ _ ?_ ?_ | apply good_mk
        | exact labelOK_const _ (by decide) | exact labelOK_append _ _ (by decide)
        | exact labelOK_rel _ (by assumption) (by assumption)
        | exact labelOK_rel _ (by assumption) (not_not.mp (by assumption))
        | exact labelOK_add _ (by assumption) (by assumption)
        | exact labelOK_mul _ (by assumption) (by assumption)
        | assumption
        | intro _

set_option maxHeartbeats 4000000 in
theorem sat_assign (f : Nat) : Sat Good (AssignStmt f) := by
  have ihE := (sat_expr f).1
  unfold AssignStmt
  repeat' first
    | exact sat_error _
    | exact ihE
    | refine sat_bind sat_lookahead ?_ | refine sat_bind (sat_eat _) ?_
    | apply sat_bind (R := Good) | apply sat_ite | apply sat_pure
    | apply good_mk0 | apply good_mk1 | apply good_mk2 | apply good_mk3
    | refine forall_good_single _ ?_ | refine forall_good_snoc _ _ ?_ ?_ | apply good_mk
    | exact labelOK_const _ (by decide) | exact labelOK_append _ _ (by decide)
    | exact labelOK_rel _ (by assumption) (by assumption)
    | exact labelOK_rel _ (by assumption) (not_not.mp (by assumption))
    | exact labelOK_add _ (by assumption) (by assumption)
    | exact labelOK_mul _ (by assumption) (by assumption)
    | assumption
    | intro _

set_option maxHeartbeats 4000000 in
theorem sat_break : Sat Good BreakStmt := by
  unfold BreakStmt
  repeat' first
    | exact sat_error _
    | refine sat_bind sat_lookahead ?_ | refine sat_bind (sat_eat _) ?_
    | apply sat_bind (R := Good) | apply sat_ite | apply sat_pure
    | apply good_mk0 | apply good_mk1 | apply good_mk2 | apply good_mk3
    | refine forall_good_single _ ?_ | refine forall_good_snoc _ _ ?_ ?_ | apply good_mk
    | exact labelOK_const _ (by decide) | exact labelOK_append _ _ (by decide)
    | assumption
    | intro _

set_option maxHeartbeats 4000000 in
theorem sat_stmt (f : Nat) :
    Sat Good (Block f) ∧ Sat Good (StmtList f) ∧
    (∀ l, (∀ c ∈ l, Good c) → Sat Good (StmtListLoop f l)) ∧
    Sat Good (Stmt f) ∧ Sat Good (IfStmt f) ∧ Sat Good (WhileStmt f) := by
  induction f with
  | zero =>
    refine ⟨?_, ?_, fun _ _ => ?_, ?_, ?_, ?_⟩ <;>
    (first | rw [Block_zero] | rw [StmtList_zero] | rw [StmtListLoop_zero] | rw [Stmt_zero]
           | rw [IfStmt_zero] | rw [WhileStmt_zero]) <;> exact sat_outOfFuel
  | succ f ih =>
    obtain ⟨ihB, ihSL, ihSLL, ihS, ihI, ihW⟩ := ih
    have ihC := (sat_cond f).1
    have ihA := sat_assign f
    have ihBr := sat_break
    refine ⟨?_, ?_, fun l hl => ?_, ?_, ?_, ?_⟩
    all_goals
      first
        | rw [Block_succ] | rw [StmtList_succ] | rw [StmtListLoop_succ] | rw [Stmt_succ]
        | rw [IfStmt_succ] | rw [WhileStmt_succ]
      repeat' first
        | exact sat_error _
        | exact ihB | exact ihSL | exact ihS | exact ihI | exact ihW | exact ihC | exact ihA | exact ihBr
        | refine sat_bind sat_lookahead ?_ | refine sat_bind (sat_eat _) ?_
        | apply sat_bind (R := Good) | apply sat_ite | apply sat_pure
        | apply ihSLL
        | apply good_mk0 | apply good_mk1 | apply good_mk2 | apply good_mk3
        | refine forall_good_single _ ?_ | refine forall_good_snoc _ _ ?_ ?_ | apply good_mk
        | exact labelOK_const _ (by decide) | exact labelOK_append _ _ (by decide)
        | exact labelOK_rel _ (by assumption) (by assumption)
        | exact labelOK_rel _ (by assumption) (not_not.mp (by assumption))
        | exact labelOK_add _ (by assumption) (by assumption)
        | exact labelOK_mul _ (by assumption) (by assumption)
        | assumption
        | intro _

set_option maxHeartbeats 4000000 in
theorem sat_program (f : Nat) : Sat Good (Program f) := by
  have ihB := (sat_stmt f).1
  unfold Program
  repeat' first
    | exact sat_error _
    | exact ihB
    | refine sat_bind sat_lookahead ?_ | refine sat_bind (sat_eat _) ?_
    | apply sat_bind (R := Good) | apply sat_ite | apply sat_pure
    | apply good_mk0 | apply good_mk1 | apply good_mk2 | apply good_mk3
    | refine forall_good_single _ ?_ | refine forall_good_snoc _ _ ?_ ?_ | apply good_mk
    | exact labelOK_const _ (by decide) | exact labelOK_append _ _ (by decide)
    | exact labelOK_rel _ (by assumption) (by assumption)
    | exact labelOK_rel _ (by assumption) (not_not.mp (by assumption))
    | exact labelOK_add _ (by assumption) (by assumption)
    | exact labelOK_mul _ (by assumption) (by assumption)
    | assumption
    | intro _

set_option maxHeartbeats 4000000 in
theorem sat_parseBody (f : Nat) : Sat Good (parseBody f) := by
  have ihP := sat_program f
  unfold parseBody
  repeat' first
    | exact sat_error _
    | exact ihP
    | refine sat_bind sat_lookahead ?_ | refine sat_bind (sat_eat _) ?_
    | apply sat_bind (R := Good) | apply sat_ite | apply sat_pure
    | apply good_mk0 | apply good_mk1 | apply good_mk2 | apply good_mk3
    | refine forall_good_single _ ?_ | refine forall_good_snoc _ _ ?_ ?_ | apply good_mk
    | exact labelOK_const _ (by decide) | exact labelOK_append _ _ (by decide)
    | exact labelOK_rel _ (by assumption) (by assumption)
    | exact labelOK_rel _ (by assumption) (not_not.mp (by assumption))
    | exact labelOK_add _ (by assumption) (by assumption)
    | exact labelOK_mul _ (by assumption) (by assumption)
    | assumption
    | intro _

end

/-- C9 (amended). The relational operator set of the code has seven members,
`=`, `<>`, `<`, `<=`, `>`, `>=` and `!=`: every token of kind `RELOP` returned
by `getNextToken` has one of these texts, and so has every '关系符: ' node of
a successfully parsed tree. -/
theorem relop_texts_are_seven :
    (∀ lx : Lexer, (getNextToken lx).1.type = .RELOP →
      (getNextToken lx).1.value ∈ ["=", "<>", "<", "<=", ">", ">=", "!="]) ∧
    (∀ (src : List Char) (fuel : Nat) (r : ParseResult) (root : ASTNode),
      parseFuel fuel (Parser.new (Lexer.new src)) = some r → r.root = some root →
      ∀ n ∈ root.nodes, ∀ v, n.value = "关系符: " ++ v →
        v ∈ ["=", "<>", "<", "<=", ">", ">=", "!="]) := by
  refine ⟨fun lx h => (getNextToken_tokenOK lx).1 h, fun src fuel r root hr hroot => ?_⟩
  have hsat := sat_parseBody fuel (Parser.new (Lexer.new src)) (getNextToken_tokenOK _)
  unfold parseFuel at hr
  cases hb : parseBody fuel (Parser.new (Lexer.new src)) with
  | ok a p1 =>
    rw [hb] at hr hsat
    simp only [Option.some.injEq] at hr
    subst hr
    simp only [Option.some.injEq] at hroot
    subst hroot
    exact hsat.1
  | error d p1 =>
    rw [hb] at hr
    simp only [Option.some.injEq] at hr
    subst hr
    simp at hroot
  | outOfFuel =>
    rw [hb] at hr
    simp at hr

/-- C9 (counterexample). The text `!=` is lexed as a token of kind `RELOP`,
and the condition `a != 1` parses to a tree with the node '关系符: !=': an
operator outside `=`, `<>`, `<`, `<=`, `>`, `>=`. -/
theorem relop_six_counterexample :
    (getNextToken (Lexer.new "!=".toList)).1 = { type := .RELOP, value := "!=", line := 1, col := 1 } ∧
    "!=" ∉ ["=", "<>", "<", "<=", ">", ">="] ∧
    Cond 5 (Parser.new (Lexer.new "a != 1".toList))
      = .ok (.mk "条件表达式" [.mk "变量: a" [], .mk "关系符: !=" [], .mk "数字: 1" []])
          (advanceN 3 (Parser.new (Lexer.new "a != 1".toList))) := by
  decide

theorem relop_texts_are_seven_witness :
    (getNextToken (Lexer.new "<= 1".toList)).1.type = .RELOP ∧
    (getNextToken (Lexer.new "<= 1".toList)).1.value ∈ ["=", "<>", "<", "<=", ">", ">=", "!="] :=
  ⟨by decide, relop_texts_are_seven.1 _ (by decide)⟩

theorem Agrees.mono {k j : Nat} {p q : Parser} (h : Agrees k p q) (hj : j ≤ k) : Agrees j p q :=
  fun i hi => h i (le_trans hi hj)

theorem Agrees.shift {k j : Nat} {p q : Parser} (h : Agrees (k + j) p q) :
    Agrees j (advanceN k p) (advanceN k q) := by
  intro i hi
  rw [← advanceN_add, ← advanceN_add]
  exact h (k + i) (by omega)

theorem local_pure {α : Type} (a : α) : Local (pure a : PM α) :=
  fun _ => ⟨0, rfl, fun _ _ => rfl⟩

theorem local_outOfFuel {α : Type} : Local (PM.outOfFuel : PM α) := fun _ => trivial

theorem local_lookahead : Local lookahead := by
  intro p
  refine ⟨0, rfl, fun q hq => ?_⟩
  have h0 : q.currentToken = p.currentToken := hq 0 (Nat.le_refl _)
  rw [lookahead_apply, h0]
  rfl

theorem local_error {α : Type} (msg : String) : Local (error msg : PM α) := by
  intro p
  refine ⟨0, rfl, rfl, rfl, rfl, fun q hq => ?_⟩
  have h0 : q.currentToken = p.currentToken := hq 0 (Nat.le_refl _)
  show Outcome.error _ _ = Outcome.error _ _
  rw [h0]
  rfl

theorem local_eat (ty : TokenType) : Local (eat ty) := by
  intro p
  by_cases h : p.currentToken.type = ty
  · rw [eat_ok _ _ h]
    refine ⟨1, rfl, fun q hq => ?_⟩
    have h0 : q.currentToken = p.currentToken := hq 0 (by omega)
    rw [eat_ok _ _ (by rw [h0]; exact h)]
    rfl
  · rw [eat_error _ _ h]
    refine ⟨0, rfl, rfl, rfl, rfl, fun q hq => ?_⟩
    have h0 : q.currentToken = p.currentToken := hq 0 (Nat.le_refl _)
    rw [eat_error _ _ (by rw [h0]; exact h), h0]
    rfl

theorem local_bind {α β : Type} {m : PM α} {f : α → PM β} (hm : Local m)
    (hf : ∀ a, Local (f a)) : Local (m >>= f) := by
  intro p
  have h1 := hm p
  rw [bind_apply]
  cases hmp : m p with
  | ok a p1 =>
    rw [hmp] at h1
    obtain ⟨k1, hp1, hq1⟩ := h1
    have h2 := hf a p1
    simp only
    cases hfp : f a p1 with
    | ok b p2 =>
      rw [hfp] at h2
      obtain ⟨k2, hp2, hq2⟩ := h2
      refine ⟨k1 + k2, by rw [hp2, hp1, advanceN_add], fun q hq => ?_⟩
      rw [bind_apply, hq1 q (hq.mono (by omega))]
      simp only
      rw [advanceN_add]
      exact hq2 _ (hp1 ▸ hq.shift)
    | error d p2 =>
      rw [hfp] at h2
      obtain ⟨k2, hp2, hv, hl, hc, hq2⟩ := h2
      refine ⟨k1 + k2, by rw [hp2, hp1, advanceN_add], hv, hl, hc, fun q hq => ?_⟩
      rw [bind_apply, hq1 q (hq.mono (by omega))]
      simp only
      rw [advanceN_add]
      exact hq2 _ (hp1 ▸ hq.shift)
    | outOfFuel => trivial
  | error d p1 =>
    rw [hmp] at h1
    obtain ⟨k1, hp1, hv, hl, hc, hq1⟩ := h1
    refine ⟨k1, hp1, hv, hl, hc, fun q hq => ?_⟩
    rw [bind_apply, hq1 q hq]
  | outOfFuel => trivial

theorem local_ite {α : Type} {c : Prop} [Decidable c] {a b : PM α} (ha : Local a)
    (hb : Local b) : Local (if c then a else b) := by
  split
  · exact ha
  · exact hb

section

attribute [local irreducible] Parser.error Parser.eat Parser.lookahead PM.bind PM.outOfFuel
  Expr ExprLoop Term TermLoop Factor Cond CondLoop Block StmtList StmtListLoop Stmt IfStmt
  WhileStmt Local

theorem local_expr (f : Nat) :
    Local (Expr f) ∧ (∀ node, Local (ExprLoop f node)) ∧
    Local (Term f) ∧ (∀ node, Local (TermLoop f node)) ∧ Local (Factor f) := by
  induction f with
  | zero =>
    refine ⟨?_, fun _ => ?_, ?_, fun _ => ?_, ?_⟩ <;>
    (first | rw [Expr_zero] | rw [ExprLoop_zero] | rw [Term_zero] | rw [TermLoop_zero]
           | rw [Factor_zero]) <;> exact local_outOfFuel
  | succ f ih =>
    obtain ⟨ihE, ihEL, ihT, ihTL, ihF⟩ := ih
    refine ⟨?_, fun node => ?_, ?_, fun node => ?_, ?_⟩
    all_goals
      first
        | rw [Expr_succ] | rw [ExprLoop_succ] | rw [Term_succ] | rw [TermLoop_succ]
        | rw [Factor_succ]
      repeat' first
        | exact local_error _ | exact local_lookahead | exact local_eat _ | exact local_pure _
        | exact ihE | exact ihT | exact ihF
        | exact ihEL _ | exact ihTL _
        | apply local_bind | apply local_ite | intro _

theorem local_cond (f : Nat) : Local (Cond f) ∧ (∀ node, Local (CondLoop f node)) := by
  induction f with
  | zero =>
    refine ⟨?_, fun _ => ?_⟩ <;> (first | rw [Cond_zero] | rw [CondLoop_zero]) <;>
    exact local_outOfFuel
  | succ f ih =>
    obtain ⟨ihC, ihCL⟩ := ih
    have ihE := (local_expr f).1
    refine ⟨?_, fun node => ?_⟩
    all_goals
      first
        | rw [Cond_succ] | rw [CondLoop_succ]
      repeat' first
        | exact local_error _ | exact local_lookahead | exact local_eat _ | exact local_pure _
        | exact ihE | exact ihC
        | exact ihCL _
        | apply local_bind | apply local_ite | intro _

theorem local_assign (f : Nat) : Local (AssignStmt f) := by
  have ihE := (local_expr f).1
  unfold AssignStmt
  repeat' first
    | exact local_error _ | exact local_lookahead | exact local_eat _ | exact local_pure _
    | exact ihE
    | apply local_bind | apply local_ite | intro _

theorem local_break : Local BreakStmt := by
  unfold BreakStmt
  repeat' first
    | exact local_error _ | exact local_lookahead | exact local_eat _ | exact local_pure _
    | apply local_bind | apply local_ite | intro _

theorem local_stmt (f : Nat) :
    Local (Block f) ∧ Local (StmtList f) ∧ (∀ l, Local (StmtListLoop f l)) ∧
    Local (Stmt f) ∧ Local (IfStmt f) ∧ Local (WhileStmt f) := by
  induction f with
  | zero =>
    refine ⟨?_, ?_, fun _ => ?_, ?_, ?_, ?_⟩ <;>
    (first | rw [Block_zero] | rw [StmtList_zero] | rw [StmtListLoop_zero] | rw [Stmt_zero]
           | rw [IfStmt_zero] | rw [WhileStmt_zero]) <;> exact local_outOfFuel
  | succ f ih =>
    obtain ⟨ihB, ihSL, ihSLL, ihS, ihI, ihW⟩ := ih
    have ihC := (local_cond f).1
    have ihA := local_assign f
    have ihBr := local_break
    refine ⟨?_, ?_, fun l => ?_, ?_, ?_, ?_⟩
    all_goals
      first
        | rw [Block_succ] | rw [StmtList_succ] | rw [StmtListLoop_succ] | rw [Stmt_succ]
        | rw [IfStmt_succ] | rw [WhileStmt_succ]
      repeat' first
        | exact local_error _ | exact local_lookahead | exact local_eat _ | exact local_pure _
        | exact ihB | exact ihSL | exact ihS | exact ihI | exact ihW | exact ihC | exact ihA | exact ihBr
        | exact ihSLL _
        | apply local_bind | apply local_ite | intro _

theorem local_program (f : Nat) : Local (Program f) := by
  have ihB := (local_stmt f).1
  unfold Program
  repeat' first
    | exact local_error _ | exact local_lookahead | exact local_eat _ | exact local_pure _
    | exact ihB
    | apply local_bind | apply local_ite | intro _

theorem local_parseBody (f : Nat) : Local (parseBody f) := by
  have ihP := local_program f
  unfold parseBody
  repeat' first
    | exact local_error _ | exact local_lookahead | exact local_eat _ | exact local_pure _
    | exact ihP
    | apply local_bind | apply local_ite | intro _

end

theorem advanceN_new (k : Nat) (lx : Lexer) :
    advanceN k (Parser.new lx) = { lexer := after (k + 1) lx, currentToken := nthToken k lx } := by
  induction k with
  | zero => rfl
  | succ k ih =>
    have h : ∀ p, advanceN (k + 1) p = advance (advanceN k p) := by
      intro p
      rw [advanceN_add]; rfl
    rw [h, ih, advance]
    simp only [after_succ, nthToken]

/-- C10. First-error-wins: when `parse` fails (returns no tree), exactly one
diagnostic has been written; it names the text, line and column of the
lookahead held at the failure, which is token number `k` of the input, and
the tokenizer has been called exactly `k + 1` times (no token after the
offending one was pulled). Every input whose first `k + 1` tokens (kind,
text, line, column) are the same fails with the identical diagnostic. -/
theorem first_error_is_final (src : List Char) (fuel : Nat) (r : ParseResult)
    (hr : parseFuel fuel (Parser.new (Lexer.new src)) = some r) (hfail : r.root = none) :
    ∃ (d : Diagnostic) (k : Nat),
      r.out = [d] ∧
      r.parser.currentToken = nthToken k (Lexer.new src) ∧
      r.parser.lexer = after (k + 1) (Lexer.new src) ∧
      d.value = r.parser.currentToken.value ∧ d.line = r.parser.currentToken.line ∧
      d.col = r.parser.currentToken.col ∧
      ∀ src2 : List Char,
        (∀ i, i ≤ k → nthToken i (Lexer.new src2) = nthToken i (Lexer.new src)) →
        ∃ r2, parseFuel fuel (Parser.new (Lexer.new src2)) = some r2 ∧ r2.root = none ∧
          r2.out = [d] := by
  have hloc := local_parseBody fuel (Parser.new (Lexer.new src))
  unfold parseFuel at hr
  cases hb : parseBody fuel (Parser.new (Lexer.new src)) with
  | ok a p1 =>
    rw [hb] at hr
    simp only [Option.some.injEq] at hr
    subst hr
    simp at hfail
  | error d p1 =>
    rw [hb] at hr hloc
    simp only [Option.some.injEq] at hr
    subst hr
    obtain ⟨k, hp1, hv, hl, hc, hq⟩ := hloc
    rw [advanceN_new] at hp1
    refine ⟨d, k, rfl, by simp only [hp1], by simp only [hp1], hv, hl, hc, fun src2 h2 => ?_⟩
    have hag : Agrees k (Parser.new (Lexer.new src)) (Parser.new (Lexer.new src2)) := by
      intro i hi
      rw [advanceN_new, advanceN_new]
      exact h2 i hi
    refine ⟨{ root := none, out := [d], parser := advanceN k (Parser.new (Lexer.new src2)) },
      ?_, rfl, rfl⟩
    unfold parseFuel
    rw [hq _ hag]
  | outOfFuel =>
    rw [hb] at hr
    simp at hr

theorem first_error_is_final_witness :
    parseFuel 12 (Parser.new (Lexer.new "program p; begin a := 1 1 . x y z".toList))
      = some { root := none, out := [Diagnostic.mk "应为 'end'" 1 25 "1"],
               parser := advanceN 7
                 (Parser.new (Lexer.new "program p; begin a := 1 1 . x y z".toList)) } ∧
    ∃ (d : Diagnostic) (k : Nat),
      [Diagnostic.mk "应为 'end'" 1 25 "1"] = [d] ∧
      (advanceN 7 (Parser.new (Lexer.new "program p; begin a := 1 1 . x y z".toList))).currentToken
        = nthToken k (Lexer.new "program p; begin a := 1 1 . x y z".toList) ∧
      (advanceN 7 (Parser.new (Lexer.new "program p; begin a := 1 1 . x y z".toList))).lexer
        = after (k + 1) (Lexer.new "program p; begin a := 1 1 . x y z".toList) ∧
      d.value = "1" ∧ d.line = 1 ∧ d.col = 25 ∧
      ∀ src2 : List Char,
        (∀ i, i ≤ k → nthToken i (Lexer.new src2)
          = nthToken i (Lexer.new "program p; begin a := 1 1 . x y z".toList)) →
        ∃ r2, parseFuel 12 (Parser.new (Lexer.new src2)) = some r2 ∧ r2.root = none ∧
          r2.out = [d] :=
  ⟨by decide,
   first_error_is_final "program p; begin a := 1 1 . x y z".toList 12
      { root := none, out := [Diagnostic.mk "应为 'end'" 1 25 "1"],
        parser := advanceN 7
          (Parser.new (Lexer.new "program p; begin a := 1 1 . x y z".toList)) }
      (by decide) rfl⟩

end Parser

namespace Lexer

theorem keywordType_of_mem (s : String) (k : TokenType) (h : (s, k) ∈ keywordTable) :
    keywordType s = k := by
  simp only [keywordTable, List.mem_cons, Prod.mk.injEq, List.mem_singleton,
    List.not_mem_nil, or_false] at h
  rcases h with h | h | h | h | h | h | h | h | h | h | h | h | h <;>
    (obtain ⟨h1, h2⟩ := h; subst h1; subst h2; decide)

theorem keyword_of_type (s : String) (k : TokenType) (h : (s, k) ∈ keywordTable)
    (v : String) (hv : keywordType v = k) : v = s := by
  rcases keywordType_cases v with hm | ⟨_, hid⟩
  · rw [hv] at hm
    simp only [keywordTable, List.mem_cons, Prod.mk.injEq, List.mem_singleton,
      List.not_mem_nil, or_false] at h hm
    rcases h with h | h | h | h | h | h | h | h | h | h | h | h | h <;>
      (obtain ⟨h1, h2⟩ := h; subst h1; subst h2; simpa using hm)
  · rw [hid] at hv
    subst hv
    simp [keywordTable] at h

theorem keywordType_id_iff (v : String) :
    keywordType v = .ID ↔ v ∉ keywordTable.map (fun x => x.1) := by
  constructor
  · intro h hm
    obtain ⟨x, hx, rfl⟩ := List.mem_map.mp hm
    obtain ⟨s, k⟩ := x
    have := keywordType_of_mem s k hx
    rw [h] at this
    subst this
    simp [keywordTable] at hx
  · intro h
    rcases keywordType_cases v with hm | ⟨_, hid⟩
    · exact absurd (List.mem_map.mpr ⟨_, hm, rfl⟩) h
    · exact hid

/-- The token read at a letter: the maximal run of identifier characters,
classified by the keyword table. -/
theorem getNextToken_alpha (w : List Char) (hw : Trivia w) (lx : Lexer) (ch : Char)
    (cs : List Char) (hr : lx.rest = w ++ ch :: cs) (ha : isalpha ch = true) :
    (getNextToken lx).1.value = String.mk ((ch :: cs).takeWhile isIdentChar) ∧
    (getNextToken lx).1.type = keywordType (String.mk ((ch :: cs).takeWhile isIdentChar)) := by
  have hag := getNextToken_trivia hw (ch :: cs) lx
    { source := ch :: cs, pos := 0, line := 1, col := 1 } hr rfl
  have hsp : isspace ch = false := not_isspace_of_isalpha ch ha
  have hne : ch ≠ '{' := by
    intro h; subst h; revert ha; decide
  have hsk : (skipWhitespace ({ source := ch :: cs, pos := 0, line := 1, col := 1 } : Lexer)).rest
      = ch :: cs := by
    rw [skipWhitespace_rest]
    show (ch :: cs).dropWhile isspace = ch :: cs
    rw [List.dropWhile_cons_of_neg (by simp [hsp])]
  have htok := getNextToken_token _ ch cs hsk hne
  rw [scanToken_alpha _ _ _ ha] at htok
  obtain ⟨h1, h2, _⟩ := hag
  rw [h1, h2, htok]
  exact ⟨rfl, rfl⟩

/-- C14. Keyword classification. When the next character after whitespace and
complete comments is a letter, the token text is the maximal run of letters,
digits and underscores that starts there; its kind is that of a keyword of
the table (`program`, `begin`, `end`, `if`, `then`, `while`, `do`, `and`,
`or`, `not`, `else`, `break`, `mod`) exactly when the text is, case-sensitively,
that keyword, and `ID` exactly when the text is none of them. The text
"a mod b" yields `ID`, `MOD`, `ID`; "amod" a single `ID`; "Mod" an `ID`. -/
theorem keyword_classification :
    (∀ (w : List Char) (lx : Lexer) (ch : Char) (cs : List Char),
      Trivia w → lx.rest = w ++ ch :: cs → isalpha ch = true →
      (getNextToken lx).1.value = String.mk ((ch :: cs).takeWhile isIdentChar) ∧
      (∀ s k, (s, k) ∈ keywordTable →
        ((getNextToken lx).1.type = k ↔ (getNextToken lx).1.value = s)) ∧
      ((getNextToken lx).1.type = .ID ↔
        (getNextToken lx).1.value ∉
          ["program", "begin", "end", "if", "then", "while", "do", "and", "or", "not",
           "else", "break", "mod"])) ∧
    (tokens 4 (Lexer.new "a mod b".toList)).map (fun t => (t.type, t.value))
      = [(.ID, "a"), (.MOD, "mod"), (.ID, "b"), (.END_OF_FILE, "")] ∧
    (tokens 2 (Lexer.new "amod".toList)).map (fun t => (t.type, t.value))
      = [(.ID, "amod"), (.END_OF_FILE, "")] ∧
    (tokens 2 (Lexer.new "Mod".toList)).map (fun t => (t.type, t.value))
      = [(.ID, "Mod"), (.END_OF_FILE, "")] := by
  refine ⟨?_, by decide, by decide, by decide⟩
  intro w lx ch cs hw hr ha
  obtain ⟨hv, ht⟩ := getNextToken_alpha w hw lx ch cs hr ha
  refine ⟨hv, ?_, ?_⟩
  · intro s k hk
    rw [ht, hv]
    constructor
    · intro h; exact keyword_of_type s k hk _ h
    · intro h; rw [h]; exact keywordType_of_mem s k hk
  · rw [ht, hv, keywordType_id_iff]
    rfl

theorem keyword_classification_witness :
    (getNextToken (Lexer.new " \x7bc\x7d then1 x".toList)).1.value
      = String.mk ("then1 x".toList.takeWhile isIdentChar) ∧
    (getNextToken (Lexer.new " \x7bc\x7d then1 x".toList)).1.type = .ID :=
  have h := keyword_classification.1 " \x7bc\x7d ".toList (Lexer.new " \x7bc\x7d then1 x".toList)
    't' "hen1 x".toList
    (Trivia.space _ _ (by decide) (Trivia.comment ['c'] _ (by decide)
      (Trivia.space _ _ (by decide) Trivia.nil)))
    (by decide) (by decide)
  ⟨h.1, h.2.2.mpr (by rw [h.1]; decide)⟩

theorem new_bom_append (s : List Char) (h : s.take 3 ≠ bom) :
    Lexer.new (bom ++ s) = Lexer.new s := by
  rw [new_of_not_bom s h, new_of_bom (bom ++ s) (by simp [bom])]
  simp [bom]

/-- C15. Stripping of the byte-order-mark. For a text `s` that does not itself
begin with the bytes `EF BB BF`, the tokenizer constructed on the mark
followed by `s` is in the same state as the one constructed on `s` (the same
text, offset 0, line 1, column 1); so every call returns the same token, with
the same kind, text, line and column, and leaves the same state. -/
theorem bom_is_stripped (s : List Char) (h : s.take 3 ≠ bom) :
    Lexer.new (bom ++ s) = Lexer.new s ∧
    (Lexer.new (bom ++ s)).source = s ∧
    ∀ n, nthToken n (Lexer.new (bom ++ s)) = nthToken n (Lexer.new s) ∧
      after n (Lexer.new (bom ++ s)) = after n (Lexer.new s) := by
  have he := new_bom_append s h
  refine ⟨he, ?_, ?_⟩
  · rw [he, new_of_not_bom s h]
  · intro n
    rw [he]
    exact ⟨rfl, rfl⟩

theorem bom_is_stripped_witness :
    "x\n := 1".toList.take 3 ≠ bom ∧
    nthToken 1 (Lexer.new (bom ++ "x\n := 1".toList))
      = { type := .ASSIGN, value := ":=", line := 2, col := 2 } :=
  ⟨by decide,
    ((bom_is_stripped "x\n := 1".toList (by decide)).2.2 1).1.trans (by decide)⟩

theorem after_eof_fixed (lx : Lexer) (h : (getNextToken lx).1.type = .END_OF_FILE) (n : Nat) :
    after n (getNextToken lx).2 = (getNextToken lx).2 := by
  induction n with
  | zero => rfl
  | succ n ih => rw [after, getNextToken_eof_fixed lx h]; exact ih

theorem dropWhile_eq_nil_of_not_mem (l : List Char) (h : '}' ∉ l) :
    l.dropWhile (fun c => c ≠ '}') = [] := by
  rw [List.dropWhile_eq_nil_iff]
  intro x hx
  have : x ≠ '}' := fun e => h (e ▸ hx)
  simpa using this

/-- A call of `getNextToken` at an opening brace that is never closed: the
whole rest of the text is scanned over and the end-of-file token is
returned. -/
theorem getNextToken_unterminated (lx : Lexer) (cs : List Char)
    (hopen : lx.rest.dropWhile isspace = '{' :: cs) (hno : '}' ∉ lx.rest) :
    ∃ lx1, Skips lx lx.rest lx1 ∧ lx1.rest = [] ∧
      getNextToken lx
        = ({ type := .END_OF_FILE, value := "", line := lx1.line, col := lx1.col }, lx1) := by
  have hsk : (skipWhitespace lx).rest = '{' :: cs := by rw [skipWhitespace_rest, hopen]
  have hno2 : '}' ∉ ('{' :: cs) := by
    intro hm
    rw [← hopen] at hm
    exact hno ((List.dropWhile_suffix _).subset hm)
  have hnil : (skipComment (skipWhitespace lx)).rest = [] := by
    rw [skipComment_rest, hsk, dropWhile_eq_nil_of_not_mem _ hno2]; rfl
  have hs := (skips_skipWhitespace lx).followedBy (skips_skipComment (skipWhitespace lx))
  have hre : lx.rest
      = lx.rest.takeWhile isspace ++ commentSpan (skipWhitespace lx).rest := by
    have := hs.rest_eq
    rw [hnil, List.append_nil] at this
    exact this
  rw [← hre] at hs
  refine ⟨_, hs, hnil, ?_⟩
  rw [getNextToken_comment lx cs hsk, getNextToken_of_rest_nil _ hnil]

/-- C18. Unterminated comment. When the next non-blank character is an opening
brace and the unread text holds no closing brace, `getNextToken` returns an
`END_OF_FILE` token with empty text, whose line and column are the counters
after scanning over all the unread text (for a state reached from the
constructor: one plus the number of newlines of the text, and one plus the
number of characters after its last newline); the whole text has been
consumed, and every later call returns the same token and leaves the state
as it is. -/
theorem unterminated_comment_is_end_of_file (lx : Lexer) (cs : List Char)
    (hopen : lx.rest.dropWhile isspace = '{' :: cs) (hno : '}' ∉ lx.rest) :
    (getNextToken lx).1.type = .END_OF_FILE ∧ (getNextToken lx).1.value = "" ∧
    ((getNextToken lx).1.line, (getNextToken lx).1.col) = track lx.rest (lx.line, lx.col) ∧
    (getNextToken lx).2.source = lx.source ∧ (getNextToken lx).2.pos = lx.source.length ∧
    (getNextToken lx).2.line = (getNextToken lx).1.line ∧
    (getNextToken lx).2.col = (getNextToken lx).1.col ∧
    (∀ n, after n (getNextToken lx).2 = (getNextToken lx).2 ∧
      getNextToken (after n (getNextToken lx).2) = getNextToken lx) ∧
    (∀ (src : List Char) (k : Nat), lx = after k (Lexer.new src) →
      (getNextToken lx).1.line = 1 + lx.source.count '\n' ∧
      (getNextToken lx).1.col
        = 1 + ((lx.source.reverse).takeWhile (fun c => c ≠ '\n')).length) := by
  obtain ⟨lx1, hs, hnil, heq⟩ := getNextToken_unterminated lx cs hopen hno
  have hty : (getNextToken lx).1.type = .END_OF_FILE := by rw [heq]
  have hlen := rest_length lx
  have hpos : lx.pos < lx.source.length := by
    have : lx.rest ≠ [] := by
      intro h; rw [h] at hopen; simp at hopen
    have := List.length_pos.mpr this
    omega
  have hlc : ((getNextToken lx).1.line, (getNextToken lx).1.col)
      = track lx.rest (lx.line, lx.col) := by
    rw [heq]; exact hs.line_col
  refine ⟨hty, by rw [heq], hlc, by rw [heq]; exact hs.source_eq, ?_, by rw [heq],
    by rw [heq], ?_, ?_⟩
  · rw [heq]
    show lx1.pos = _
    rw [hs.pos_eq]; omega
  · intro n
    have h1 := after_eof_fixed lx hty n
    exact ⟨h1, by rw [h1, getNextToken_eof_fixed lx hty]⟩
  · intro src k hk
    have hinv : Inv lx := by rw [hk]; exact inv_after k _ (inv_new src)
    have h2 : track lx.rest (lx.line, lx.col) = track lx.source (1, 1) := by
      rw [hinv.line_col, ← track_append]
      unfold rest
      rw [List.take_append_drop]
    rw [h2, track_start] at hlc
    exact ⟨congrArg Prod.fst hlc, congrArg Prod.snd hlc⟩

theorem unterminated_comment_is_end_of_file_witness :
    (after 1 (Lexer.new "a \x7b b\nc d".toList)).rest.dropWhile isspace
      = '\x7b' :: " b\nc d".toList ∧
    (getNextToken (after 1 (Lexer.new "a \x7b b\nc d".toList))).1
      = { type := .END_OF_FILE, value := "", line := 2, col := 4 } ∧
    (getNextToken (after 1 (Lexer.new "a \x7b b\nc d".toList))).2.pos = 9 :=
  have h := unterminated_comment_is_end_of_file (after 1 (Lexer.new "a \x7b b\nc d".toList))
    " b\nc d".toList (by decide) (by decide)
  ⟨by decide, by decide, h.2.2.2.2.1.trans (by decide)⟩

theorem skipWhitespace_of_head (lx : Lexer) (ch : Char) (cs : List Char)
    (h : lx.rest = ch :: cs) (hs : isspace ch = false) : (skipWhitespace lx).rest = ch :: cs := by
  rw [skipWhitespace_rest, h, List.dropWhile_cons_of_neg (by simp [hs])]

theorem trivia_head (w : List Char) (hw : Trivia w) (hne : w ≠ []) :
    ∃ c w', w = c :: w' ∧ isIdentChar c = false ∧ isdigit c = false := by
  cases hw with
  | nil => exact absurd rfl hne
  | space c w' hc _ =>
    refine ⟨c, w', rfl, ?_, ?_⟩
    · unfold isspace at hc
      unfold isIdentChar isalnum isalpha isdigit
      have h95 : c ≠ '_' := by
        intro e; subst e; revert hc; decide
      simp only [Bool.or_eq_true, decide_eq_true_eq, Bool.and_eq_true] at hc
      simp only [Bool.or_eq_false_iff, Bool.and_eq_false_iff, decide_eq_false_iff_not, h95,
        not_false_eq_true, and_true]
      omega
    · unfold isspace at hc
      unfold isdigit
      simp only [Bool.or_eq_true, decide_eq_true_eq, Bool.and_eq_true] at hc
      simp only [Bool.and_eq_false_iff, decide_eq_false_iff_not]
      omega
  | comment body w' _ _ => exact ⟨'{', _, rfl, by decide, by decide⟩

/-- The keyword `s`, followed by text that starts with whitespace or a
comment, is read as one token with text `s`. -/
theorem getNextToken_word (s : String) (ch : Char) (cs : List Char) (hs : s.data = ch :: cs)
    (ha : isalpha ch = true) (hall : ∀ c ∈ s.data, isIdentChar c = true)
    (x : List Char) (hx : ∀ c ∈ x.head?, isIdentChar c = false) (lx : Lexer)
    (hr : lx.rest = s.data ++ x) :
    (getNextToken lx).1.type = keywordType s ∧ (getNextToken lx).1.value = s ∧
    (getNextToken lx).2.rest = x := by
  have hr2 : lx.rest = ch :: (cs ++ x) := by rw [hr, hs]; rfl
  have hsk := skipWhitespace_of_head lx ch (cs ++ x) hr2 (not_isspace_of_isalpha ch ha)
  have hne : ch ≠ '{' := by
    intro h; subst h; revert ha; decide
  have htw : (ch :: (cs ++ x)).takeWhile isIdentChar = s.data := by
    have : ch :: (cs ++ x) = s.data ++ x := by rw [hs]; rfl
    rw [this, List.takeWhile_append_of_pos hall]
    cases x with
    | nil => simp
    | cons c x' =>
      have := hx c (by simp)
      simp [List.takeWhile_cons, this]
  have htok := getNextToken_token lx ch (cs ++ x) hsk hne
  have hspec2 := scanToken_spec ch (cs ++ x) (skipWhitespace lx) hsk
    (not_isspace_of_isalpha ch ha)
  rw [← htok] at hspec2
  rw [scanToken_alpha _ _ _ ha, htw] at htok
  have hv : (getNextToken lx).1.value = s := by rw [htok]
  refine ⟨by rw [htok], hv, ?_⟩
  have h3 := hspec2.rest_eq
  rw [hsk, hv, List.nil_append] at h3
  have h4 : ch :: (cs ++ x) = s.data ++ x := by rw [hs]; rfl
  rw [h4] at h3
  exact (List.append_cancel_left h3).symm

end Lexer

namespace Parser

open Lexer

/-- The run of `Block` on the two tokens `begin` and `end`. -/
theorem Block_empty (fuel : Nat) (p : Parser) (hb : p.currentToken.type = .BEGIN)
    (he : (advance p).currentToken.type = .END) :
    Block (fuel + 2) p = .ok (.mk "块" [.mk "语句列表" []]) (advanceN 2 p) := by
  have hsl : StmtList (fuel + 1) (advance p) = .ok (.mk "语句列表" []) (advance p) := by
    rw [StmtList_succ, bind_ok _ _ _ _ _ (lookahead_apply (advance p)), if_pos he]
    rfl
  rw [Block_succ, bind_ok _ _ _ _ _ (eat_ok _ _ hb), bind_ok _ _ _ _ _ hsl,
    bind_ok _ _ _ _ _ (eat_ok _ _ he)]
  rfl

/-- C13. Empty block. On a lookahead `begin` followed by `end`, `Block` succeeds
with a '块' node whose only child is a '语句列表' node without children, and
has consumed both tokens. This is so for the text `begin`, a non-empty run of
whitespace and complete comments, `end`, whatever follows that is not a
letter, digit or underscore. -/
theorem empty_block_has_no_statements :
    (∀ (fuel : Nat) (p : Parser), 2 ≤ fuel → p.currentToken.type = .BEGIN →
      (advance p).currentToken.type = .END →
      Block fuel p = .ok (.mk "块" [.mk "语句列表" []]) (advanceN 2 p)) ∧
    (∀ (fuel : Nat) (w tail : List Char), 2 ≤ fuel → Trivia w → w ≠ [] →
      (∀ c ∈ tail.head?, isIdentChar c = false) →
      Block fuel (Parser.new (Lexer.new ("begin".toList ++ w ++ "end".toList ++ tail)))
        = .ok (.mk "块" [.mk "语句列表" []])
            (advanceN 2 (Parser.new (Lexer.new ("begin".toList ++ w ++ "end".toList ++ tail))))) ∧
    Block 2 (Parser.new (Lexer.new "begin end".toList))
      = .ok (.mk "块" [.mk "语句列表" []]) (advanceN 2 (Parser.new (Lexer.new "begin end".toList))) := by
  have h1 : ∀ (fuel : Nat) (p : Parser), 2 ≤ fuel → p.currentToken.type = .BEGIN →
      (advance p).currentToken.type = .END →
      Block fuel p = .ok (.mk "块" [.mk "语句列表" []]) (advanceN 2 p) := by
    intro fuel p hf hb he
    obtain ⟨f, rfl⟩ : ∃ f, fuel = f + 2 := ⟨fuel - 2, by omega⟩
    exact Block_empty f p hb he
  refine ⟨h1, ?_, by decide⟩
  intro fuel w tail hf hw hne htail
  obtain ⟨c, w', hwe, hc, _⟩ := trivia_head w hw hne
  have hnb : ("begin".toList ++ w ++ "end".toList ++ tail).take 3 ≠ bom := by
    simp [bom]
  have hnew := new_of_not_bom _ hnb
  have hr0 : (Lexer.new ("begin".toList ++ w ++ "end".toList ++ tail)).rest
      = "begin".data ++ (w ++ ("end".toList ++ tail)) := by
    rw [hnew]
    show List.drop 0 _ = _
    simp
  obtain ⟨t0, _, r0⟩ := getNextToken_word "begin" 'b' "egin".toList rfl (by decide) (by decide)
    (w ++ ("end".toList ++ tail)) (by rw [hwe]; simpa using hc) _ hr0
  have hag := getNextToken_trivia hw ("end".toList ++ tail)
    (getNextToken (Lexer.new ("begin".toList ++ w ++ "end".toList ++ tail))).2
    { source := "end".toList ++ tail, pos := 0, line := 1, col := 1 } r0 rfl
  obtain ⟨t1, _, _⟩ := getNextToken_word "end" 'e' "nd".toList rfl (by decide) (by decide)
    tail htail { source := "end".toList ++ tail, pos := 0, line := 1, col := 1 } rfl
  generalize Lexer.new ("begin".toList ++ w ++ "end".toList ++ tail) = lx at *
  have e1 : (Parser.new lx).currentToken = (getNextToken lx).1 := rfl
  have e2 : (advance (Parser.new lx)).currentToken = (getNextToken (getNextToken lx).2).1 := rfl
  apply h1 fuel _ hf
  · rw [e1, t0]; decide
  · rw [e2, hag.1, t1]; decide

theorem empty_block_has_no_statements_witness :
    Block 5 (Parser.new (Lexer.new
        ("begin".toList ++ [' ', '\x7b', 'x', '\x7d', '\n'] ++ "end".toList ++ ['.'])))
      = .ok (.mk "块" [.mk "语句列表" []])
          (advanceN 2 (Parser.new (Lexer.new
            ("begin".toList ++ [' ', '\x7b', 'x', '\x7d', '\n'] ++ "end".toList ++ ['.'])))) :=
  empty_block_has_no_statements.2.1 5 [' ', '\x7b', 'x', '\x7d', '\n'] ['.'] (by decide)
    (Trivia.space _ _ (by decide) (Trivia.comment ['x'] _ (by decide)
      (Trivia.space _ _ (by decide) Trivia.nil)))
    (by decide) (by decide)

theorem bind_eq_ok {α β : Type} (m : PM α) (f : α → PM β) (p p1 : Parser) (b : β)
    (h : (m >>= f) p = .ok b p1) : ∃ a p', m p = .ok a p' ∧ f a p' = .ok b p1 := by
  rw [bind_apply] at h
  cases hm : m p with
  | ok a p' => rw [hm] at h; exact ⟨a, p', rfl, h⟩
  | error d p' => rw [hm] at h; cases h
  | outOfFuel => rw [hm] at h; cases h

theorem ends_bind {α : Type} (m : PM α) (f : α → PM ASTNode) (hf : ∀ a, Ends (f a)) :
    Ends (m >>= f) := by
  intro p t p1 h
  obtain ⟨a, p', _, h2⟩ := bind_eq_ok m f p p1 t h
  exact hf a p' t p1 h2

theorem ends_bind_pure (m : PM ASTNode) (g : ASTNode → ASTNode) (hm : Ends m) :
    Ends (m >>= fun a => pure (g a)) := by
  intro p t p1 h
  obtain ⟨a, p', h1, h2⟩ := bind_eq_ok _ _ p p1 t h
  rw [pure_apply] at h2
  cases h2
  exact hm p a _ h1

theorem ends_ite {c : Prop} [Decidable c] {a b : PM ASTNode} (ha : Ends a) (hb : Ends b) :
    Ends (if c then a else b) := by
  split
  · exact ha
  · exact hb

theorem ends_error (msg : String) : Ends (error msg) := by
  intro p t p1 h
  rw [error_apply] at h
  cases h

theorem ends_cond (f : Nat) : Ends (Cond f) ∧ ∀ node, Ends (CondLoop f node) := by
  induction f with
  | zero =>
    refine ⟨?_, fun node => ?_⟩
    · intro p t p1 h; rw [Cond_zero] at h; cases h
    · intro p t p1 h; rw [CondLoop_zero] at h; cases h
  | succ f ih =>
    obtain ⟨ihC, ihL⟩ := ih
    refine ⟨?_, fun node => ?_⟩
    · rw [Cond_succ]
      apply ends_bind; intro tok
      apply ends_ite
      · apply ends_bind; intro _
        exact ends_bind_pure _ _ ihC
      · apply ends_ite
        · apply ends_bind; intro _
          apply ends_bind; intro _
          apply ends_bind; intro _
          apply ends_bind; intro _
          apply ends_bind; intro _
          exact ihL _
        · apply ends_bind; intro _
          apply ends_bind; intro _
          apply ends_ite
          · exact ends_error _
          · apply ends_bind; intro _
            apply ends_bind; intro _
            exact ihL _
    · intro p t p1 h
      by_cases hl : IsLogicOp p.currentToken
      · rw [CondLoop_step f node p hl] at h
        exact ends_bind _ _ (fun a => ihL _) _ t p1 h
      · rw [CondLoop_stop f node p hl] at h
        cases h
        exact hl

/-- A successful run of the loop of `Cond` applies at most one operator. -/
theorem CondLoop_once (fuel : Nat) (node : ASTNode) (p p1 : Parser) (t : ASTNode)
    (h : CondLoop fuel node p = .ok t p1) :
    (¬ IsLogicOp p.currentToken ∧ t = node ∧ p1 = p) ∨
    (IsLogicOp p.currentToken ∧ ∃ rhs, Cond (fuel - 1) (advance p) = .ok rhs p1 ∧
      t = .mk ("逻辑符: " ++ p.currentToken.value) [node, rhs]) := by
  cases fuel with
  | zero => rw [CondLoop_zero] at h; cases h
  | succ f =>
    by_cases hl : IsLogicOp p.currentToken
    · right
      refine ⟨hl, ?_⟩
      rw [CondLoop_step f node p hl] at h
      obtain ⟨rhs, p', h1, h2⟩ := bind_eq_ok _ _ _ _ _ h
      have hn := (ends_cond f).1 _ _ _ h1
      cases f with
      | zero => rw [CondLoop_zero] at h2; cases h2
      | succ f' =>
        rw [CondLoop_stop f' _ p' hn] at h2
        cases h2
        exact ⟨rhs, h1, rfl⟩
    · left
      rw [CondLoop_stop f node p hl] at h
      cases h
      exact ⟨hl, rfl, rfl⟩

theorem Cond_not (f : Nat) (p p1 : Parser) (t : ASTNode) (hn : p.currentToken.type = .NOT)
    (h : Cond (f + 1) p = .ok t p1) :
    ∃ operand, Cond f (advance p) = .ok operand p1 ∧
      t = .mk ("逻辑非: " ++ p.currentToken.value) [operand] := by
  rw [Cond_succ, bind_ok _ _ _ _ _ (lookahead_apply p), if_pos hn,
    bind_ok _ _ _ _ _ (eat_ok _ _ hn)] at h
  obtain ⟨operand, p', h1, h2⟩ := bind_eq_ok _ _ _ _ _ h
  rw [pure_apply] at h2
  cases h2
  exact ⟨operand, h1, rfl⟩

/-- C19. The invariant of `Cond`. After every successful call of `Cond` (and of its
loop) the lookahead is neither `and` nor `or`. So a successful run of the
loop applies at most one operator: it returns the condition built so far, or
one '逻辑符: ' node whose right child is the result of the recursive call of
`Cond` on everything after the operator, which ends where the loop ends. A
leading `not` wraps the result of `Cond` on everything after it. On
"a<1 and b<2 or c<3" the root is '逻辑符: and' and its right child the
'逻辑符: or' node; on "not a<1 and b<2" the root is '逻辑非: not' and its only
child the '逻辑符: and' node. -/
theorem cond_leaves_no_logic_operator :
    (∀ (fuel : Nat) (p p1 : Parser) (t : ASTNode), Cond fuel p = .ok t p1 →
      p1.currentToken.type ≠ .AND ∧ p1.currentToken.type ≠ .OR) ∧
    (∀ (fuel : Nat) (node : ASTNode) (p p1 : Parser) (t : ASTNode),
      CondLoop fuel node p = .ok t p1 →
      (p1.currentToken.type ≠ .AND ∧ p1.currentToken.type ≠ .OR) ∧
      ((¬ IsLogicOp p.currentToken ∧ t = node ∧ p1 = p) ∨
       (IsLogicOp p.currentToken ∧ ∃ rhs, Cond (fuel - 1) (advance p) = .ok rhs p1 ∧
         t = .mk ("逻辑符: " ++ p.currentToken.value) [node, rhs]))) ∧
    (∀ (fuel : Nat) (p p1 : Parser) (t : ASTNode), p.currentToken.type = .NOT →
      Cond (fuel + 1) p = .ok t p1 →
      ∃ operand, Cond fuel (advance p) = .ok operand p1 ∧
        t = .mk ("逻辑非: " ++ p.currentToken.value) [operand]) ∧
    (∀ fuel, 8 ≤ fuel →
      Cond fuel (Parser.new (Lexer.new "a<1 and b<2 or c<3".toList))
        = .ok (.mk "逻辑符: and"
            [.mk "条件表达式" [.mk "变量: a" [], .mk "关系符: <" [], .mk "数字: 1" []],
             .mk "逻辑符: or"
              [.mk "条件表达式" [.mk "变量: b" [], .mk "关系符: <" [], .mk "数字: 2" []],
               .mk "条件表达式" [.mk "变量: c" [], .mk "关系符: <" [], .mk "数字: 3" []]]])
            (advanceN 11 (Parser.new (Lexer.new "a<1 and b<2 or c<3".toList)))) ∧
    (∀ fuel, 7 ≤ fuel →
      Cond fuel (Parser.new (Lexer.new "not a<1 and b<2".toList))
        = .ok (.mk "逻辑非: not"
            [.mk "逻辑符: and"
              [.mk "条件表达式" [.mk "变量: a" [], .mk "关系符: <" [], .mk "数字: 1" []],
               .mk "条件表达式" [.mk "变量: b" [], .mk "关系符: <" [], .mk "数字: 2" []]]])
            (advanceN 8 (Parser.new (Lexer.new "not a<1 and b<2".toList)))) := by
  have hnl : ∀ t : Token, ¬ IsLogicOp t → t.type ≠ .AND ∧ t.type ≠ .OR := by
    intro t h
    unfold IsLogicOp at h
    exact ⟨fun e => h (Or.inl e), fun e => h (Or.inr e)⟩
  refine ⟨?_, ?_, ?_, ?_, ?_⟩
  · intro fuel p p1 t h
    exact hnl _ ((ends_cond fuel).1 p t p1 h)
  · intro fuel node p p1 t h
    exact ⟨hnl _ ((ends_cond fuel).2 node p t p1 h), CondLoop_once fuel node p p1 t h⟩
  · intro fuel p p1 t hn h
    exact Cond_not fuel p p1 t hn h
  · intro fuel hf
    have h8 : Cond 8 (Parser.new (Lexer.new "a<1 and b<2 or c<3".toList)) = _ :=
      (by decide : Cond 8 (Parser.new (Lexer.new "a<1 and b<2 or c<3".toList))
        = .ok (.mk "逻辑符: and"
            [.mk "条件表达式" [.mk "变量: a" [], .mk "关系符: <" [], .mk "数字: 1" []],
             .mk "逻辑符: or"
              [.mk "条件表达式" [.mk "变量: b" [], .mk "关系符: <" [], .mk "数字: 2" []],
               .mk "条件表达式" [.mk "变量: c" [], .mk "关系符: <" [], .mk "数字: 3" []]]])
            (advanceN 11 (Parser.new (Lexer.new "a<1 and b<2 or c<3".toList))))
    rw [refines_le Cond (fun f => (refines_cond f).1) 8 fuel hf _ (by rw [h8]; simp), h8]
  · intro fuel hf
    have h7 : Cond 7 (Parser.new (Lexer.new "not a<1 and b<2".toList)) = _ :=
      (by decide : Cond 7 (Parser.new (Lexer.new "not a<1 and b<2".toList))
        = .ok (.mk "逻辑非: not"
            [.mk "逻辑符: and"
              [.mk "条件表达式" [.mk "变量: a" [], .mk "关系符: <" [], .mk "数字: 1" []],
               .mk "条件表达式" [.mk "变量: b" [], .mk "关系符: <" [], .mk "数字: 2" []]]])
            (advanceN 8 (Parser.new (Lexer.new "not a<1 and b<2".toList))))
    rw [refines_le Cond (fun f => (refines_cond f).1) 7 fuel hf _ (by rw [h7]; simp), h7]

theorem cond_leaves_no_logic_operator_witness :
    (advanceN 7 (Parser.new (Lexer.new "a<1 and b<2 then".toList))).currentToken.type ≠ .AND ∧
    (advanceN 7 (Parser.new (Lexer.new "a<1 and b<2 then".toList))).currentToken.type ≠ .OR :=
  cond_leaves_no_logic_operator.1 7 (Parser.new (Lexer.new "a<1 and b<2 then".toList))
    (advanceN 7 (Parser.new (Lexer.new "a<1 and b<2 then".toList)))
    (.mk "逻辑符: and"
      [.mk "条件表达式" [.mk "变量: a" [], .mk "关系符: <" [], .mk "数字: 1" []],
       .mk "条件表达式" [.mk "变量: b" [], .mk "关系符: <" [], .mk "数字: 2" []]])
    (by decide)

theorem remaining_advance (p : Parser) (h : p.currentToken.type ≠ .END_OF_FILE) :
    remaining (advance p) < remaining p := by
  unfold remaining advance
  rw [if_neg h]
  simp only
  have hle := getNextToken_rest_le p.lexer
  by_cases he : (getNextToken p.lexer).1.type = .END_OF_FILE
  · rw [if_pos he]; omega
  · rw [if_neg he]
    have hlt := rest_lt_of_not_eof p.lexer he
    have : (skipWhitespace p.lexer).rest.length ≤ p.lexer.rest.length := by
      rw [skipWhitespace_rest]; exact dropWhile_length_le _ _
    omega

theorem halts_of_advances {N : Nat} {α : Type} {m : PM α} (h : Advances N m) : Halts N m := by
  intro p hp
  have := h p hp
  cases hm : m p with
  | ok a p1 => rw [hm] at this; exact Nat.le_of_lt this
  | error d p1 => trivial
  | outOfFuel => rw [hm] at this; exact this

theorem halts_pure {N : Nat} {α : Type} (a : α) : Halts N (pure a : PM α) :=
  fun _ _ => Nat.le_refl _

theorem halts_lookahead {N : Nat} : Halts N lookahead := fun _ _ => Nat.le_refl _

theorem halts_error {N : Nat} {α : Type} (msg : String) : Halts N (error msg : PM α) :=
  fun _ _ => trivial

theorem advances_error {N : Nat} {α : Type} (msg : String) : Advances N (error msg : PM α) :=
  fun _ _ => trivial

theorem advances_eat {N : Nat} (ty : TokenType) (h : ty ≠ .END_OF_FILE) :
    Advances N (eat ty) := by
  intro p _
  by_cases ht : p.currentToken.type = ty
  · rw [eat_ok ty p ht]
    exact remaining_advance p (by rw [ht]; exact h)
  · rw [eat_error ty p ht]
    trivial

theorem halts_bind {N : Nat} {α β : Type} {m : PM α} {f : α → PM β} (hm : Halts N m)
    (hf : ∀ a, Halts N (f a)) : Halts N (m >>= f) := by
  intro p hp
  have h1 := hm p hp
  rw [bind_apply]
  cases hmp : m p with
  | ok a p1 =>
    rw [hmp] at h1
    simp only at h1 ⊢
    have h2 := hf a p1 (by omega)
    cases hfp : f a p1 with
    | ok b p2 => rw [hfp] at h2; simp only at h2 ⊢; omega
    | error d p2 => trivial
    | outOfFuel => rw [hfp] at h2; exact h2
  | error d p1 => trivial
  | outOfFuel => rw [hmp] at h1; exact h1

theorem advances_bind {N : Nat} {α β : Type} {m : PM α} {f : α → PM β} (hm : Advances N m)
    (hf : 1 ≤ N → ∀ a, Halts (N - 1) (f a)) : Advances N (m >>= f) := by
  intro p hp
  have h1 := hm p hp
  rw [bind_apply]
  cases hmp : m p with
  | ok a p1 =>
    rw [hmp] at h1
    simp only at h1 ⊢
    have h2 := hf (by omega) a p1 (by omega)
    cases hfp : f a p1 with
    | ok b p2 => rw [hfp] at h2; simp only at h2 ⊢; omega
    | error d p2 => trivial
    | outOfFuel => rw [hfp] at h2; exact h2
  | error d p1 => trivial
  | outOfFuel => rw [hmp] at h1; exact h1

theorem halts_bind_advances {N : Nat} {α β : Type} {m : PM α} {f : α → PM β}
    (hm : Advances N m) (hf : 1 ≤ N → ∀ a, Halts (N - 1) (f a)) : Halts N (m >>= f) :=
  halts_of_advances (advances_bind hm hf)

theorem advances_lookahead_bind {N : Nat} {β : Type} {f : Token → PM β}
    (hf : ∀ a, Advances N (f a)) : Advances N (lookahead >>= f) := by
  intro p hp
  rw [bind_ok _ _ _ _ _ (lookahead_apply p)]
  exact hf _ p hp

theorem halts_lookahead_bind {N : Nat} {β : Type} {f : Token → PM β}
    (hf : ∀ a, Halts N (f a)) : Halts N (lookahead >>= f) :=
  halts_bind halts_lookahead hf

theorem advances_eat_bind {N : Nat} {β : Type} {f : Unit → PM β} (ty : TokenType)
    (h : ty ≠ .END_OF_FILE) (hf : 1 ≤ N → ∀ a, Halts (N - 1) (f a)) :
    Advances N (eat ty >>= f) :=
  advances_bind (advances_eat ty h) hf

theorem halts_eat_bind {N : Nat} {β : Type} {f : Unit → PM β} (ty : TokenType)
    (h : ty ≠ .END_OF_FILE) (hf : 1 ≤ N → ∀ a, Halts (N - 1) (f a)) :
    Halts N (eat ty >>= f) :=
  halts_of_advances (advances_eat_bind ty h hf)

theorem halts_ite {N : Nat} {α : Type} {c : Prop} [Decidable c] {a b : PM α}
    (ha : c → Halts N a) (hb : ¬ c → Halts N b) : Halts N (if c then a else b) := by
  split
  · exact ha ‹_›
  · exact hb ‹_›

theorem advances_ite {N : Nat} {α : Type} {c : Prop} [Decidable c] {a b : PM α}
    (ha : c → Advances N a) (hb : ¬ c → Advances N b) : Advances N (if c then a else b) := by
  split
  · exact ha ‹_›
  · exact hb ‹_›

theorem addop_ne {t : TokenType} (h : t = .PLUS ∨ t = .MINUS) :
    t ≠ .END_OF_FILE ∧ t ≠ .UNKNOWN := by
  rcases h with h | h <;> subst h <;> decide

theorem mulop_ne {t : TokenType} (h : t = .MUL ∨ t = .DIV ∨ t = .MOD) :
    t ≠ .END_OF_FILE ∧ t ≠ .UNKNOWN := by
  rcases h with h | h | h <;> subst h <;> decide

theorem logicop_ne {t : TokenType} (h : t = .AND ∨ t = .OR) :
    t ≠ .END_OF_FILE ∧ t ≠ .UNKNOWN := by
  rcases h with h | h <;> subst h <;> decide

section

attribute [local irreducible] Parser.error Parser.eat Parser.lookahead PM.bind PM.outOfFuel
  Expr ExprLoop Term TermLoop Factor Cond CondLoop Block StmtList StmtListLoop Stmt IfStmt
  WhileStmt AssignStmt BreakStmt Program parseBody Halts Advances

set_option maxHeartbeats 4000000 in
theorem halts_expr (f : Nat) :
    ∀ N, (3 * N + 3 ≤ f → Advances N (Expr f)) ∧
      (3 * N + 1 ≤ f → ∀ node, Halts N (ExprLoop f node)) ∧
      (3 * N + 2 ≤ f → Advances N (Term f)) ∧
      (3 * N + 1 ≤ f → ∀ node, Halts N (TermLoop f node)) ∧
      (3 * N + 1 ≤ f → Advances N (Factor f)) := by
  induction f with
  | zero =>
    intro N
    refine ⟨?_, ?_, ?_, ?_, ?_⟩ <;> intro h <;> omega
  | succ f ih =>
    intro N
    refine ⟨fun h => ?_, fun h node => ?_, fun h => ?_, fun h node => ?_, fun h => ?_⟩
    all_goals
      first
        | rw [Expr_succ] | rw [ExprLoop_succ] | rw [Term_succ] | rw [TermLoop_succ]
        | rw [Factor_succ]
      repeat' first
        | exact advances_error _ | exact halts_error _ | exact halts_pure _
        | refine advances_lookahead_bind ?_ | refine halts_lookahead_bind ?_
        | refine advances_eat_bind _ (by decide) ?_ | refine halts_eat_bind _ (by decide) ?_
        | refine advances_eat_bind _ (addop_ne (by assumption)).1 ?_
        | refine halts_eat_bind _ (addop_ne (by assumption)).1 ?_
        | refine advances_eat_bind _ (mulop_ne (by assumption)).1 ?_
        | refine halts_eat_bind _ (mulop_ne (by assumption)).1 ?_
        | refine advances_bind ((ih _).1 (by omega)) ?_
        | refine advances_bind ((ih _).2.2.1 (by omega)) ?_
        | refine advances_bind ((ih _).2.2.2.2 (by omega)) ?_
        | refine halts_bind_advances ((ih _).1 (by omega)) ?_
        | refine halts_bind_advances ((ih _).2.2.1 (by omega)) ?_
        | refine halts_bind_advances ((ih _).2.2.2.2 (by omega)) ?_
        | exact (ih _).2.1 (by omega) _
        | exact (ih _).2.2.2.1 (by omega) _
        | refine advances_ite ?_ ?_ | refine halts_ite ?_ ?_
        | intro _

set_option maxHeartbeats 4000000 in
theorem halts_cond (f : Nat) :
    ∀ N, (3 * N + 4 ≤ f → Advances N (Cond f)) ∧
      (3 * N + 2 ≤ f → ∀ node, Halts N (CondLoop f node)) := by
  induction f with
  | zero =>
    intro N
    refine ⟨?_, ?_⟩ <;> intro h <;> omega
  | succ f ih =>
    intro N
    have ihE := fun N => (halts_expr f N).1
    refine ⟨fun h => ?_, fun h node => ?_⟩
    all_goals
      first
        | rw [Cond_succ] | rw [CondLoop_succ]
      repeat' first
        | exact advances_error _ | exact halts_error _ | exact halts_pure _
        | exact (ih _).1 (by omega)
        | exact ihE _ (by omega)
        | exact halts_of_advances ((ih _).1 (by omega))
        | exact halts_of_advances (ihE _ (by omega))
        | exact (ih _).2 (by omega) _
        | refine advances_lookahead_bind ?_ | refine halts_lookahead_bind ?_
        | refine advances_eat_bind _ (by decide) ?_ | refine halts_eat_bind _ (by decide) ?_
        | refine advances_eat_bind _ (logicop_ne (by assumption)).1 ?_
        | refine halts_eat_bind _ (logicop_ne (by assumption)).1 ?_
        | refine advances_bind ((ih _).1 (by omega)) ?_
        | refine advances_bind (ihE _ (by omega)) ?_
        | refine halts_bind_advances ((ih _).1 (by omega)) ?_
        | refine halts_bind_advances (ihE _ (by omega)) ?_
        | refine advances_ite ?_ ?_ | refine halts_ite ?_ ?_
        | refine halts_bind ?_ ?_
        | intro _

set_option maxHeartbeats 4000000 in
theorem halts_assign (f N : Nat) (h : 3 * N + 3 ≤ f) : Advances N (AssignStmt f) := by
  have ihE := fun N => (halts_expr f N).1
  unfold AssignStmt
  repeat' first
    | exact advances_error _ | exact halts_error _ | exact halts_pure _
    | exact ihE _ (by omega)
    | exact halts_of_advances (ihE _ (by omega))
    | refine advances_lookahead_bind ?_ | refine halts_lookahead_bind ?_
    | refine advances_eat_bind _ (by decide) ?_ | refine halts_eat_bind _ (by decide) ?_
    | refine advances_eat_bind _ (logicop_ne (by assumption)).1 ?_
    | refine halts_eat_bind _ (logicop_ne (by assumption)).1 ?_
    | refine advances_bind (ihE _ (by omega)) ?_
    | refine halts_bind_advances (ihE _ (by omega)) ?_
    | refine advances_ite ?_ ?_ | refine halts_ite ?_ ?_
    | refine halts_bind ?_ ?_
    | intro _

set_option maxHeartbeats 4000000 in
theorem halts_break (N : Nat) : Advances N BreakStmt := by
  unfold BreakStmt
  repeat' first
    | exact advances_error _ | exact halts_error _ | exact halts_pure _
    | refine advances_lookahead_bind ?_ | refine halts_lookahead_bind ?_
    | refine advances_eat_bind _ (by decide) ?_ | refine halts_eat_bind _ (by decide) ?_
    | refine advances_eat_bind _ (logicop_ne (by assumption)).1 ?_
    | refine halts_eat_bind _ (logicop_ne (by assumption)).1 ?_
    | refine advances_ite ?_ ?_ | refine halts_ite ?_ ?_
    | refine halts_bind ?_ ?_
    | intro _

set_option maxHeartbeats 4000000 in
theorem halts_stmt (f : Nat) :
    ∀ N, (3 * N + 4 ≤ f → Advances N (Block f)) ∧
      (3 * N + 6 ≤ f → Halts N (StmtList f)) ∧
      (3 * N + 3 ≤ f → ∀ l, Halts N (StmtListLoop f l)) ∧
      (3 * N + 5 ≤ f → Advances N (Stmt f)) ∧
      (3 * N + 4 ≤ f → Advances N (IfStmt f)) ∧
      (3 * N + 4 ≤ f → Advances N (WhileStmt f)) := by
  induction f with
  | zero =>
    intro N
    refine ⟨?_, ?_, ?_, ?_, ?_, ?_⟩ <;> intro h <;> omega
  | succ f ih =>
    intro N
    have ihC := fun N => (halts_cond f N).1
    have ihA := halts_assign f
    have ihBr := halts_break
    refine ⟨fun h => ?_, fun h => ?_, fun h l => ?_, fun h => ?_, fun h => ?_, fun h => ?_⟩
    all_goals
      first
        | rw [Block_succ] | rw [StmtList_succ] | rw [StmtListLoop_succ] | rw [Stmt_succ]
        | rw [IfStmt_succ] | rw [WhileStmt_succ]
      repeat' first
        | exact advances_error _ | exact halts_error _ | exact halts_pure _
        | exact (ih _).1 (by omega)
        | exact (ih _).2.2.2.1 (by omega)
        | exact (ih _).2.2.2.2.1 (by omega)
        | exact (ih _).2.2.2.2.2 (by omega)
        | exact ihC _ (by omega)
        | exact ihA _ (by omega)
        | exact halts_of_advances ((ih _).1 (by omega))
        | exact halts_of_advances ((ih _).2.2.2.1 (by omega))
        | exact halts_of_advances ((ih _).2.2.2.2.1 (by omega))
        | exact halts_of_advances ((ih _).2.2.2.2.2 (by omega))
        | exact halts_of_advances (ihC _ (by omega))
        | exact halts_of_advances (ihA _ (by omega))
        | exact (ih _).2.2.1 (by omega) _
        | exact ihBr _ | exact halts_of_advances (ihBr _)
        | exact (ih _).2.1 (by omega)
        | refine advances_lookahead_bind ?_ | refine halts_lookahead_bind ?_
        | refine advances_eat_bind _ (by decide) ?_ | refine halts_eat_bind _ (by decide) ?_
        | refine advances_eat_bind _ (logicop_ne (by assumption)).1 ?_
        | refine halts_eat_bind _ (logicop_ne (by assumption)).1 ?_
        | refine advances_bind ((ih _).1 (by omega)) ?_
        | refine advances_bind ((ih _).2.2.2.1 (by omega)) ?_
        | refine advances_bind ((ih _).2.2.2.2.1 (by omega)) ?_
        | refine advances_bind ((ih _).2.2.2.2.2 (by omega)) ?_
        | refine advances_bind (ihC _ (by omega)) ?_
        | refine advances_bind (ihA _ (by omega)) ?_
        | refine halts_bind_advances ((ih _).1 (by omega)) ?_
        | refine halts_bind_advances ((ih _).2.2.2.1 (by omega)) ?_
        | refine halts_bind_advances ((ih _).2.2.2.2.1 (by omega)) ?_
        | refine halts_bind_advances ((ih _).2.2.2.2.2 (by omega)) ?_
        | refine halts_bind_advances (ihC _ (by omega)) ?_
        | refine halts_bind_advances (ihA _ (by omega)) ?_
        | refine advances_ite ?_ ?_ | refine halts_ite ?_ ?_
        | refine halts_bind ?_ ?_
        | intro _

set_option maxHeartbeats 4000000 in
theorem halts_program (f N : Nat) (h : 3 * N + 4 ≤ f) : Advances N (Program f) := by
  have ihB := fun N => (halts_stmt f N).1
  unfold Program
  repeat' first
    | exact advances_error _ | exact halts_error _ | exact halts_pure _
    | exact ihB _ (by omega)
    | exact halts_of_advances (ihB _ (by omega))
    | refine advances_lookahead_bind ?_ | refine halts_lookahead_bind ?_
    | refine advances_eat_bind _ (by decide) ?_ | refine halts_eat_bind _ (by decide) ?_
    | refine advances_eat_bind _ (logicop_ne (by assumption)).1 ?_
    | refine halts_eat_bind _ (logicop_ne (by assumption)).1 ?_
    | refine advances_bind (ihB _ (by omega)) ?_
    | refine halts_bind_advances (ihB _ (by omega)) ?_
    | refine advances_ite ?_ ?_ | refine halts_ite ?_ ?_
    | refine halts_bind ?_ ?_
    | intro _

set_option maxHeartbeats 4000000 in
theorem halts_parseBody (f N : Nat) (h : 3 * N + 4 ≤ f) : Halts N (parseBody f) := by
  have ihP := halts_program f
  unfold parseBody
  repeat' first
    | exact advances_error _ | exact halts_error _ | exact halts_pure _
    | exact ihP _ (by omega)
    | exact halts_of_advances (ihP _ (by omega))
    | refine advances_lookahead_bind ?_ | refine halts_lookahead_bind ?_
    | refine advances_eat_bind _ (by decide) ?_ | refine halts_eat_bind _ (by decide) ?_
    | refine advances_eat_bind _ (logicop_ne (by assumption)).1 ?_
    | refine halts_eat_bind _ (logicop_ne (by assumption)).1 ?_
    | refine advances_bind (ihP _ (by omega)) ?_
    | refine halts_bind_advances (ihP _ (by omega)) ?_
    | refine advances_ite ?_ ?_ | refine halts_ite ?_ ?_
    | refine halts_bind ?_ ?_
    | intro _

end

theorem not_outOfFuel_of_halts {α : Type} {m : PM α} {N : Nat} (h : Halts N m) (p : Parser)
    (hp : remaining p ≤ N) : m p ≠ .outOfFuel := by
  intro e
  have := h p hp
  rw [e] at this
  exact this

theorem parseFuel_of_ne {f : Nat} {p : Parser} (h : parseBody f p ≠ .outOfFuel) :
    ∃ r, parseFuel f p = some r ∧
      ((∃ t, r.root = some t ∧ r.out = []) ∨ (r.root = none ∧ ∃ d, r.out = [d])) := by
  unfold parseFuel
  cases hb : parseBody f p with
  | ok t p1 => exact ⟨_, rfl, Or.inl ⟨t, rfl, rfl⟩⟩
  | error d p1 => exact ⟨_, rfl, Or.inr ⟨rfl, d, rfl⟩⟩
  | outOfFuel => exact absurd hb h

/-- Enough fuel for `parse`: with a bound of three per unit of remaining input,
plus six, `parseFuel` returns the result of `parse`. -/
theorem parseFuel_remaining (p : Parser) (fuel : Nat) (h : 3 * remaining p + 6 ≤ fuel) :
    parseFuel fuel p = some (parse p) := by
  have h0 : parseBody (3 * remaining p + 6) p ≠ .outOfFuel :=
    not_outOfFuel_of_halts (halts_parseBody _ (remaining p) (by omega)) p (Nat.le_refl _)
  have hre := refines_le parseBody refines_parseBody _ fuel h p h0
  obtain ⟨r, hr, _⟩ := parseFuel_of_ne h0
  have hp : parse p = r := by unfold parse; rw [hr]
  rw [hp, ← hr]
  unfold parseFuel
  rw [hre]

/-- Whatever bound `parseFuel` returns with, it returns the result of `parse`. -/
theorem parse_eq_of_parseFuel (p : Parser) (fuel : Nat) (r : ParseResult)
    (h : parseFuel fuel p = some r) : parse p = r := by
  have hne : parseBody fuel p ≠ .outOfFuel := by
    intro e; unfold parseFuel at h; rw [e] at h; cases h
  have hre := refines_le parseBody refines_parseBody fuel (fuel + (3 * remaining p + 6))
    (by omega) p hne
  have h2 := parseFuel_remaining p (fuel + (3 * remaining p + 6)) (by omega)
  have h3 : parseFuel (fuel + (3 * remaining p + 6)) p = parseFuel fuel p := by
    unfold parseFuel; rw [hre]
  rw [h3, h] at h2
  exact (Option.some.inj h2).symm

theorem advances_of_ok (m : Nat → PM ASTNode) (hr : ∀ f, Refines (m f) (m (f + 1))) (r : Nat)
    (ha : ∀ f N, 3 * N + r ≤ f → Advances N (m f)) (fuel : Nat) (p p1 : Parser) (t : ASTNode)
    (h : m fuel p = .ok t p1) : remaining p1 < remaining p := by
  have hne : m fuel p ≠ .outOfFuel := by rw [h]; simp
  have hre := refines_le m hr fuel (fuel + (3 * remaining p + r)) (by omega) p hne
  have := ha (fuel + (3 * remaining p + r)) (remaining p) (by omega) p (Nat.le_refl _)
  rw [hre, h] at this
  exact this

theorem commentSpan_length_pos (cs : List Char) : 0 < (commentSpan ('\x7b' :: cs)).length := by
  unfold commentSpan
  rw [List.takeWhile_cons_of_pos (by decide)]
  simp

/-- C16. Termination. A call of `getNextToken` returns within `source.size() - pos + 1`
self-calls, and the self-call after a comment is made at a strictly larger
scan offset. With a recursion bound of three per unit of remaining input
(unread characters, plus one for a lookahead that is not end-of-file) plus
six, `parse` returns, either a tree and no diagnostic or no tree and one
diagnostic, and none of the grammar procedures uses up the bound. Every
successful call of `Stmt`, `Block`, `IfStmt`, `WhileStmt`, `Expr`, `Term`,
`Factor` or `Cond` has consumed at least one token (it leaves strictly less
input than it found), and a call of `StmtList` leaves no more input than it
found. -/
theorem parser_terminates :
    (∀ lx : Lexer, ∃ r, getNextTokenFuel (lx.source.length - lx.pos + 1) lx = some r ∧
      getNextToken lx = r) ∧
    (∀ (lx : Lexer) (cs : List Char), lx.rest = '\x7b' :: cs →
      lx.pos < (skipComment lx).pos ∧ (skipComment lx).pos ≤ lx.source.length) ∧
    (∀ (p : Parser) (fuel : Nat), 3 * remaining p + 6 ≤ fuel →
      parseFuel fuel p = some (parse p) ∧
      ((∃ t, (parse p).root = some t ∧ (parse p).out = []) ∨
        ((parse p).root = none ∧ ∃ d, (parse p).out = [d]))) ∧
    (∀ (p : Parser) (fuel : Nat), 3 * remaining p + 6 ≤ fuel →
      Stmt fuel p ≠ .outOfFuel ∧ Block fuel p ≠ .outOfFuel ∧ StmtList fuel p ≠ .outOfFuel ∧
      IfStmt fuel p ≠ .outOfFuel ∧ WhileStmt fuel p ≠ .outOfFuel ∧ Expr fuel p ≠ .outOfFuel ∧
      Term fuel p ≠ .outOfFuel ∧ Factor fuel p ≠ .outOfFuel ∧ Cond fuel p ≠ .outOfFuel) ∧
    (∀ (fuel : Nat) (p p1 : Parser) (t : ASTNode),
      (Stmt fuel p = .ok t p1 ∨ Block fuel p = .ok t p1 ∨ IfStmt fuel p = .ok t p1 ∨
        WhileStmt fuel p = .ok t p1 ∨ Expr fuel p = .ok t p1 ∨ Term fuel p = .ok t p1 ∨
        Factor fuel p = .ok t p1 ∨ Cond fuel p = .ok t p1) →
      remaining p1 < remaining p) ∧
    (∀ (fuel : Nat) (p p1 : Parser) (t : ASTNode), StmtList fuel p = .ok t p1 →
      remaining p1 ≤ remaining p) := by
  refine ⟨?_, ?_, ?_, ?_, ?_, ?_⟩
  · intro lx
    obtain ⟨r, hr⟩ := getNextTokenFuel_isSome (lx.source.length - lx.pos + 1) lx
      (by rw [rest_length]; omega)
    exact ⟨r, hr, getNextToken_eq_fuel lx _ r hr⟩
  · intro lx cs h
    have hpos := commentSpan_length_pos cs
    have happ := congrArg List.length (commentSpan_append ('\x7b' :: cs))
    rw [List.length_append] at happ
    have hlen := rest_length lx
    rw [h] at hlen
    rw [skipComment_eq, h]
    simp only
    simp only [List.length_cons] at hlen happ hpos ⊢
    omega
  · intro p fuel h
    have h1 := parseFuel_remaining p fuel h
    refine ⟨h1, ?_⟩
    have hne : parseBody fuel p ≠ .outOfFuel := by
      intro e; unfold parseFuel at h1; rw [e] at h1; cases h1
    obtain ⟨r, hr, hsh⟩ := parseFuel_of_ne hne
    rw [h1] at hr
    cases hr
    exact hsh
  · intro p fuel h
    have hs := halts_stmt fuel (remaining p)
    have he := halts_expr fuel (remaining p)
    have hc := halts_cond fuel (remaining p)
    refine ⟨?_, ?_, ?_, ?_, ?_, ?_, ?_, ?_, ?_⟩
    · exact not_outOfFuel_of_halts (halts_of_advances (hs.2.2.2.1 (by omega))) p (Nat.le_refl _)
    · exact not_outOfFuel_of_halts (halts_of_advances (hs.1 (by omega))) p (Nat.le_refl _)
    · exact not_outOfFuel_of_halts (hs.2.1 (by omega)) p (Nat.le_refl _)
    · exact not_outOfFuel_of_halts (halts_of_advances (hs.2.2.2.2.1 (by omega))) p (Nat.le_refl _)
    · exact not_outOfFuel_of_halts (halts_of_advances (hs.2.2.2.2.2 (by omega))) p (Nat.le_refl _)
    · exact not_outOfFuel_of_halts (halts_of_advances (he.1 (by omega))) p (Nat.le_refl _)
    · exact not_outOfFuel_of_halts (halts_of_advances (he.2.2.1 (by omega))) p (Nat.le_refl _)
    · exact not_outOfFuel_of_halts (halts_of_advances (he.2.2.2.2 (by omega))) p (Nat.le_refl _)
    · exact not_outOfFuel_of_halts (halts_of_advances (hc.1 (by omega))) p (Nat.le_refl _)
  · intro fuel p p1 t h
    rcases h with h | h | h | h | h | h | h | h
    · exact advances_of_ok Stmt (fun f => (refines_stmt f).2.2.2.1) 5
        (fun f N hN => (halts_stmt f N).2.2.2.1 hN) fuel p p1 t h
    · exact advances_of_ok Block (fun f => (refines_stmt f).1) 4
        (fun f N hN => (halts_stmt f N).1 hN) fuel p p1 t h
    · exact advances_of_ok IfStmt (fun f => (refines_stmt f).2.2.2.2.1) 4
        (fun f N hN => (halts_stmt f N).2.2.2.2.1 hN) fuel p p1 t h
    · exact advances_of_ok WhileStmt (fun f => (refines_stmt f).2.2.2.2.2) 4
        (fun f N hN => (halts_stmt f N).2.2.2.2.2 hN) fuel p p1 t h
    · exact advances_of_ok Expr (fun f => (refines_expr f).1) 3
        (fun f N hN => (halts_expr f N).1 hN) fuel p p1 t h
    · exact advances_of_ok Term (fun f => (refines_expr f).2.2.1) 2
        (fun f N hN => (halts_expr f N).2.2.1 hN) fuel p p1 t h
    · exact advances_of_ok Factor (fun f => (refines_expr f).2.2.2.2) 1
        (fun f N hN => (halts_expr f N).2.2.2.2 hN) fuel p p1 t h
    · exact advances_of_ok Cond (fun f => (refines_cond f).1) 4
        (fun f N hN => (halts_cond f N).1 hN) fuel p p1 t h
  · intro fuel p p1 t h
    have hne : StmtList fuel p ≠ .outOfFuel := by rw [h]; simp
    have hre := refines_le StmtList (fun f => (refines_stmt f).2.1) fuel
      (fuel + (3 * remaining p + 6)) (by omega) p hne
    have := (halts_stmt (fuel + (3 * remaining p + 6)) (remaining p)).2.1 (by omega) p
      (Nat.le_refl _)
    rw [hre, h] at this
    exact this

theorem parser_terminates_witness :
    parseFuel 200 (Parser.new (Lexer.new "program p; begin while a < 1 do a := a + 1 end.".toList))
      = some (parse (Parser.new
          (Lexer.new "program p; begin while a < 1 do a := a + 1 end.".toList))) :=
  (parser_terminates.2.2.1 _ 200 (by decide)).1

theorem eaten_add {k1 k2 : Nat} {p : Parser} (h1 : Eaten k1 p) (h2 : Eaten k2 (advanceN k1 p)) :
    Eaten (k1 + k2) p := by
  intro i hi
  by_cases h : i < k1
  · exact h1 i h
  · have := h2 (i - k1) (by omega)
    rw [← advanceN_add] at this
    rw [show k1 + (i - k1) = i by omega] at this
    exact this

theorem similar_left {R1 R : Token → Token → Prop} {k1 k2 : Nat} {p q : Parser}
    (h : Similar R (k1 + k2) p q) (hR : k2 = 0 → ∀ x y, R x y → R1 x y) :
    Similar R1 k1 p q := by
  refine ⟨fun i hi => h.1 i (by omega), ?_⟩
  by_cases hk : k2 = 0
  · subst hk
    rcases h.2 with h2 | h2
    · exact Or.inl h2
    · exact Or.inr (hR rfl _ _ h2)
  · exact Or.inl (h.1 k1 (by omega))

theorem similar_right {R : Token → Token → Prop} {k1 k2 : Nat} {p q : Parser}
    (h : Similar R (k1 + k2) p q) : Similar R k2 (advanceN k1 p) (advanceN k1 q) := by
  refine ⟨fun i hi => ?_, ?_⟩
  · rw [← advanceN_add, ← advanceN_add]
    exact h.1 (k1 + i) (by omega)
  · rw [← advanceN_add, ← advanceN_add]
    exact h.2

theorem uniform_pure {R : Token → Token → Prop} {α : Type} (a : α) :
    Uniform R (pure a : PM α) := by
  intro p b p1 h
  rw [pure_apply] at h
  cases h
  exact ⟨0, rfl, fun i hi => absurd hi (Nat.not_lt_zero i), fun q _ => rfl⟩

theorem uniform_error {R : Token → Token → Prop} {α : Type} (msg : String) :
    Uniform R (error msg : PM α) := by
  intro p b p1 h
  rw [error_apply] at h
  cases h

theorem uniform_outOfFuel {R : Token → Token → Prop} {α : Type} :
    Uniform R (PM.outOfFuel : PM α) := by
  intro p b p1 h
  cases h

theorem uniform_eat {R : Token → Token → Prop} (ty : TokenType)
    (hty : ty ≠ .END_OF_FILE ∧ ty ≠ .UNKNOWN) : Uniform R (eat ty) := by
  intro p b p1 h
  by_cases ht : p.currentToken.type = ty
  · rw [eat_ok ty p ht] at h
    cases h
    refine ⟨1, rfl, ?_, fun q hq => ?_⟩
    · intro i hi
      obtain rfl : i = 0 := by omega
      show p.currentToken.type ≠ _ ∧ p.currentToken.type ≠ _
      rw [ht]; exact hty
    · have h0 : q.currentToken.type = p.currentToken.type := (hq.1 0 (by omega)).1
      rw [eat_ok ty q (by rw [h0]; exact ht)]
      rfl
  · rw [eat_error ty p ht] at h
    cases h

theorem uniform_bind {R : Token → Token → Prop} {α β : Type} {m : PM α} {f : α → PM β}
    (hm : Uniform R m) (hf : ∀ a, Uniform R (f a)) : Uniform R (m >>= f) := by
  intro p b p2 h
  obtain ⟨a, p1, h1, h2⟩ := bind_eq_ok m f p p2 b h
  obtain ⟨k1, hp1, he1, hq1⟩ := hm p a p1 h1
  obtain ⟨k2, hp2, he2, hq2⟩ := hf a p1 b p2 h2
  subst hp1
  refine ⟨k1 + k2, by rw [hp2, advanceN_add], eaten_add he1 he2, fun q hq => ?_⟩
  rw [bind_ok _ _ _ _ _ (hq1 q (similar_left hq (fun _ _ _ h => h))), advanceN_add]
  exact hq2 _ (similar_right hq)

theorem uniform_lookahead_bind {R : Token → Token → Prop} {β : Type} {f : Token → PM β}
    (hf : ∀ tok, Uniform R (f tok)) (hdep : ∀ a b, SameToken a b → f a = f b)
    (hstop : ∀ a b, R a b → f a = f b) : Uniform R (lookahead >>= f) := by
  intro p b p1 h
  rw [bind_ok _ _ _ _ _ (lookahead_apply p)] at h
  obtain ⟨k, hp1, he, hq⟩ := hf _ p b p1 h
  refine ⟨k, hp1, he, fun q hq2 => ?_⟩
  rw [bind_ok _ _ _ _ _ (lookahead_apply q)]
  have hfe : f q.currentToken = f p.currentToken := by
    by_cases hk : k = 0
    · subst hk
      rcases hq2.2 with h2 | h2
      · exact hdep _ _ h2
      · exact hstop _ _ h2
    · exact hdep _ _ (hq2.1 0 (by omega))
  rw [hfe]
  exact hq q hq2

theorem uniform_ite {R : Token → Token → Prop} {α : Type} {c : Prop} [Decidable c]
    {a b : PM α} (ha : c → Uniform R a) (hb : ¬ c → Uniform R b) :
    Uniform R (if c then a else b) := by
  split
  · exact ha ‹_›
  · exact hb ‹_›

theorem uniform_never {R : Token → Token → Prop} {α : Type} {m : PM α} (h : Uniform R m) :
    Uniform Never m := by
  intro p a p1 hm
  obtain ⟨k, hp1, he, hq⟩ := h p a p1 hm
  refine ⟨k, hp1, he, fun q hq2 => hq q ⟨hq2.1, ?_⟩⟩
  rcases hq2.2 with h2 | h2
  · exact Or.inl h2
  · exact h2.elim

/-- Sequencing with a procedure that is followed by the consumption of a token:
what the first part leaves as its lookahead is consumed, so it is compared by
kind and text. -/
theorem uniform_bind_eat {R : Token → Token → Prop} {α β : Type} {m : PM α} {g : α → PM β}
    (ty : TokenType) (hty : ty ≠ .END_OF_FILE ∧ ty ≠ .UNKNOWN)
    (hm : Uniform Never m) (hg : ∀ a, Uniform R (g a)) :
    Uniform R (m >>= fun a => eat ty >>= fun _ => g a) := by
  intro p b p3 h
  obtain ⟨a, p1, h1, h2⟩ := bind_eq_ok _ _ p p3 b h
  obtain ⟨u, p2, h3, h4⟩ := bind_eq_ok _ _ p1 p3 b h2
  obtain ⟨k1, hp1, he1, hq1⟩ := hm p a p1 h1
  obtain ⟨k3, hp3, he3, hq3⟩ := hg a p2 b p3 h4
  have ht : p1.currentToken.type = ty := by
    by_contra hne
    rw [eat_error ty p1 hne] at h3
    cases h3
  rw [eat_ok ty p1 ht] at h3
  cases h3
  subst hp1
  have he12 : Eaten (k1 + 1) p := by
    refine eaten_add he1 ?_
    intro i hi
    obtain rfl : i = 0 := by omega
    show (advanceN k1 p).currentToken.type ≠ _ ∧ (advanceN k1 p).currentToken.type ≠ _
    rw [ht]; exact hty
  have hadv : advance (advanceN k1 p) = advanceN (k1 + 1) p := by
    rw [advanceN_add]; rfl
  refine ⟨k1 + 1 + k3, by rw [hp3, hadv, advanceN_add (k1 + 1) k3], ?_, fun q hq => ?_⟩
  · refine eaten_add he12 ?_
    rw [← hadv]; exact he3
  · have hs1 : Similar Never k1 p q :=
      ⟨fun i hi => hq.1 i (by omega), Or.inl (hq.1 k1 (by omega))⟩
    have hqt : (advanceN k1 q).currentToken.type = ty := by
      rw [(hq.1 k1 (by omega)).1]; exact ht
    rw [bind_ok _ _ _ _ _ (hq1 q hs1), bind_ok _ _ _ _ _ (eat_ok ty _ hqt)]
    have hadvq : advance (advanceN k1 q) = advanceN (k1 + 1) q := by
      rw [advanceN_add]; rfl
    rw [hadvq, advanceN_add (k1 + 1) k3]
    have := hq3 (advanceN (k1 + 1) q) (by rw [hadv]; exact similar_right hq)
    exact this

section

attribute [local irreducible] Parser.error Parser.eat Parser.lookahead PM.bind PM.outOfFuel
  Expr ExprLoop Term TermLoop Factor Cond CondLoop Block StmtList StmtListLoop Stmt IfStmt
  WhileStmt AssignStmt BreakStmt Program parseBody Uniform

set_option maxHeartbeats 4000000 in
theorem uniform_expr (f : Nat) :
    Uniform BothStop (Expr f) ∧ (∀ node, Uniform BothStop (ExprLoop f node)) ∧
    Uniform BothStop (Term f) ∧ (∀ node, Uniform BothStop (TermLoop f node)) ∧
    Uniform BothStop (Factor f) := by
  induction f with
  | zero =>
    refine ⟨?_, fun _ => ?_, ?_, fun _ => ?_, ?_⟩ <;>
    (first | rw [Expr_zero] | rw [ExprLoop_zero] | rw [Term_zero] | rw [TermLoop_zero]
           | rw [Factor_zero]) <;> exact uniform_outOfFuel
  | succ f ih =>
    obtain ⟨ihE, ihEL, ihT, ihTL, ihF⟩ := ih
    refine ⟨?_, fun node => ?_, ?_, fun node => ?_, ?_⟩
    all_goals
      first
        | rw [Expr_succ] | rw [ExprLoop_succ] | rw [Term_succ] | rw [TermLoop_succ]
        | rw [Factor_succ]
      repeat' first
        | exact uniform_error _ | exact uniform_pure _
        | exact ihE | exact ihT | exact ihF | exact ihEL _ | exact ihTL _
        | refine uniform_lookahead_bind ?_ (by intro a b h; simp only [h.1, h.2])
            (by intro a b h; rcases h with ⟨h1 | h1, h2 | h2⟩ <;> simp [h1, h2])
        | refine uniform_bind (uniform_eat _ (by decide)) ?_
        | refine uniform_bind (uniform_eat _ (addop_ne (by assumption))) ?_
        | refine uniform_bind (uniform_eat _ (mulop_ne (by assumption))) ?_
        | refine uniform_bind ?_ ?_
        | refine uniform_ite ?_ ?_
        | intro _

set_option maxHeartbeats 4000000 in
theorem uniform_cond (f : Nat) :
    Uniform BothStop (Cond f) ∧ (∀ node, Uniform BothStop (CondLoop f node)) := by
  induction f with
  | zero =>
    refine ⟨?_, fun _ => ?_⟩ <;> (first | rw [Cond_zero] | rw [CondLoop_zero]) <;>
    exact uniform_outOfFuel
  | succ f ih =>
    obtain ⟨ihC, ihCL⟩ := ih
    have ihE := (uniform_expr f).1
    refine ⟨?_, fun node => ?_⟩
    all_goals
      first
        | rw [Cond_succ] | rw [CondLoop_succ]
      repeat' first
        | exact uniform_error _ | exact uniform_pure _
        | exact ihE | exact ihC | exact ihCL _
        | refine uniform_lookahead_bind ?_ (by intro a b h; simp only [h.1, h.2])
            (by intro a b h; rcases h with ⟨h1 | h1, h2 | h2⟩ <;> simp [h1, h2])
        | refine uniform_bind (uniform_eat _ (by decide)) ?_
        | refine uniform_bind (uniform_eat _ (logicop_ne (by assumption))) ?_
        | refine uniform_bind ?_ ?_
        | refine uniform_ite ?_ ?_
        | intro _

set_option maxHeartbeats 4000000 in
theorem uniform_assign (f : Nat) : Uniform BothStop (AssignStmt f) := by
  have ihE := (uniform_expr f).1
  unfold AssignStmt
  repeat' first
    | exact uniform_error _ | exact uniform_pure _
    | exact ihE
    | refine uniform_lookahead_bind ?_ (by intro a b h; simp only [h.1, h.2])
        (by intro a b h; rcases h with ⟨h1 | h1, h2 | h2⟩ <;> simp [h1, h2])
    | refine uniform_bind (uniform_eat _ (by decide)) ?_
    | refine uniform_bind ?_ ?_
    | refine uniform_ite ?_ ?_
    | intro _

theorem uniform_break : Uniform BothStop BreakStmt := by
  unfold BreakStmt
  exact uniform_bind (uniform_eat _ (by decide)) (fun _ => uniform_pure _)

set_option maxHeartbeats 4000000 in
theorem uniform_stmt (f : Nat) :
    Uniform BothStop (Block f) ∧ Uniform Never (StmtList f) ∧
    (∀ l, Uniform Never (StmtListLoop f l)) ∧
    Uniform BothStop (Stmt f) ∧ Uniform BothStop (IfStmt f) ∧ Uniform BothStop (WhileStmt f) := by
  induction f with
  | zero =>
    refine ⟨?_, ?_, fun _ => ?_, ?_, ?_, ?_⟩ <;>
    (first | rw [Block_zero] | rw [StmtList_zero] | rw [StmtListLoop_zero] | rw [Stmt_zero]
           | rw [IfStmt_zero] | rw [WhileStmt_zero]) <;> exact uniform_outOfFuel
  | succ f ih =>
    obtain ⟨ihB, ihSL, ihSLL, ihS, ihI, ihW⟩ := ih
    have ihC := (uniform_cond f).1
    have ihA := uniform_assign f
    have ihBr := uniform_break
    have ihSN := uniform_never ihS
    refine ⟨?_, ?_, fun l => ?_, ?_, ?_, ?_⟩
    · rw [Block_succ]
      refine uniform_bind (uniform_eat _ (by decide)) ?_
      intro _
      exact uniform_bind_eat .END (by decide) ihSL (fun list => uniform_pure _)
    all_goals
      first
        | rw [StmtList_succ] | rw [StmtListLoop_succ] | rw [Stmt_succ]
        | rw [IfStmt_succ] | rw [WhileStmt_succ]
      repeat' first
        | exact uniform_error _ | exact uniform_pure _
        | exact ihB | exact ihS | exact ihI | exact ihW | exact ihC | exact ihA | exact ihBr | exact ihSN | exact ihSLL _
        | refine uniform_lookahead_bind ?_ (by intro a b h; simp only [h.1, h.2])
            (by first
              | (intro a b h; exact False.elim h)
              | (intro a b h; rcases h with ⟨h1 | h1, h2 | h2⟩ <;> simp [h1, h2]))
        | refine uniform_bind (uniform_eat _ (by decide)) ?_
        | refine uniform_bind ?_ ?_
        | refine uniform_ite ?_ ?_
        | intro _

set_option maxHeartbeats 4000000 in
theorem uniform_program (f : Nat) : Uniform Never (Program f) := by
  have ihB := uniform_never (uniform_stmt f).1
  unfold Program
  repeat' first
    | exact uniform_error _ | exact uniform_pure _
    | exact ihB
    | refine uniform_lookahead_bind ?_ (by intro a b h; simp only [h.1, h.2])
        (by intro a b h; exact False.elim h)
    | refine uniform_bind (uniform_eat _ (by decide)) ?_
    | refine uniform_bind ?_ ?_
    | refine uniform_ite ?_ ?_
    | intro _

set_option maxHeartbeats 4000000 in
theorem uniform_parseBody (f : Nat) : Uniform Never (parseBody f) := by
  have ihP := uniform_program f
  unfold parseBody
  repeat' first
    | exact uniform_error _ | exact uniform_pure _
    | exact ihP
    | refine uniform_lookahead_bind ?_ (by intro a b h; simp only [h.1, h.2])
        (by intro a b h; exact False.elim h)
    | refine uniform_bind (uniform_eat _ (by decide)) ?_
    | refine uniform_bind ?_ ?_
    | refine uniform_ite ?_ ?_
    | intro _

end

theorem parseBody_ne_of_remaining (p : Parser) :
    parseBody (3 * remaining p + 6) p ≠ .outOfFuel :=
  not_outOfFuel_of_halts (halts_parseBody _ (remaining p) (by omega)) p (Nat.le_refl _)

/-- The result of `parse` has a tree and no diagnostic, or no tree and one
diagnostic. -/
theorem parse_shape (p : Parser) :
    (∃ t, (parse p).root = some t ∧ (parse p).out = []) ∨
    ((parse p).root = none ∧ ∃ d, (parse p).out = [d]) := by
  obtain ⟨r, hr, hsh⟩ := parseFuel_of_ne (parseBody_ne_of_remaining p)
  rw [parseFuel_remaining p _ (Nat.le_refl _)] at hr
  cases hr
  exact hsh

theorem parse_of_ok (f : Nat) (p p1 : Parser) (t : ASTNode) (h : parseBody f p = .ok t p1) :
    parse p = { root := some t, out := [], parser := p1 } := by
  apply parse_eq_of_parseFuel p f
  unfold parseFuel
  rw [h]

theorem parse_of_error (f : Nat) (p p1 : Parser) (d : Diagnostic)
    (h : parseBody f p = .error d p1) :
    parse p = { root := none, out := [d], parser := p1 } := by
  apply parse_eq_of_parseFuel p f
  unfold parseFuel
  rw [h]

theorem parse_root_some (p : Parser) (t : ASTNode) (h : (parse p).root = some t) :
    ∃ f p1, parseBody f p = .ok t p1 := by
  have h1 := parseFuel_remaining p _ (Nat.le_refl _)
  unfold parseFuel at h1
  cases hb : parseBody (3 * remaining p + 6) p with
  | ok t' p1 =>
    rw [hb] at h1
    have := Option.some.inj h1
    rw [← this] at h
    cases h
    exact ⟨_, p1, hb⟩
  | error d p1 =>
    rw [hb] at h1
    have := Option.some.inj h1
    rw [← this] at h
    cases h
  | outOfFuel => rw [hb] at h1; cases h1

/-- The decomposition of a successful run of the body of `parse`. -/
theorem parseBody_ok (f : Nat) (p p1 : Parser) (t : ASTNode) (h : parseBody f p = .ok t p1) :
    Program f p = .ok t p1 ∧ p1.currentToken.type = .END_OF_FILE := by
  unfold parseBody at h
  obtain ⟨root, p2, h1, h2⟩ := bind_eq_ok _ _ _ _ _ h
  rw [bind_ok _ _ _ _ _ (lookahead_apply p2)] at h2
  by_cases he : p2.currentToken.type = .END_OF_FILE
  · rw [if_neg (not_not.mpr he), pure_apply] at h2
    cases h2
    exact ⟨h1, he⟩
  · rw [if_pos he, error_apply] at h2
    cases h2

theorem parseBody_of_program (f : Nat) (p p1 : Parser) (t : ASTNode)
    (h : Program f p = .ok t p1) :
    parseBody f p
      = if p1.currentToken.type ≠ .END_OF_FILE then
          .error (Diagnostic.mk "程序结束后有多余内容" p1.currentToken.line p1.currentToken.col
            p1.currentToken.value) p1
        else .ok t p1 := by
  unfold parseBody
  rw [bind_ok _ _ _ _ _ h, bind_ok _ _ _ _ _ (lookahead_apply p1)]
  split
  · rw [error_apply]
  · rfl

/-- No token of a successfully parsed text is of kind `UNKNOWN`. -/
theorem no_unknown_of_parse (src : List Char) (t : ASTNode)
    (h : (parse (Parser.new (Lexer.new src))).root = some t) (i : Nat) :
    (nthToken i (Lexer.new src)).type ≠ .UNKNOWN := by
  obtain ⟨f, p1, hb⟩ := parse_root_some _ t h
  obtain ⟨k, hp1, he, _⟩ := uniform_parseBody f _ t p1 hb
  have heof := (parseBody_ok f _ p1 t hb).2
  rw [hp1, advanceN_new] at heof
  by_cases hi : i < k
  · have := (he i hi).2
    rw [advanceN_new] at this
    exact this
  · have := nthToken_eof_mono k i (Lexer.new src) (by omega) heof
    rw [this]
    decide

/-- C17. Unknown tokens are rejected. A call of `getNextToken` always returns a
token (there is no failure outcome, and the bound on its self-calls is never
used up). When some token of a text is of kind `UNKNOWN`, `parse` returns no
tree and writes one diagnostic; so no token of a successfully parsed text is
of kind `UNKNOWN`. A lone `:`, `!`, `_`, closing brace or `#` is such a
token. -/
theorem unknown_token_is_rejected :
    (∀ lx : Lexer, ∃ r, getNextTokenFuel (lx.source.length - lx.pos + 1) lx = some r ∧
      getNextToken lx = r) ∧
    (∀ (src : List Char) (i : Nat), (nthToken i (Lexer.new src)).type = .UNKNOWN →
      (parse (Parser.new (Lexer.new src))).root = none ∧
      ∃ d, (parse (Parser.new (Lexer.new src))).out = [d]) ∧
    (∀ (src : List Char) (t : ASTNode), (parse (Parser.new (Lexer.new src))).root = some t →
      ∀ i, (nthToken i (Lexer.new src)).type ≠ .UNKNOWN) ∧
    (tokens 5 (Lexer.new ": ! _ \x7d #".toList)).map (fun t => (t.type, t.value))
      = [(.UNKNOWN, ":"), (.UNKNOWN, "!"), (.UNKNOWN, "_"), (.UNKNOWN, "\x7d"),
         (.UNKNOWN, "#")] := by
  refine ⟨?_, ?_, fun src t h => no_unknown_of_parse src t h, by decide⟩
  · intro lx
    obtain ⟨r, hr⟩ := getNextTokenFuel_isSome (lx.source.length - lx.pos + 1) lx
      (by rw [rest_length]; omega)
    exact ⟨r, hr, getNextToken_eq_fuel lx _ r hr⟩
  · intro src i hi
    rcases parse_shape (Parser.new (Lexer.new src)) with ⟨t, ht, _⟩ | h
    · exact absurd hi (no_unknown_of_parse src t ht i)
    · exact h

theorem unknown_token_is_rejected_witness :
    (nthToken 5 (Lexer.new "program p; begin a : 1 end.".toList)).type = .UNKNOWN ∧
    (parse (Parser.new (Lexer.new "program p; begin a : 1 end.".toList))).root = none :=
  ⟨by decide,
    (unknown_token_is_rejected.2.1 "program p; begin a : 1 end.".toList 5 (by decide)).1⟩

/-- The run of `IfStmt` on `if c then s else t`, from the runs of its parts. -/
theorem IfStmt_else (fuel : Nat) (p pa pb pc : Parser) (c s t : ASTNode)
    (hif : p.currentToken.type = .IF) (hc : Cond fuel (advance p) = .ok c pa)
    (hthen : pa.currentToken.type = .THEN)
    (hs : (if (advance pa).currentToken.type = .BEGIN then Block fuel else Stmt fuel) (advance pa)
      = .ok s pb)
    (helse : pb.currentToken.type = .ELSE)
    (ht : (if (advance pb).currentToken.type = .BEGIN then Block fuel else Stmt fuel) (advance pb)
      = .ok t pc) :
    IfStmt (fuel + 1) p = .ok (.mk "If语句" [c, s, t]) pc := by
  rw [IfStmt_succ, bind_ok _ _ _ _ _ (eat_ok _ _ hif), bind_ok _ _ _ _ _ hc,
    bind_ok _ _ _ _ _ (eat_ok _ _ hthen), bind_ok _ _ _ _ _ (lookahead_apply (advance pa)),
    bind_ok _ _ _ _ _ hs, bind_ok _ _ _ _ _ (lookahead_apply pb), if_pos helse,
    bind_ok _ _ _ _ _ (eat_ok _ _ helse), bind_ok _ _ _ _ _ (lookahead_apply (advance pb)),
    bind_ok _ _ _ _ _ ht]
  rfl

/-- The run of `IfStmt` on `if c then s` when no `else` follows. -/
theorem IfStmt_no_else (fuel : Nat) (p pa pb : Parser) (c s : ASTNode)
    (hif : p.currentToken.type = .IF) (hc : Cond fuel (advance p) = .ok c pa)
    (hthen : pa.currentToken.type = .THEN)
    (hs : (if (advance pa).currentToken.type = .BEGIN then Block fuel else Stmt fuel) (advance pa)
      = .ok s pb)
    (helse : pb.currentToken.type ≠ .ELSE) :
    IfStmt (fuel + 1) p = .ok (.mk "If语句" [c, s]) pb := by
  rw [IfStmt_succ, bind_ok _ _ _ _ _ (eat_ok _ _ hif), bind_ok _ _ _ _ _ hc,
    bind_ok _ _ _ _ _ (eat_ok _ _ hthen), bind_ok _ _ _ _ _ (lookahead_apply (advance pa)),
    bind_ok _ _ _ _ _ hs, bind_ok _ _ _ _ _ (lookahead_apply pb), if_neg helse]
  rfl

theorem Stmt_if (fuel : Nat) (p : Parser) (hif : p.currentToken.type = .IF) :
    Stmt (fuel + 1) p = IfStmt fuel p := by
  rw [Stmt_succ, bind_ok _ _ _ _ _ (lookahead_apply p), if_neg (by rw [hif]; decide),
    if_pos hif]

/-- C20 (amended). The dangling `else`. On `if c1 then if c2 then s1 else s2`, where
the parse of the statement (or block) `s1` stops at the `else` and no further
`else` follows `s2`, `IfStmt` returns an outer 'If语句' node with two
children, the condition `c1` and the inner 'If语句' node, and the inner node
has three children, the condition `c2`, `s1` and `s2`: the `else` belongs to
the inner `if`. -/
theorem else_binds_to_nearest_if (fuel : Nat) (p pa pb pc pd : Parser) (c1 c2 s1 s2 : ASTNode)
    (hif : p.currentToken.type = .IF) (hc1 : Cond fuel (advance p) = .ok c1 pa)
    (hthen : pa.currentToken.type = .THEN) (hif2 : (advance pa).currentToken.type = .IF)
    (hc2 : Cond fuel (advance (advance pa)) = .ok c2 pb)
    (hthen2 : pb.currentToken.type = .THEN)
    (hs1 : (if (advance pb).currentToken.type = .BEGIN then Block fuel else Stmt fuel) (advance pb)
      = .ok s1 pc)
    (helse : pc.currentToken.type = .ELSE)
    (hs2 : (if (advance pc).currentToken.type = .BEGIN then Block fuel else Stmt fuel) (advance pc)
      = .ok s2 pd)
    (hend : pd.currentToken.type ≠ .ELSE) :
    IfStmt (fuel + 3) p = .ok (.mk "If语句" [c1, .mk "If语句" [c2, s1, s2]]) pd := by
  have hinner : IfStmt (fuel + 1) (advance pa) = .ok (.mk "If语句" [c2, s1, s2]) pd :=
    IfStmt_else fuel (advance pa) pb pc pd c2 s1 s2 hif2 hc2 hthen2 hs1 helse hs2
  have hstmt : Stmt (fuel + 2) (advance pa) = .ok (.mk "If语句" [c2, s1, s2]) pd := by
    rw [Stmt_if _ _ hif2]; exact hinner
  have hc1' : Cond (fuel + 2) (advance p) = .ok c1 pa := by
    rw [refines_le Cond (fun f => (refines_cond f).1) fuel (fuel + 2) (by omega) _
      (by rw [hc1]; simp), hc1]
  exact IfStmt_no_else (fuel + 2) p pa pd c1 _ hif hc1' hthen
    (by rw [if_neg (by rw [hif2]; decide)]; exact hstmt) hend

theorem else_binds_to_nearest_if_witness :
    IfStmt 9 (Parser.new (Lexer.new "if a<1 then if b<2 then x:=1 else y:=2 end".toList))
      = .ok (.mk "If语句"
          [.mk "条件表达式" [.mk "变量: a" [], .mk "关系符: <" [], .mk "数字: 1" []],
           .mk "If语句"
            [.mk "条件表达式" [.mk "变量: b" [], .mk "关系符: <" [], .mk "数字: 2" []],
             .mk "赋值语句" [.mk "左值: x" [], .mk "数字: 1" []],
             .mk "赋值语句" [.mk "左值: y" [], .mk "数字: 2" []]]])
          (advanceN 17
            (Parser.new (Lexer.new "if a<1 then if b<2 then x:=1 else y:=2 end".toList))) :=
  else_binds_to_nearest_if 6
    (Parser.new (Lexer.new "if a<1 then if b<2 then x:=1 else y:=2 end".toList))
    (advanceN 4 (Parser.new (Lexer.new "if a<1 then if b<2 then x:=1 else y:=2 end".toList)))
    (advanceN 9 (Parser.new (Lexer.new "if a<1 then if b<2 then x:=1 else y:=2 end".toList)))
    (advanceN 13 (Parser.new (Lexer.new "if a<1 then if b<2 then x:=1 else y:=2 end".toList)))
    (advanceN 17 (Parser.new (Lexer.new "if a<1 then if b<2 then x:=1 else y:=2 end".toList)))
    _ _ _ _ (by decide) (by decide) (by decide) (by decide) (by decide) (by decide) (by decide)
    (by decide) (by decide) (by decide)

/-- The statement `if c<3 then break` is parsed on its own, yet on
`if a<1 then if b<2 then if c<3 then break else break` the 'If语句' node of
the condition `b<2` has two children, not three: the `else` belongs to the
innermost `if`. -/
theorem else_three_children_counterexample :
    Stmt 6 (Parser.new (Lexer.new "if c<3 then break".toList))
      = .ok (.mk "If语句"
          [.mk "条件表达式" [.mk "变量: c" [], .mk "关系符: <" [], .mk "数字: 3" []],
           .mk "Break语句" []])
          (advanceN 6 (Parser.new (Lexer.new "if c<3 then break".toList))) ∧
    Stmt 6 (Parser.new (Lexer.new "break".toList))
      = .ok (.mk "Break语句" []) (advanceN 1 (Parser.new (Lexer.new "break".toList))) ∧
    IfStmt 9
        (Parser.new (Lexer.new "if a<1 then if b<2 then if c<3 then break else break".toList))
      = .ok (.mk "If语句"
          [.mk "条件表达式" [.mk "变量: a" [], .mk "关系符: <" [], .mk "数字: 1" []],
           .mk "If语句"
            [.mk "条件表达式" [.mk "变量: b" [], .mk "关系符: <" [], .mk "数字: 2" []],
             .mk "If语句"
              [.mk "条件表达式" [.mk "变量: c" [], .mk "关系符: <" [], .mk "数字: 3" []],
               .mk "Break语句" [],
               .mk "Break语句" []]]])
          (advanceN 18 (Parser.new
            (Lexer.new "if a<1 then if b<2 then if c<3 then break else break".toList))) :=
  ⟨by decide, by decide, by decide⟩

theorem advance_rest_le (p : Parser) :
    (advance p).lexer.rest.length ≤ p.lexer.rest.length :=
  getNextToken_rest_le p.lexer

theorem advance_eof_of_rest_eq (p : Parser)
    (h : (advance p).lexer.rest.length = p.lexer.rest.length) :
    (advance p).currentToken.type = .END_OF_FILE := by
  by_contra hne
  have hlt := rest_lt_of_not_eof p.lexer hne
  have hle : (skipWhitespace p.lexer).rest.length ≤ p.lexer.rest.length := by
    rw [skipWhitespace_rest]; exact dropWhile_length_le _ _
  have : (advance p).lexer.rest.length < p.lexer.rest.length := Nat.lt_of_lt_of_le hlt hle
  omega

theorem advanceN_succ_right (k : Nat) (p : Parser) :
    advanceN (k + 1) p = advance (advanceN k p) := by
  rw [advanceN_add]; rfl

theorem advanceN_rest_mono (p : Parser) (a b : Nat) (h : a ≤ b) :
    (advanceN b p).lexer.rest.length ≤ (advanceN a p).lexer.rest.length := by
  induction b with
  | zero =>
    obtain rfl : a = 0 := by omega
    exact Nat.le_refl _
  | succ b ih =>
    by_cases hab : a = b + 1
    · subst hab; exact Nat.le_refl _
    · have := ih (by omega)
      rw [advanceN_succ_right]
      exact Nat.le_trans (advance_rest_le _) this

theorem advanceN_eof_of_eq (p : Parser) (a b : Nat) (hab : a < b)
    (h : advanceN (a + 1) p = advanceN (b + 1) p) :
    (advanceN b p).currentToken.type = .END_OF_FILE := by
  have hr : (advanceN (a + 1) p).lexer.rest.length = (advanceN (b + 1) p).lexer.rest.length := by
    rw [h]
  have h1 := advanceN_rest_mono p (a + 1) b (by omega)
  have h2 := advanceN_rest_mono p b (b + 1) (by omega)
  have hb1 : (advanceN (b + 1) p).currentToken.type = .END_OF_FILE := by
    rw [advanceN_succ_right]
    apply advance_eof_of_rest_eq
    rw [← advanceN_succ_right]
    omega
  by_cases hba : b = a + 1
  · subst hba
    rw [h]; exact hb1
  · obtain ⟨c, rfl⟩ : ∃ c, b = c + 1 := ⟨b - 1, by omega⟩
    have h3 := advanceN_rest_mono p (a + 1) c (by omega)
    have h4 := advanceN_rest_mono p c (c + 1) (by omega)
    rw [advanceN_succ_right]
    apply advance_eof_of_rest_eq
    rw [← advanceN_succ_right]
    omega

/-- The number of consumed tokens is determined by the state that is reached
when the last consumed token is not the end-of-file token. -/
theorem advanceN_succ_inj (p : Parser) (a b : Nat) (h : advanceN (a + 1) p = advanceN (b + 1) p)
    (ha : (advanceN a p).currentToken.type ≠ .END_OF_FILE)
    (hb : (advanceN b p).currentToken.type ≠ .END_OF_FILE) : a = b := by
  rcases Nat.lt_trichotomy a b with hlt | heq | hgt
  · exact absurd (advanceN_eof_of_eq p a b hlt h) hb
  · exact heq
  · exact absurd (advanceN_eof_of_eq p b a hgt h.symm) ha

theorem StmtListLoop_stop (f : Nat) (l : List ASTNode) (p : Parser)
    (h : p.currentToken.type ≠ .SEMICOLON) :
    StmtListLoop (f + 1) l p = .ok (.mk "语句列表" l) p := by
  rw [StmtListLoop_succ, bind_ok _ _ _ _ _ (lookahead_apply p), if_neg h]
  rfl

theorem StmtListLoop_trail (f : Nat) (l : List ASTNode) (p : Parser)
    (h : p.currentToken.type = .SEMICOLON) (h2 : (advance p).currentToken.type = .END) :
    StmtListLoop (f + 1) l p = .ok (.mk "语句列表" l) (advance p) := by
  rw [StmtListLoop_succ, bind_ok _ _ _ _ _ (lookahead_apply p), if_pos h,
    bind_ok _ _ _ _ _ (eat_ok _ _ h), bind_ok _ _ _ _ _ (lookahead_apply (advance p)),
    if_pos h2]
  rfl

theorem StmtListLoop_step (f : Nat) (l : List ASTNode) (p : Parser)
    (h : p.currentToken.type = .SEMICOLON) (h2 : (advance p).currentToken.type ≠ .END) :
    StmtListLoop (f + 1) l p
      = (Stmt f >>= fun stmt => StmtListLoop f (l ++ [stmt])) (advance p) := by
  rw [StmtListLoop_succ, bind_ok _ _ _ _ _ (lookahead_apply p), if_pos h,
    bind_ok _ _ _ _ _ (eat_ok _ _ h), bind_ok _ _ _ _ _ (lookahead_apply (advance p)),
    if_neg h2]

/-- The loop of `StmtList` on a list that ends before `end`, and on the same
list followed by `;` and `end`. -/
theorem StmtListLoop_trailing (f : Nat) :
    ∀ (l : List ASTNode) (p pA : Parser) (list : ASTNode),
      StmtListLoop f l p = .ok list pA → pA.currentToken.type = .END →
      ∃ j, pA = advanceN j p ∧
        ((1 ≤ j → (advanceN (j - 1) p).currentToken.type ≠ .SEMICOLON) →
          ∀ q, (∀ i, i < j →
              SameToken (advanceN i q).currentToken (advanceN i p).currentToken) →
            (advanceN j q).currentToken.type = .SEMICOLON →
            (advanceN (j + 1) q).currentToken.type = .END →
            StmtListLoop f l q = .ok list (advanceN (j + 1) q)) := by
  induction f with
  | zero =>
    intro l p pA list h
    rw [StmtListLoop_zero] at h
    cases h
  | succ f ih =>
    intro l p pA list h hA
    by_cases hs : p.currentToken.type = .SEMICOLON
    · by_cases he : (advance p).currentToken.type = .END
      · rw [StmtListLoop_trail f l p hs he] at h
        cases h
        refine ⟨1, rfl, fun hlast => ?_⟩
        exact absurd hs (hlast (Nat.le_refl 1))
      · rw [StmtListLoop_step f l p hs he] at h
        obtain ⟨s, p2, h1, h2⟩ := bind_eq_ok _ _ _ _ _ h
        obtain ⟨k1, hp2, _, hq1⟩ := (uniform_stmt f).2.2.2.1 _ s p2 h1
        obtain ⟨j2, hpA, hrec⟩ := ih (l ++ [s]) p2 pA list h2 hA
        have hp2' : p2 = advanceN (k1 + 1) p := hp2
        have hpA' : pA = advanceN (k1 + 1 + j2) p := by
          rw [hpA, hp2', ← advanceN_add]
        refine ⟨k1 + 1 + j2, hpA', fun hlast q hsim hsemi hend => ?_⟩
        have hpos : 1 ≤ k1 + j2 := by
          by_contra hc
          obtain ⟨rfl, rfl⟩ : k1 = 0 ∧ j2 = 0 := by omega
          rw [hpA'] at hA
          exact he hA
        have hq0 : q.currentToken.type = .SEMICOLON := by
          rw [← hs]; exact (hsim 0 (by omega)).1
        have hq1e : (advance q).currentToken.type ≠ .END := by
          have : (advance q).currentToken.type = (advance p).currentToken.type :=
            (hsim 1 (by omega)).1
          rw [this]; exact he
        rw [StmtListLoop_step f l q hq0 hq1e]
        have hsimS : Similar BothStop k1 (advance p) (advance q) := by
          refine ⟨fun i hi => hsim (i + 1) (by omega), ?_⟩
          by_cases hj2 : j2 = 0
          · right
            subst hj2
            refine ⟨Or.inr hsemi, Or.inl ?_⟩
            rw [hpA'] at hA
            exact hA
          · left
            exact hsim (k1 + 1) (by omega)
        rw [bind_ok _ _ _ _ _ (hq1 (advance q) hsimS)]
        have hq2 : advanceN k1 (advance q) = advanceN (k1 + 1) q := rfl
        rw [hq2]
        have := hrec
          (by
            intro hj
            rw [hp2', ← advanceN_add]
            have := hlast (by omega)
            rw [show k1 + 1 + j2 - 1 = k1 + 1 + (j2 - 1) by omega] at this
            exact this)
          (advanceN (k1 + 1) q)
          (by
            intro i hi
            rw [hp2', ← advanceN_add, ← advanceN_add]
            exact hsim (k1 + 1 + i) (by omega))
          (by rw [← advanceN_add]; exact hsemi)
          (by rw [← advanceN_add]; exact hend)
        rw [this, ← advanceN_add]
        rfl
    · rw [StmtListLoop_stop f l p hs] at h
      cases h
      refine ⟨0, rfl, fun _ q _ hsemi hend => ?_⟩
      exact StmtListLoop_trail f l q hsemi hend

/-- The method `StmtList` on a list that ends before `end`, and on the same list
followed by `;` and `end`. -/
theorem StmtList_trailing (f : Nat) (p pA : Parser) (list : ASTNode)
    (h : StmtList f p = .ok list pA) (hA : pA.currentToken.type = .END) :
    ∃ j, pA = advanceN j p ∧
      (1 ≤ j → (advanceN (j - 1) p).currentToken.type ≠ .SEMICOLON →
        ∀ q, (∀ i, i < j →
            SameToken (advanceN i q).currentToken (advanceN i p).currentToken) →
          (advanceN j q).currentToken.type = .SEMICOLON →
          (advanceN (j + 1) q).currentToken.type = .END →
          StmtList f q = .ok list (advanceN (j + 1) q)) := by
  cases f with
  | zero => rw [StmtList_zero] at h; cases h
  | succ f =>
    rw [StmtList_succ, bind_ok _ _ _ _ _ (lookahead_apply p)] at h
    by_cases he : p.currentToken.type = .END
    · rw [if_pos he, pure_apply] at h
      cases h
      exact ⟨0, rfl, fun h0 => absurd h0 (by omega)⟩
    · rw [if_neg he] at h
      obtain ⟨s, p2, h1, h2⟩ := bind_eq_ok _ _ _ _ _ h
      obtain ⟨k1, hp2, _, hq1⟩ := (uniform_stmt f).2.2.2.1 _ s p2 h1
      obtain ⟨j2, hpA, hrec⟩ := StmtListLoop_trailing f [s] p2 pA list h2 hA
      have hpA' : pA = advanceN (k1 + j2) p := by
        rw [hpA, hp2, ← advanceN_add]
      refine ⟨k1 + j2, hpA', fun hpos hlast q hsim hsemi hend => ?_⟩
      have hq0 : q.currentToken.type ≠ .END := by
        have : q.currentToken.type = p.currentToken.type := (hsim 0 (by omega)).1
        rw [this]; exact he
      rw [StmtList_succ, bind_ok _ _ _ _ _ (lookahead_apply q), if_neg hq0]
      have hsimS : Similar BothStop k1 p q := by
        refine ⟨fun i hi => hsim i (by omega), ?_⟩
        by_cases hj2 : j2 = 0
        · right
          subst hj2
          refine ⟨Or.inr hsemi, Or.inl ?_⟩
          rw [hpA'] at hA
          exact hA
        · left
          exact hsim k1 (by omega)
      rw [bind_ok _ _ _ _ _ (hq1 q hsimS)]
      have := hrec
        (by
          intro hj
          rw [hp2, ← advanceN_add]
          rw [show k1 + j2 - 1 = k1 + (j2 - 1) by omega] at hlast
          exact hlast)
        (advanceN k1 q)
        (by
          intro i hi
          rw [hp2, ← advanceN_add, ← advanceN_add]
          exact hsim (k1 + i) (by omega))
        (by rw [← advanceN_add]; exact hsemi)
        (by rw [← advanceN_add]; exact hend)
      rw [this, ← advanceN_add]
      rfl

/-- The decomposition of a successful run of `Block`. -/
theorem Block_ok (fuel : Nat) (p p1 : Parser) (t : ASTNode) (h : Block fuel p = .ok t p1) :
    ∃ f list pA, fuel = f + 1 ∧ p.currentToken.type = .BEGIN ∧
      StmtList f (advance p) = .ok list pA ∧ pA.currentToken.type = .END ∧
      p1 = advance pA ∧ t = .mk "块" [list] := by
  cases fuel with
  | zero => rw [Block_zero] at h; cases h
  | succ f =>
    rw [Block_succ] at h
    obtain ⟨u, p2, h1, h2⟩ := bind_eq_ok _ _ _ _ _ h
    have hb : p.currentToken.type = .BEGIN := by
      by_contra hne
      rw [eat_error _ _ hne] at h1
      cases h1
    rw [eat_ok _ _ hb] at h1
    cases h1
    obtain ⟨list, pA, h3, h4⟩ := bind_eq_ok _ _ _ _ _ h2
    obtain ⟨u2, p3, h5, h6⟩ := bind_eq_ok _ _ _ _ _ h4
    have he : pA.currentToken.type = .END := by
      by_contra hne
      rw [eat_error _ _ hne] at h5
      cases h5
    rw [eat_ok _ _ he] at h5
    cases h5
    rw [pure_apply] at h6
    cases h6
    exact ⟨f, list, pA, rfl, hb, h3, he, rfl, rfl⟩

theorem Block_of_parts (f : Nat) (p pA : Parser) (list : ASTNode)
    (hb : p.currentToken.type = .BEGIN) (hl : StmtList f (advance p) = .ok list pA)
    (he : pA.currentToken.type = .END) :
    Block (f + 1) p = .ok (.mk "块" [list]) (advance pA) := by
  rw [Block_succ, bind_ok _ _ _ _ _ (eat_ok _ _ hb), bind_ok _ _ _ _ _ hl,
    bind_ok _ _ _ _ _ (eat_ok _ _ he)]
  rfl

/-- C12. Trailing semicolon tolerance. Let `Block` succeed with the tree `T` on the
tokens `begin`, `L`, `end`, where `L` is a non-empty list of `n` tokens that
does not itself end in a semicolon (a list of statements separated by
semicolons). On the tokens `begin`, `L`, `;`, `end`, with the same kinds and
texts, `Block` succeeds with the same tree `T`, and has consumed the `;` and
the `end`. On "begin a:=1; end" the statement list has exactly one child,
the assignment. -/
theorem trailing_semicolon_is_tolerated :
    (∀ (fuel n : Nat) (p q : Parser) (T : ASTNode),
      Block fuel p = .ok T (advanceN (n + 2) p) →
      (advanceN (n + 1) p).currentToken.type = .END →
      1 ≤ n → (advanceN n p).currentToken.type ≠ .SEMICOLON →
      (∀ i, i ≤ n → SameToken (advanceN i q).currentToken (advanceN i p).currentToken) →
      (advanceN (n + 1) q).currentToken.type = .SEMICOLON →
      (advanceN (n + 2) q).currentToken.type = .END →
      Block fuel q = .ok T (advanceN (n + 3) q)) ∧
    (∀ fuel, 6 ≤ fuel →
      Block fuel (Parser.new (Lexer.new "begin a:=1; end".toList))
        = .ok (.mk "块" [.mk "语句列表" [.mk "赋值语句" [.mk "左值: a" [], .mk "数字: 1" []]]])
            (advanceN 6 (Parser.new (Lexer.new "begin a:=1; end".toList)))) := by
  constructor
  · intro fuel n p q T hb hend hn hlast hsim hsemi hqend
    obtain ⟨f, list, pA, rfl, hbeg, hl, hA, hp1, rfl⟩ := Block_ok fuel p _ T hb
    obtain ⟨j, hpA, hrec⟩ := StmtList_trailing f (advance p) pA list hl hA
    have hpA' : pA = advanceN (j + 1) p := hpA
    have hj : j + 1 = n + 1 := by
      apply advanceN_succ_inj p
      · rw [advanceN_succ_right (j + 1) p, ← hpA', ← hp1]
      · rw [← hpA', hA]; decide
      · rw [hend]; decide
    obtain rfl : j = n := by omega
    have hq0 : q.currentToken.type = .BEGIN := by
      rw [← hbeg]; exact (hsim 0 (by omega)).1
    have hlq := hrec hn (by
        show (advanceN (j - 1 + 1) p).currentToken.type ≠ _
        rw [show j - 1 + 1 = j by omega]; exact hlast)
      (advance q) (fun i hi => hsim (i + 1) (by omega)) hsemi hqend
    have := Block_of_parts f q _ list hq0 hlq hqend
    rw [this]
    show Outcome.ok _ (advance (advanceN (j + 2) q)) = _
    rw [← advanceN_succ_right]
  · intro fuel hf
    have h6 : Block 6 (Parser.new (Lexer.new "begin a:=1; end".toList)) = _ :=
      (by decide : Block 6 (Parser.new (Lexer.new "begin a:=1; end".toList))
        = .ok (.mk "块" [.mk "语句列表" [.mk "赋值语句" [.mk "左值: a" [], .mk "数字: 1" []]]])
            (advanceN 6 (Parser.new (Lexer.new "begin a:=1; end".toList))))
    rw [refines_le Block (fun f => (refines_stmt f).1) 6 fuel hf _ (by rw [h6]; simp), h6]

theorem trailing_semicolon_is_tolerated_witness :
    Block 8 (Parser.new (Lexer.new "begin a:=1;\nb:=2 ;\nend".toList))
      = .ok (.mk "块" [.mk "语句列表"
          [.mk "赋值语句" [.mk "左值: a" [], .mk "数字: 1" []],
           .mk "赋值语句" [.mk "左值: b" [], .mk "数字: 2" []]]])
          (advanceN 10 (Parser.new (Lexer.new "begin a:=1;\nb:=2 ;\nend".toList))) :=
  trailing_semicolon_is_tolerated.1 8 7
    (Parser.new (Lexer.new "begin a:=1; b:=2 end".toList))
    (Parser.new (Lexer.new "begin a:=1;\nb:=2 ;\nend".toList)) _
    (by decide) (by decide) (by decide) (by decide) (by decide) (by decide) (by decide)

end Parser

namespace Lexer

theorem trivia_of_spaces (l : List Char) (h : ∀ c ∈ l, isspace c = true) : Trivia l := by
  induction l with
  | nil => exact Trivia.nil
  | cons c l ih =>
    exact Trivia.space c l (h c (by simp)) (ih (fun x hx => h x (by simp [hx])))

theorem trivia_takeWhile_space (l : List Char) : Trivia (l.takeWhile isspace) :=
  trivia_of_spaces _ (fun _ hc => List.mem_takeWhile_imp hc)

theorem scanToken_ne_eof (ch : Char) (cs : List Char) (lx : Lexer) (hr : lx.rest = ch :: cs)
    (hs : isspace ch = false) : (scanToken ch cs lx).1.type ≠ .END_OF_FILE := by
  intro he
  have hspec := scanToken_spec ch cs lx hr hs
  obtain ⟨hv, hrest⟩ := hspec.eof he
  have := hspec.rest_eq
  rw [hv, hrest, hr] at this
  simp at this

/-- The text a call of `getNextToken` scans: whitespace and complete comments,
followed by the end of the text, by a comment that is never closed, or by the
first character of the token. -/
theorem getNextToken_shape (lx : Lexer) :
    ∃ w, Trivia w ∧
      ((lx.rest = w ∧ (getNextToken lx).1.type = .END_OF_FILE) ∨
       (∃ body, lx.rest = w ++ '\x7b' :: body ∧ '\x7d' ∉ body ∧
          (getNextToken lx).1.type = .END_OF_FILE) ∨
       (∃ ch cs, lx.rest = w ++ ch :: cs ∧ isspace ch = false ∧ ch ≠ '\x7b' ∧
          (getNextToken lx).1.type ≠ .END_OF_FILE)) := by
  generalize hn : lx.rest.length = n
  induction n using Nat.strong_induction_on generalizing lx with
  | _ n ih =>
    have hsplit : lx.rest = lx.rest.takeWhile isspace ++ lx.rest.dropWhile isspace :=
      (List.takeWhile_append_dropWhile _ _).symm
    have hws := trivia_takeWhile_space lx.rest
    cases hr : lx.rest.dropWhile isspace with
    | nil =>
      refine ⟨_, hws, Or.inl ⟨?_, ?_⟩⟩
      · rw [hr, List.append_nil] at hsplit; exact hsplit
      · rw [getNextToken_eof lx (by rw [skipWhitespace_rest, hr])]
    | cons c rt =>
      have hsk : (skipWhitespace lx).rest = c :: rt := by rw [skipWhitespace_rest, hr]
      rw [hr] at hsplit
      by_cases hc : c = '\x7b'
      · subst hc
        have hb : ('\x7b' : Char) ≠ '\x7d' := by decide
        have hcr : (skipComment (skipWhitespace lx)).rest
            = (rt.dropWhile (fun c => c ≠ '\x7d')).drop 1 := by
          rw [skipComment_rest, hsk]
          simp only [List.dropWhile_cons, ne_eq, hb, not_false_eq_true, decide_True, if_true]
        cases hcl : rt.dropWhile (fun c => c ≠ '\x7d') with
        | nil =>
          refine ⟨_, hws, Or.inr (Or.inl ⟨rt, hsplit, ?_, ?_⟩)⟩
          · intro hm
            have := (List.dropWhile_eq_nil_iff.mp hcl) _ hm
            simp at this
          · rw [getNextToken_comment lx rt hsk,
              getNextToken_of_rest_nil _ (by rw [hcr, hcl]; rfl)]
        | cons b r2 =>
          have hbe : b = '\x7d' := by
            have := dropWhile_head_not _ _ _ _ hcl
            simpa using this
          subst hbe
          have hrt : rt = rt.takeWhile (fun c => c ≠ '\x7d') ++ '\x7d' :: r2 := by
            rw [← hcl]; exact (List.takeWhile_append_dropWhile _ _).symm
          have hbody : '\x7d' ∉ rt.takeWhile (fun c => c ≠ '\x7d') := by
            intro hm
            have := List.mem_takeWhile_imp hm
            simp at this
          have hlen : r2.length < n := by
            have h1 := congrArg List.length hsplit
            have h2 := congrArg List.length hrt
            simp only [List.length_append, List.length_cons] at h1 h2
            omega
          have hs2 : (skipComment (skipWhitespace lx)).rest = r2 := by
            rw [hcr, hcl]; rfl
          obtain ⟨w', hw', halt⟩ := ih r2.length hlen (skipComment (skipWhitespace lx))
            (by rw [hs2])
          rw [← getNextToken_comment lx rt hsk, hs2] at halt
          have hfull : ∀ tail, r2 = w' ++ tail →
              lx.rest = (lx.rest.takeWhile isspace ++
                ('\x7b' :: (rt.takeWhile (fun c => c ≠ '\x7d') ++ '\x7d' :: w'))) ++ tail := by
            intro tail ht
            rw [ht] at hrt
            conv_lhs => rw [hsplit, hrt]
            simp [List.append_assoc]
          refine ⟨_, hws.append (Trivia.comment _ w' hbody hw'), ?_⟩
          rcases halt with ⟨h1, h2⟩ | ⟨body, h1, h2, h3⟩ | ⟨ch, cs, h1, h2, h3, h4⟩
          · refine Or.inl ⟨?_, h2⟩
            have := hfull [] (by rw [h1, List.append_nil])
            rw [List.append_nil] at this
            exact this
          · exact Or.inr (Or.inl ⟨body, hfull _ h1, h2, h3⟩)
          · exact Or.inr (Or.inr ⟨ch, cs, hfull _ h1, h2, h3, h4⟩)
      · have hsp : isspace c = false := dropWhile_head_not _ _ _ _ hr
        refine ⟨_, hws, Or.inr (Or.inr ⟨c, rt, hsplit, hsp, hc, ?_⟩)⟩
        rw [getNextToken_token lx c rt hsk hc]
        exact scanToken_ne_eof c rt _ hsk hsp

theorem getNextToken_of_trivia (lx : Lexer) (w : List Char) (hw : Trivia w) (h : lx.rest = w) :
    (getNextToken lx).1.type = .END_OF_FILE ∧ (getNextToken lx).1.value = "" := by
  let E : Lexer := { source := [], pos := 0, line := 1, col := 1 }
  have hE : E.rest = [] := rfl
  obtain ⟨h1, h2, _⟩ := getNextToken_trivia hw [] lx E (by rw [h, List.append_nil]) hE
  rw [getNextToken_of_rest_nil E hE] at h1 h2
  exact ⟨h1, h2⟩

theorem trivia_after_brace (w : List Char) (hw : Trivia w) :
    Trivia ((w.dropWhile (fun c => c ≠ '\x7d')).drop 1) := by
  induction hw with
  | nil => exact Trivia.nil
  | space c w hc _ ih =>
    have : c ≠ '\x7d' := by
      intro e; subst e; revert hc; decide
    rw [List.dropWhile_cons_of_pos (by simpa using this)]
    exact ih
  | comment body w hb hw _ =>
    have h1 : ('\x7b' : Char) ≠ '\x7d' := by decide
    rw [List.dropWhile_cons_of_pos (by decide)]
    have := dropWhile_comment body w hb
    simp only [ne_eq] at this ⊢
    rw [this]
    exact hw

theorem keywordType_ne_dot (s : String) : keywordType s ≠ .DOT := by
  rcases keywordType_cases s with h | ⟨_, h⟩
  · simp only [keywordTable, List.mem_cons, Prod.mk.injEq, List.mem_singleton,
      List.not_mem_nil, or_false] at h
    rcases h with h | h | h | h | h | h | h | h | h | h | h | h | h <;>
      (rw [h.2]; decide)
  · rw [h]; decide

/-- A `.` is read as the same token whatever follows it. -/
theorem getNextToken_dot_append (lx1 lx2 : Lexer) (x : List Char)
    (h : lx2.rest = lx1.rest ++ x) (hd : (getNextToken lx1).1.type = .DOT) :
    (getNextToken lx2).1.type = .DOT ∧
    (getNextToken lx2).1.value = (getNextToken lx1).1.value ∧
    (getNextToken lx2).2.rest = (getNextToken lx1).2.rest ++ x := by
  obtain ⟨w, hw, halt⟩ := getNextToken_shape lx1
  rcases halt with ⟨_, h2⟩ | ⟨_, _, _, h2⟩ | ⟨ch, cs, hr, hsp, hc, _⟩
  · rw [hd] at h2; cases h2
  · rw [hd] at h2; cases h2
  · let A : Lexer := { source := ch :: cs, pos := 0, line := 1, col := 1 }
    let B : Lexer := { source := ch :: (cs ++ x), pos := 0, line := 1, col := 1 }
    have hA : A.rest = ch :: cs := rfl
    have hB : B.rest = ch :: (cs ++ x) := rfl
    have agA := getNextToken_trivia hw (ch :: cs) lx1 A hr hA
    have agB := getNextToken_trivia hw (ch :: (cs ++ x)) lx2 B
      (by rw [h, hr]; simp) hB
    have skA := skipWhitespace_of_head A ch cs hA hsp
    have skB := skipWhitespace_of_head B ch (cs ++ x) hB hsp
    have tA := getNextToken_token A ch cs skA hc
    have tB := getNextToken_token B ch (cs ++ x) skB hc
    have hdA : (scanToken ch cs (skipWhitespace A)).1.type = .DOT := by
      rw [← tA, ← agA.1]; exact hd
    have ha : ¬ isalpha ch = true := by
      intro ha
      rw [scanToken_alpha _ _ _ ha] at hdA
      exact keywordType_ne_dot _ hdA
    have hdg : ¬ isdigit ch = true := by
      intro hdg
      rw [scanToken_digit _ _ _ ha hdg] at hdA
      cases hdA
    rw [scanToken_operator _ _ _ ha hdg] at hdA
    obtain ⟨ty, text, hsh, heq⟩ := scanOperator_shape ch cs
    rw [heq] at hdA
    simp only at hdA
    subst hdA
    have hdot : ch = '.' ∧ text = ['.'] := by
      generalize cs.head? = n at hsh
      cases hsh
      exact ⟨rfl, rfl⟩
    obtain ⟨rfl, rfl⟩ := hdot
    have eA := scanOperator_of_shape '.' _ .DOT ['.'] (OpShape.dot cs.head?) cs rfl
    have eB := scanOperator_of_shape '.' _ .DOT ['.'] (OpShape.dot (cs ++ x).head?) (cs ++ x) rfl
    rw [scanToken_operator _ _ _ ha hdg, eA] at tA
    rw [scanToken_operator _ _ _ ha hdg, eB] at tB
    have rA : (getNextToken A).2.rest = cs := by
      rw [tA]
      show (afterOperator _ 0).rest = cs
      show ({ source := (skipWhitespace A).source, pos := (skipWhitespace A).pos + 1,
              line := (skipWhitespace A).line, col := (skipWhitespace A).col + 1 } : Lexer).rest
            = cs
      rw [rest_advance, skA]; rfl
    have rB : (getNextToken B).2.rest = cs ++ x := by
      rw [tB]
      show (afterOperator _ 0).rest = cs ++ x
      show ({ source := (skipWhitespace B).source, pos := (skipWhitespace B).pos + 1,
              line := (skipWhitespace B).line, col := (skipWhitespace B).col + 1 } : Lexer).rest
            = cs ++ x
      rw [rest_advance, skB]; rfl
    refine ⟨?_, ?_, ?_⟩
    · rw [agB.1, tB]
    · rw [agB.2.1, agA.2.1, tA, tB]
    · rw [agB.2.2, agA.2.2, rA, rB]

/-- At the end of the tokens, appended whitespace and complete comments leave
the end-of-file token. -/
theorem getNextToken_eof_append (lx1 lx2 : Lexer) (w : List Char) (hw : Trivia w)
    (h : lx2.rest = lx1.rest ++ w) (he : (getNextToken lx1).1.type = .END_OF_FILE) :
    (getNextToken lx2).1.type = .END_OF_FILE ∧ (getNextToken lx2).1.value = "" := by
  obtain ⟨w0, hw0, halt⟩ := getNextToken_shape lx1
  rcases halt with ⟨h1, _⟩ | ⟨body, h1, hb, _⟩ | ⟨_, _, _, _, _, h4⟩
  · exact getNextToken_of_trivia lx2 _ (hw0.append hw) (by rw [h, h1])
  · let C : Lexer := { source := '\x7b' :: (body ++ w), pos := 0, line := 1, col := 1 }
    have hC : C.rest = '\x7b' :: (body ++ w) := rfl
    have ag := getNextToken_trivia hw0 ('\x7b' :: (body ++ w)) lx2 C
      (by rw [h, h1]; simp) hC
    have skC := skipWhitespace_of_head C '\x7b' (body ++ w) hC (by decide)
    have hcr : (skipComment (skipWhitespace C)).rest
        = (w.dropWhile (fun c => c ≠ '\x7d')).drop 1 := by
      have hb1 : ('\x7b' : Char) ≠ '\x7d' := by decide
      rw [skipComment_rest, skC]
      simp only [List.dropWhile_cons, ne_eq, hb1, not_false_eq_true, decide_True, if_true]
      have := dropWhile_append_of_eq_nil (fun c => decide (c ≠ '\x7d')) body w
        (dropWhile_eq_nil_of_not_mem body hb)
      simp only [ne_eq] at this
      rw [this]
    have hC2 := getNextToken_of_trivia _ _ (trivia_after_brace w hw) hcr
    rw [← getNextToken_comment C (body ++ w) skC] at hC2
    exact ⟨by rw [ag.1]; exact hC2.1, by rw [ag.2.1]; exact hC2.2⟩
  · exact absurd he h4

theorem after_rest_suffix (n : Nat) (lx : Lexer) : ∃ a, lx.rest = a ++ (after n lx).rest := by
  induction n generalizing lx with
  | zero => exact ⟨[], rfl⟩
  | succ n ih =>
    obtain ⟨sk, hsk⟩ := getNextToken_spec lx
    obtain ⟨a, ha⟩ := ih (getNextToken lx).2
    refine ⟨sk ++ ((getNextToken lx).1.value.data ++ a), ?_⟩
    rw [hsk.rest_eq, ha]
    simp [after, List.append_assoc]

theorem after_rest_lt (n : Nat) (lx : Lexer) (h : (nthToken n lx).type ≠ .END_OF_FILE) :
    (after (n + 1) lx).rest.length + (n + 1) ≤ lx.rest.length := by
  have hsk : ∀ s : Lexer, (skipWhitespace s).rest.length ≤ s.rest.length := by
    intro s; rw [skipWhitespace_rest]; exact dropWhile_length_le _ _
  induction n with
  | zero =>
    have := rest_lt_of_not_eof lx h
    have := hsk lx
    show (getNextToken lx).2.rest.length + 1 ≤ _
    omega
  | succ n ih =>
    have hn : (nthToken n lx).type ≠ .END_OF_FILE :=
      fun e => h (nthToken_eof_succ n lx e)
    have h1 := ih hn
    have h2 := rest_lt_of_not_eof (after (n + 1) lx) h
    have h3 := hsk (after (n + 1) lx)
    rw [after_succ (n + 1) lx]
    omega

theorem new_append (src x : List Char) (h : 3 ≤ src.length) :
    (Lexer.new (src ++ x)).rest = (Lexer.new src).rest ++ x := by
  rw [new_rest, new_rest]
  have ht : (src ++ x).take 3 = src.take 3 := List.take_append_of_le_length h
  by_cases hb : src.take 3 = bom
  · rw [new_of_bom src hb, new_of_bom (src ++ x) (by rw [ht]; exact hb)]
    exact List.drop_append_of_le_length h
  · rw [new_of_not_bom src hb, new_of_not_bom (src ++ x) (by rw [ht]; exact hb)]

/-- The tokens up to a `.` are not changed by text appended after it. -/
theorem tokens_append (lx1 lx2 : Lexer) (x : List Char) (h : lx2.rest = lx1.rest ++ x)
    (K : Nat) (hdot : (nthToken K lx1).type = .DOT) :
    (∀ i, i ≤ K → (nthToken i lx2).type = (nthToken i lx1).type ∧
      (nthToken i lx2).value = (nthToken i lx1).value) ∧
    (after (K + 1) lx2).rest = (after (K + 1) lx1).rest ++ x := by
  have hne : (after K lx1).rest ≠ [] := by
    intro e
    have := getNextToken_of_rest_nil _ e
    unfold nthToken at hdot
    rw [this] at hdot
    cases hdot
  have hk : K = 0 ∨ (nthToken (K - 1) lx1).type ≠ .END_OF_FILE := by
    by_cases hK : K = 0
    · exact Or.inl hK
    · right
      intro e
      have := nthToken_eof_mono (K - 1) K lx1 (by omega) e
      rw [hdot] at this
      cases this
  obtain ⟨a, ha⟩ := after_rest_suffix K lx1
  have hhead : (after K lx1).rest.head? = ((after K lx1).rest ++ x).head? := by
    cases hr : (after K lx1).rest with
    | nil => exact absurd hr hne
    | cons c t => rfl
  have hst := tokens_stable (after K lx1).rest ((after K lx1).rest ++ x) (Or.inl hhead)
    lx1 lx2 K hk rfl a ha (by rw [h, ← List.append_assoc, ← ha]) K (Nat.le_refl K)
  obtain ⟨⟨r, hr1, hr2⟩, htok⟩ := hst
  have hrnil : r = [] := by
    have := congrArg List.length hr1
    rw [List.length_append] at this
    exact List.length_eq_zero.mp (by omega)
  subst hrnil
  rw [List.nil_append] at hr2
  have hd := getNextToken_dot_append (after K lx1) (after K lx2) x hr2 hdot
  refine ⟨fun i hi => ?_, ?_⟩
  · by_cases hiK : i = K
    · subst hiK
      exact ⟨by rw [hdot]; exact hd.1, hd.2.1⟩
    · obtain ⟨h1, h2⟩ := htok i (by omega)
      exact ⟨h1.symm, h2.symm⟩
  · rw [after_succ, after_succ]
    exact hd.2.2

theorem new_source_length_le (src : List Char) : (Lexer.new src).source.length ≤ src.length := by
  by_cases hb : src.take 3 = bom
  · rw [new_of_bom src hb]; simp
  · rw [new_of_not_bom src hb]

/-- A text whose first token, read by a fresh tokenizer, is not the end-of-file
token yields a token wherever it is read. -/
theorem first_token_of_new (x : List Char)
    (h : (getNextToken (Lexer.new x)).1.type ≠ .END_OF_FILE) (lx : Lexer) (hx : lx.rest = x) :
    (getNextToken lx).1.type ≠ .END_OF_FILE := by
  by_cases hb : x.take 3 = bom
  · have hsplit : x = bom ++ x.drop 3 := by
      rw [← hb]; exact (List.take_append_drop 3 x).symm
    have hr : lx.rest = Char.ofNat 0xEF :: ([Char.ofNat 0xBB, Char.ofNat 0xBF] ++ x.drop 3) := by
      rw [hx]; exact hsplit
    have hsp : isspace (Char.ofNat 0xEF) = false := by decide
    have hsk := skipWhitespace_of_head lx _ _ hr hsp
    rw [getNextToken_token lx _ _ hsk (by decide)]
    exact scanToken_ne_eof _ _ _ hsk hsp
  · have hn : (Lexer.new x).rest = x := by
      rw [new_rest, new_of_not_bom x hb]
    rw [(getNextToken_agree_of_rest lx (Lexer.new x) (by rw [hx, hn])).1]
    exact h

/-- At a boundary that is the end of the text, only whitespace and complete
comments follow the last token. -/
theorem trivia_of_boundary (src : List Char) (hb : IsBoundary src src.length) (K : Nat)
    (hK : (nthToken K (Lexer.new src)).type ≠ .END_OF_FILE)
    (hK1 : (nthToken (K + 1) (Lexer.new src)).type = .END_OF_FILE) :
    Trivia (after (K + 1) (Lexer.new src)).rest := by
  obtain ⟨k, w, hk, hw, hpre, hlen⟩ := hb
  have hinv := inv_after k _ (inv_new src)
  have hsrc := after_source k (Lexer.new src)
  have hrl := rest_length (after k (Lexer.new src))
  have hle := new_source_length_le src
  have hp := hinv.pos_le
  unfold bomLength at hlen
  rw [hsrc] at hrl hp
  have hwl : w.length = (after k (Lexer.new src)).rest.length := by omega
  have hwe : w = (after k (Lexer.new src)).rest := hpre.eq_of_length hwl
  have heof : (nthToken k (Lexer.new src)).type = .END_OF_FILE :=
    (getNextToken_of_trivia _ w hw hwe.symm).1
  have hkK : k = K + 1 := by
    have h1 : K < k := by
      by_contra hc
      exact hK (nthToken_eof_mono k K _ (by omega) heof)
    have h2 : k ≤ K + 1 := by
      rcases hk with hk | hk
      · omega
      · by_contra hc
        exact hk (nthToken_eof_mono (K + 1) (k - 1) _ (by omega) hK1)
    omega
  rw [← hkK, ← hwe]
  exact hw

end Lexer

namespace Parser

open Lexer

/-- The decomposition of a successful run of `Program`. -/
theorem Program_ok (f : Nat) (p p1 : Parser) (t : ASTNode) (h : Program f p = .ok t p1) :
    ∃ block pB, p.currentToken.type = .PROGRAM ∧ (advance p).currentToken.type = .ID ∧
      (advance (advance p)).currentToken.type = .SEMICOLON ∧
      Block f (advance (advance (advance p))) = .ok block pB ∧
      pB.currentToken.type = .DOT ∧ p1 = advance pB ∧
      t = .mk "程序" [.mk ("关键字: " ++ p.currentToken.value) [],
        .mk ("程序名: " ++ (advance p).currentToken.value) [], block] := by
  unfold Program at h
  rw [bind_ok _ _ _ _ _ (lookahead_apply p)] at h
  by_cases h1 : p.currentToken.type = .PROGRAM
  swap
  · rw [if_pos h1, error_apply] at h; cases h
  rw [if_neg (not_not.mpr h1), bind_ok _ _ _ _ _ (eat_ok _ _ h1),
    bind_ok _ _ _ _ _ (lookahead_apply (advance p))] at h
  by_cases h2 : (advance p).currentToken.type = .ID
  swap
  · rw [if_pos h2, error_apply] at h; cases h
  rw [if_neg (not_not.mpr h2), bind_ok _ _ _ _ _ (eat_ok _ _ h2),
    bind_ok _ _ _ _ _ (lookahead_apply (advance (advance p)))] at h
  by_cases h3 : (advance (advance p)).currentToken.type = .SEMICOLON
  swap
  · rw [if_pos h3, error_apply] at h; cases h
  rw [if_neg (not_not.mpr h3), bind_ok _ _ _ _ _ (eat_ok _ _ h3)] at h
  obtain ⟨block, pB, h4, h5⟩ := bind_eq_ok _ _ _ _ _ h
  rw [bind_ok _ _ _ _ _ (lookahead_apply pB)] at h5
  by_cases h6 : pB.currentToken.type = .DOT
  swap
  · rw [if_pos h6, error_apply] at h5; cases h5
  rw [if_neg (not_not.mpr h6), bind_ok _ _ _ _ _ (eat_ok _ _ h6), pure_apply] at h5
  cases h5
  exact ⟨block, pB, h1, h2, h3, h4, h6, rfl, rfl⟩

theorem Program_of_parts (f : Nat) (p pB : Parser) (block : ASTNode)
    (h1 : p.currentToken.type = .PROGRAM) (h2 : (advance p).currentToken.type = .ID)
    (h3 : (advance (advance p)).currentToken.type = .SEMICOLON)
    (h4 : Block f (advance (advance (advance p))) = .ok block pB)
    (h6 : pB.currentToken.type = .DOT) :
    Program f p = .ok (.mk "程序" [.mk ("关键字: " ++ p.currentToken.value) [],
        .mk ("程序名: " ++ (advance p).currentToken.value) [], block]) (advance pB) := by
  unfold Program
  rw [bind_ok _ _ _ _ _ (lookahead_apply p), if_neg (not_not.mpr h1),
    bind_ok _ _ _ _ _ (eat_ok _ _ h1), bind_ok _ _ _ _ _ (lookahead_apply (advance p)),
    if_neg (not_not.mpr h2), bind_ok _ _ _ _ _ (eat_ok _ _ h2),
    bind_ok _ _ _ _ _ (lookahead_apply (advance (advance p))), if_neg (not_not.mpr h3),
    bind_ok _ _ _ _ _ (eat_ok _ _ h3), bind_ok _ _ _ _ _ h4,
    bind_ok _ _ _ _ _ (lookahead_apply pB), if_neg (not_not.mpr h6),
    bind_ok _ _ _ _ _ (eat_ok _ _ h6)]
  rfl

/-- A successful run of `Program` consumes the tokens up to a `.` and does the
same on every state that shows the same kinds and texts up to that token;
the lookahead it leaves is not inspected. -/
theorem Program_similar (f : Nat) (p p1 : Parser) (t : ASTNode) (h : Program f p = .ok t p1) :
    ∃ K, 3 ≤ K ∧ p1 = advanceN (K + 1) p ∧ (advanceN K p).currentToken.type = .DOT ∧
      ∀ q, (∀ i, i ≤ K → SameToken (advanceN i q).currentToken (advanceN i p).currentToken) →
        Program f q = .ok t (advanceN (K + 1) q) := by
  obtain ⟨block, pB, h1, h2, h3, h4, h6, hp1, ht⟩ := Program_ok f p p1 t h
  obtain ⟨k, hpB, _, hq⟩ := (uniform_stmt f).1 _ block pB h4
  have hpB' : pB = advanceN (3 + k) p := by
    rw [hpB, advanceN_add 3 k p]; rfl
  refine ⟨3 + k, by omega, by rw [hp1, hpB', advanceN_succ_right], by rw [← hpB']; exact h6,
    fun q hsim => ?_⟩
  have hs : Similar BothStop k (advanceN 3 p) (advanceN 3 q) := by
    refine ⟨fun i hi => ?_, Or.inl ?_⟩
    · rw [← advanceN_add, ← advanceN_add]; exact hsim (3 + i) (by omega)
    · rw [← advanceN_add, ← advanceN_add]; exact hsim (3 + k) (by omega)
  have hbq := hq (advanceN 3 q) hs
  have e0 := hsim 0 (by omega)
  have e1 := hsim 1 (by omega)
  have e2 := hsim 2 (by omega)
  have e3 := hsim (3 + k) (by omega)
  have q1 : q.currentToken.type = .PROGRAM := by rw [← h1]; exact e0.1
  have q2 : (advance q).currentToken.type = .ID := by rw [← h2]; exact e1.1
  have q3 : (advance (advance q)).currentToken.type = .SEMICOLON := by rw [← h3]; exact e2.1
  have q6 : (advanceN k (advanceN 3 q)).currentToken.type = .DOT := by
    rw [← advanceN_add, e3.1, ← hpB']; exact h6
  have := Program_of_parts f q _ block q1 q2 q3 hbq q6
  rw [this, ht]
  have v0 : q.currentToken.value = p.currentToken.value := e0.2
  have v1 : (advance q).currentToken.value = (advance p).currentToken.value := e1.2
  rw [v0, v1, ← advanceN_add, advanceN_succ_right]

/-- What the acceptance of a text says about its tokens, and about the texts
that show the same tokens up to the final `.`. -/
theorem parse_accepts (src : List Char) (t : ASTNode)
    (h : (parse (Parser.new (Lexer.new src))).root = some t) :
    ∃ f K, 3 ≤ K ∧ (nthToken K (Lexer.new src)).type = .DOT ∧
      (nthToken (K + 1) (Lexer.new src)).type = .END_OF_FILE ∧ 3 ≤ src.length ∧
      ∀ src2 : List Char,
        (∀ i, i ≤ K → (nthToken i (Lexer.new src2)).type = (nthToken i (Lexer.new src)).type ∧
          (nthToken i (Lexer.new src2)).value = (nthToken i (Lexer.new src)).value) →
        Program f (Parser.new (Lexer.new src2))
          = .ok t (advanceN (K + 1) (Parser.new (Lexer.new src2))) := by
  obtain ⟨f, p1, hb⟩ := parse_root_some _ t h
  obtain ⟨hprog, heof⟩ := parseBody_ok f _ p1 t hb
  obtain ⟨K, hK, hp1, hdot, hq⟩ := Program_similar f _ p1 t hprog
  rw [advanceN_new] at hdot
  rw [hp1, advanceN_new] at heof
  have hlen : 3 ≤ src.length := by
    have h1 := after_rest_lt K (Lexer.new src) (by rw [hdot]; decide)
    have h2 := new_source_length_le src
    rw [new_rest] at h1
    omega
  refine ⟨f, K, hK, hdot, heof, hlen, fun src2 hsim => hq _ (fun i hi => ?_)⟩
  rw [advanceN_new, advanceN_new]
  exact hsim i hi

/-- The run of `parse` on a text that shows the tokens of an accepted text up to
its final `.`, by the token that follows. -/
theorem parse_of_similar (f K : Nat) (src2 : List Char) (t : ASTNode)
    (hprog : Program f (Parser.new (Lexer.new src2))
      = .ok t (advanceN (K + 1) (Parser.new (Lexer.new src2)))) :
    ((nthToken (K + 1) (Lexer.new src2)).type = .END_OF_FILE →
      (parse (Parser.new (Lexer.new src2))).root = some t) ∧
    ((nthToken (K + 1) (Lexer.new src2)).type ≠ .END_OF_FILE →
      (parse (Parser.new (Lexer.new src2))).root = none ∧
      (parse (Parser.new (Lexer.new src2))).out
        = [Diagnostic.mk "程序结束后有多余内容" (nthToken (K + 1) (Lexer.new src2)).line
            (nthToken (K + 1) (Lexer.new src2)).col
            (nthToken (K + 1) (Lexer.new src2)).value]) := by
  have hb := parseBody_of_program f _ _ t hprog
  rw [advanceN_new] at hb
  simp only at hb
  constructor
  · intro he
    rw [if_neg (not_not.mpr he)] at hb
    rw [parse_of_ok f _ _ t hb]
  · intro hne
    rw [if_pos hne] at hb
    rw [parse_of_error f _ _ _ hb]
    exact ⟨rfl, rfl⟩

/-- C11 (amended). The end-of-program check. `parse` returns a tree exactly when
`Program` succeeds and leaves the end-of-file token as lookahead. Let a text
be accepted. If its end is a boundary between tokens outside any comment
(it does not end inside a comment that is never closed) and the text `x`
begins with a token, then on the text followed by `x` the tokens before
the end stay as they are, a further token follows them, and `parse` returns
no tree and writes the one diagnostic "程序结束后有多余内容" with the line, column
and text of that token. If `w` is whitespace and complete comments, the text
followed by `w` is accepted with the same tree. -/
theorem end_of_program_check :
    (∀ (p : Parser) (t : ASTNode),
      (parse p).root = some t ↔
        ∃ fuel p1, Program fuel p = .ok t p1 ∧ p1.currentToken.type = .END_OF_FILE) ∧
    (∀ (src x : List Char) (t : ASTNode),
      (parse (Parser.new (Lexer.new src))).root = some t → IsBoundary src src.length →
      (getNextToken (Lexer.new x)).1.type ≠ .END_OF_FILE →
      ∃ k, (nthToken k (Lexer.new src)).type = .END_OF_FILE ∧
        (∀ i, i < k → (nthToken i (Lexer.new src)).type ≠ .END_OF_FILE ∧
          (nthToken i (Lexer.new (src ++ x))).type = (nthToken i (Lexer.new src)).type ∧
          (nthToken i (Lexer.new (src ++ x))).value = (nthToken i (Lexer.new src)).value) ∧
        (nthToken k (Lexer.new (src ++ x))).type ≠ .END_OF_FILE ∧
        (parse (Parser.new (Lexer.new (src ++ x)))).root = none ∧
        (parse (Parser.new (Lexer.new (src ++ x)))).out
          = [Diagnostic.mk "程序结束后有多余内容" (nthToken k (Lexer.new (src ++ x))).line
              (nthToken k (Lexer.new (src ++ x))).col
              (nthToken k (Lexer.new (src ++ x))).value]) ∧
    (∀ (src w : List Char) (t : ASTNode),
      (parse (Parser.new (Lexer.new src))).root = some t → Trivia w →
      (parse (Parser.new (Lexer.new (src ++ w)))).root = some t) ∧
    ((parse (Parser.new (Lexer.new "program p; begin end. x".toList))).root = none ∧
      (parse (Parser.new (Lexer.new "program p; begin end. x".toList))).out
        = [Diagnostic.mk "程序结束后有多余内容" 1 23 "x"]) := by
  refine ⟨?_, ?_, ?_, ?_⟩
  · intro p t
    constructor
    · intro h
      obtain ⟨f, p1, hb⟩ := parse_root_some p t h
      exact ⟨f, p1, parseBody_ok f p p1 t hb⟩
    · rintro ⟨f, p1, hp, he⟩
      have hb := parseBody_of_program f p p1 t hp
      rw [if_neg (not_not.mpr he)] at hb
      rw [parse_of_ok f p p1 t hb]
  · intro src x t h hbd hx
    obtain ⟨f, K, _, hdot, heof, hlen, hq⟩ := parse_accepts src t h
    have hrest := new_append src x hlen
    obtain ⟨htok, hafter⟩ := tokens_append (Lexer.new src) (Lexer.new (src ++ x)) x hrest K hdot
    have htriv := trivia_of_boundary src hbd K (by rw [hdot]; decide) heof
    have hne : (nthToken (K + 1) (Lexer.new (src ++ x))).type ≠ .END_OF_FILE := by
      let X : Lexer := { source := x, pos := 0, line := 1, col := 1 }
      have hX : X.rest = x := rfl
      have hag := getNextToken_trivia htriv x (after (K + 1) (Lexer.new (src ++ x))) X hafter hX
      show (getNextToken _).1.type ≠ _
      rw [hag.1]
      exact first_token_of_new x hx X hX
    have hpar := (parse_of_similar f K (src ++ x) t (hq (src ++ x) htok)).2 hne
    refine ⟨K + 1, heof, fun i hi => ⟨?_, htok i (by omega)⟩, hne, hpar.1, hpar.2⟩
    intro e
    have := nthToken_eof_mono i K _ (by omega) e
    rw [hdot] at this
    cases this
  · intro src w t h hw
    obtain ⟨f, K, _, hdot, heof, hlen, hq⟩ := parse_accepts src t h
    have hrest := new_append src w hlen
    obtain ⟨htok, hafter⟩ := tokens_append (Lexer.new src) (Lexer.new (src ++ w)) w hrest K hdot
    have he := (getNextToken_eof_append (after (K + 1) (Lexer.new src))
      (after (K + 1) (Lexer.new (src ++ w))) w hw hafter heof).1
    exact (parse_of_similar f K (src ++ w) t (hq (src ++ w) htok)).1 he
  · have := parse_of_error 8 (Parser.new (Lexer.new "program p; begin end. x".toList))
      (advanceN 6 (Parser.new (Lexer.new "program p; begin end. x".toList)))
      (Diagnostic.mk "程序结束后有多余内容" 1 23 "x") (by decide)
    rw [this]
    exact ⟨rfl, rfl⟩

theorem end_of_program_check_witness :
    (parse (Parser.new (Lexer.new "program p; begin end. \x7bdone\x7d\n".toList))).root
      = some (.mk "程序" [.mk "关键字: program" [], .mk "程序名: p" [],
          .mk "块" [.mk "语句列表" []]]) ∧
    IsBoundary "program p; begin end. ".toList 22 ∧
    (parse (Parser.new (Lexer.new ("program p; begin end. ".toList ++ "x y".toList)))).root
      = none :=
  have hacc : ∀ s : List Char,
      parseBody 8 (Parser.new (Lexer.new s))
        = .ok (.mk "程序" [.mk "关键字: program" [], .mk "程序名: p" [],
            .mk "块" [.mk "语句列表" []]]) (advanceN 6 (Parser.new (Lexer.new s))) →
      (parse (Parser.new (Lexer.new s))).root
        = some (.mk "程序" [.mk "关键字: program" [], .mk "程序名: p" [],
            .mk "块" [.mk "语句列表" []]]) :=
    fun s h => by rw [parse_of_ok 8 _ _ _ h]
  have hb : IsBoundary "program p; begin end. ".toList 22 :=
    ⟨6, [' '], Or.inr (by decide), .space _ _ (by decide) .nil, ⟨_, rfl⟩, by decide⟩
  ⟨end_of_program_check.2.2.1 "program p; begin end.".toList
      [' ', '\x7b', 'd', 'o', 'n', 'e', '\x7d', '\n'] _
      (hacc "program p; begin end.".toList (by decide))
      (Trivia.space _ _ (by decide) (Trivia.comment ['d', 'o', 'n', 'e'] _ (by decide)
        (Trivia.space _ _ (by decide) Trivia.nil))),
    hb,
    (end_of_program_check.2.1 "program p; begin end. ".toList "x y".toList _
      (hacc "program p; begin end. ".toList (by decide)) hb (by decide)).elim
      fun _ h => h.2.2.2.1⟩
/-- The text `program p; begin end. ` followed by an opening brace is accepted;
`x` is a text of one token; yet the text followed by `x` is accepted as well,
with the same tree: the `x` lies inside the comment that is never closed. -/
theorem trailing_text_counterexample :
    (parse (Parser.new (Lexer.new "program p; begin end. \x7b".toList))).root
      = some (.mk "程序" [.mk "关键字: program" [], .mk "程序名: p" [],
          .mk "块" [.mk "语句列表" []]]) ∧
    (getNextToken (Lexer.new "x".toList)).1.type = .ID ∧
    (parse (Parser.new (Lexer.new ("program p; begin end. \x7b".toList ++ "x".toList)))).root
      = some (.mk "程序" [.mk "关键字: program" [], .mk "程序名: p" [],
          .mk "块" [.mk "语句列表" []]]) := by
  refine ⟨?_, by decide, ?_⟩
  · rw [parse_of_ok 8 (Parser.new (Lexer.new "program p; begin end. \x7b".toList))
      (advanceN 6 (Parser.new (Lexer.new "program p; begin end. \x7b".toList)))
      (.mk "程序" [.mk "关键字: program" [], .mk "程序名: p" [], .mk "块" [.mk "语句列表" []]])
      (by decide)]
  · rw [parse_of_ok 8
      (Parser.new (Lexer.new ("program p; begin end. \x7b".toList ++ "x".toList)))
      (advanceN 6
        (Parser.new (Lexer.new ("program p; begin end. \x7b".toList ++ "x".toList))))
      (.mk "程序" [.mk "关键字: program" [], .mk "程序名: p" [], .mk "块" [.mk "语句列表" []]])
      (by decide)]

theorem relation_label_ne (o : String) : "条件表达式" ≠ "逻辑符: " ++ o := by
  intro h
  have := congrArg String.data h
  simp at this

/-- The root of the tree of a successful `Cond`: a '逻辑非: ' node over one
operand, a single relation '条件表达式', or one '逻辑符: ' node whose left
child is a single relation '条件表达式'. -/
theorem Cond_root (fuel : Nat) (p p1 : Parser) (t : ASTNode) (h : Cond fuel p = .ok t p1) :
    (∃ v operand, t = .mk ("逻辑非: " ++ v) [operand]) ∨
    (∃ a r b, t = .mk "条件表达式" [a, .mk ("关系符: " ++ r) [], b]) ∨
    (∃ o a r b rhs, t = .mk ("逻辑符: " ++ o)
        [.mk "条件表达式" [a, .mk ("关系符: " ++ r) [], b], rhs]) := by
  cases fuel with
  | zero => rw [Cond_zero] at h; cases h
  | succ f =>
    by_cases hn : p.currentToken.type = .NOT
    · obtain ⟨operand, _, ht⟩ := Cond_not f p p1 t hn h
      exact Or.inl ⟨_, operand, ht⟩
    · rw [Cond_succ, bind_ok _ _ _ _ _ (lookahead_apply p), if_neg hn] at h
      by_cases hl : p.currentToken.type = .LPAREN
      · rw [if_pos hl] at h
        obtain ⟨_, pa, h1, h2⟩ := bind_eq_ok _ _ _ _ _ h
        obtain ⟨leftNode, pb, h3, h4⟩ := bind_eq_ok _ _ _ _ _ h2
        rw [bind_ok _ _ _ _ _ (lookahead_apply pb)] at h4
        obtain ⟨node, pc, h5, h6⟩ := bind_eq_ok _ _ _ _ _ h4
        obtain ⟨_, pd, h7, h8⟩ := bind_eq_ok _ _ _ _ _ h6
        have hnode : ∃ a r b, node = .mk "条件表达式" [a, .mk ("关系符: " ++ r) [], b] := by
          by_cases hr : pb.currentToken.type = .RELOP
          · rw [if_pos hr] at h5
            obtain ⟨_, pe, _, h9⟩ := bind_eq_ok _ _ _ _ _ h5
            obtain ⟨rightNode, pf, _, h10⟩ := bind_eq_ok _ _ _ _ _ h9
            rw [pure_apply] at h10
            cases h10
            exact ⟨_, _, _, rfl⟩
          · rw [if_neg hr] at h5
            split at h5 <;> rw [error_apply] at h5 <;> cases h5
        obtain ⟨a, r, b, rfl⟩ := hnode
        rcases CondLoop_once _ _ _ _ _ h8 with ⟨_, ht, _⟩ | ⟨_, rhs, _, ht⟩
        · exact Or.inr (Or.inl ⟨a, r, b, ht⟩)
        · exact Or.inr (Or.inr ⟨_, a, r, b, rhs, ht⟩)
      · rw [if_neg hl] at h
        obtain ⟨leftNode, pb, h3, h4⟩ := bind_eq_ok _ _ _ _ _ h
        rw [bind_ok _ _ _ _ _ (lookahead_apply pb)] at h4
        by_cases hr : pb.currentToken.type = .RELOP
        · rw [if_neg (not_not.mpr hr)] at h4
          obtain ⟨_, pe, _, h9⟩ := bind_eq_ok _ _ _ _ _ h4
          obtain ⟨rightNode, pf, _, h10⟩ := bind_eq_ok _ _ _ _ _ h9
          rcases CondLoop_once _ _ _ _ _ h10 with ⟨_, ht, _⟩ | ⟨_, rhs, _, ht⟩
          · exact Or.inr (Or.inl ⟨_, _, _, ht⟩)
          · exact Or.inr (Or.inr ⟨_, _, _, _, rhs, ht⟩)
        · rw [if_pos hr, error_apply] at h4
          cases h4

/-- The left child of a tree with two children that `Cond` returns is a
relation '条件表达式', never a '逻辑符: ' node. -/
theorem Cond_left_child (fuel : Nat) (p p1 : Parser) (t : ASTNode) (o : String)
    (l r : ASTNode) (h : Cond fuel p = .ok t p1) (ht : t = .mk o [l, r]) :
    (∃ a rel b, l = .mk "条件表达式" [a, .mk ("关系符: " ++ rel) [], b]) ∧
    ∀ o2, l.value ≠ "逻辑符: " ++ o2 := by
  have hl : ∃ a rel b, l = .mk "条件表达式" [a, .mk ("关系符: " ++ rel) [], b] := by
    rcases Cond_root fuel p p1 t h with ⟨v, operand, e⟩ | ⟨a, rel, b, e⟩ | ⟨o1, a, rel, b, rhs, e⟩
    · rw [e] at ht
      simp at ht
    · rw [e] at ht
      simp at ht
    · rw [e] at ht
      injection ht with _ hc
      injection hc with hc1 _
      exact ⟨a, rel, b, hc1.symm⟩
  refine ⟨hl, fun o2 => ?_⟩
  obtain ⟨a, rel, b, rfl⟩ := hl
  exact relation_label_ne o2

theorem Cond_of_le (f fuel : Nat) (p p1 : Parser) (t : ASTNode) (h : Cond f p = .ok t p1)
    (hle : f ≤ fuel) : Cond fuel p = .ok t p1 := by
  rw [refines_le Cond (fun f => (refines_cond f).1) f fuel hle p
    (by rw [h]; exact Outcome.noConfusion), h]

/-- The run of `parse` on a whole program whose `if` has the condition
`a<1 and b<2 or c<3`. -/
theorem parse_chain_program :
    parse (Parser.new (Lexer.new
      "program p; begin if a<1 and b<2 or c<3 then x:=1 end.".toList))
    = { root := some (.mk "程序" [.mk "关键字: program" [], .mk "程序名: p" [],
          .mk "块" [.mk "语句列表" [.mk "If语句" [.mk "逻辑符: and"
            [.mk "条件表达式" [.mk "变量: a" [], .mk "关系符: <" [], .mk "数字: 1" []],
             .mk "逻辑符: or"
              [.mk "条件表达式" [.mk "变量: b" [], .mk "关系符: <" [], .mk "数字: 2" []],
               .mk "条件表达式" [.mk "变量: c" [], .mk "关系符: <" [], .mk "数字: 3" []]]],
            .mk "赋值语句" [.mk "左值: x" [], .mk "数字: 1" []]]]]]),
        out := [],
        parser := advanceN 22 (Parser.new (Lexer.new
          "program p; begin if a<1 and b<2 or c<3 then x:=1 end.".toList)) } := by
  generalize hP : Parser.new (Lexer.new
      "program p; begin if a<1 and b<2 or c<3 then x:=1 end.".toList) = P
  have hif : IfStmt 9 (advanceN 4 P)
      = .ok (.mk "If语句" [.mk "逻辑符: and"
          [.mk "条件表达式" [.mk "变量: a" [], .mk "关系符: <" [], .mk "数字: 1" []],
           .mk "逻辑符: or"
            [.mk "条件表达式" [.mk "变量: b" [], .mk "关系符: <" [], .mk "数字: 2" []],
             .mk "条件表达式" [.mk "变量: c" [], .mk "关系符: <" [], .mk "数字: 3" []]]],
          .mk "赋值语句" [.mk "左值: x" [], .mk "数字: 1" []]]) (advanceN 20 P) := by
    subst hP; decide
  have t0 : P.currentToken.type = .PROGRAM ∧ P.currentToken.value = "program" := by
    subst hP; decide
  have t1 : (advance P).currentToken.type = .ID ∧ (advance P).currentToken.value = "p" := by
    subst hP; decide
  have t2 : (advance (advance P)).currentToken.type = .SEMICOLON := by subst hP; decide
  have t3 : (advanceN 3 P).currentToken.type = .BEGIN := by subst hP; decide
  have t4 : (advanceN 4 P).currentToken.type = .IF := by subst hP; decide
  have t20 : (advanceN 20 P).currentToken.type = .END := by subst hP; decide
  have t21 : (advanceN 21 P).currentToken.type = .DOT := by subst hP; decide
  have t22 : (advanceN 22 P).currentToken.type = .END_OF_FILE := by subst hP; decide
  have hstmt := Stmt_if 9 (advanceN 4 P) t4
  rw [hif] at hstmt
  have hlist : StmtList 11 (advanceN 4 P) = .ok (.mk "语句列表" [.mk "If语句" [.mk "逻辑符: and"
          [.mk "条件表达式" [.mk "变量: a" [], .mk "关系符: <" [], .mk "数字: 1" []],
           .mk "逻辑符: or"
            [.mk "条件表达式" [.mk "变量: b" [], .mk "关系符: <" [], .mk "数字: 2" []],
             .mk "条件表达式" [.mk "变量: c" [], .mk "关系符: <" [], .mk "数字: 3" []]]],
          .mk "赋值语句" [.mk "左值: x" [], .mk "数字: 1" []]]]) (advanceN 20 P) := by
    rw [StmtList_succ, bind_ok _ _ _ _ _ (lookahead_apply _), if_neg (by rw [t4]; decide),
      bind_ok _ _ _ _ _ hstmt]
    exact StmtListLoop_stop 9 _ _ (by rw [t20]; decide)
  have hblock := Block_of_parts 11 (advanceN 3 P) (advanceN 20 P) _ t3 hlist t20
  have hprog := Program_of_parts 12 P (advanceN 21 P) _ t0.1 t1.1 t2 hblock t21
  rw [t0.2, t1.2] at hprog
  have hbody := parseBody_of_program 12 P _ _ hprog
  rw [← advanceN_succ_right, if_neg (not_not.mpr t22)] at hbody
  exact parse_of_ok 12 P _ _ hbody


/-- C8 (divergence of the code). The claim asks `Cond` to fold an and/or chain to
the left, as the loops of `Expr` and `Term` do: on "c1 o1 c2 o2 c3" the root
is to be the node of `o2` and its left child the node of `o1`. The code nests
the chain to the right instead. On "a<1 and b<2 or c<3", on
"(a<1) and b<2 or c<3" and on "a+1<2 and b*2>3 or c-1<3" the root `Cond`
returns is '逻辑符: and' and its right child is '逻辑符: or', for every
sufficient recursion bound, and no recursion bound gives the tree of the
claim; the same tree stands under the 'If语句' node of the whole program
"program p; begin if a<1 and b<2 or c<3 then x:=1 end.". On no input at all
does `Cond` return a tree with two children whose left child is a '逻辑符: '
node: the left child is always a single relation '条件表达式'. -/
theorem cond_chain_is_not_folded_left :
    (∀ fuel, 8 ≤ fuel →
      Cond fuel (Parser.new (Lexer.new "a<1 and b<2 or c<3".toList))
        = .ok (.mk "逻辑符: and"
            [.mk "条件表达式" [.mk "变量: a" [], .mk "关系符: <" [], .mk "数字: 1" []],
             .mk "逻辑符: or"
              [.mk "条件表达式" [.mk "变量: b" [], .mk "关系符: <" [], .mk "数字: 2" []],
               .mk "条件表达式" [.mk "变量: c" [], .mk "关系符: <" [], .mk "数字: 3" []]]])
            (advanceN 11 (Parser.new (Lexer.new "a<1 and b<2 or c<3".toList)))) ∧
    (∀ (fuel : Nat) (p1 : Parser),
      Cond fuel (Parser.new (Lexer.new "a<1 and b<2 or c<3".toList))
        ≠ .ok (.mk "逻辑符: or"
            [.mk "逻辑符: and"
              [.mk "条件表达式" [.mk "变量: a" [], .mk "关系符: <" [], .mk "数字: 1" []],
               .mk "条件表达式" [.mk "变量: b" [], .mk "关系符: <" [], .mk "数字: 2" []]],
             .mk "条件表达式" [.mk "变量: c" [], .mk "关系符: <" [], .mk "数字: 3" []]]) p1) ∧
    (∀ fuel, 8 ≤ fuel →
      Cond fuel (Parser.new (Lexer.new "(a<1) and b<2 or c<3".toList))
        = .ok (.mk "逻辑符: and"
            [.mk "条件表达式" [.mk "变量: a" [], .mk "关系符: <" [], .mk "数字: 1" []],
             .mk "逻辑符: or"
              [.mk "条件表达式" [.mk "变量: b" [], .mk "关系符: <" [], .mk "数字: 2" []],
               .mk "条件表达式" [.mk "变量: c" [], .mk "关系符: <" [], .mk "数字: 3" []]]])
            (advanceN 13 (Parser.new (Lexer.new "(a<1) and b<2 or c<3".toList)))) ∧
    (∀ fuel, 9 ≤ fuel →
      Cond fuel (Parser.new (Lexer.new "a+1<2 and b*2>3 or c-1<3".toList))
        = .ok (.mk "逻辑符: and"
            [.mk "条件表达式" [.mk "+" [.mk "变量: a" [], .mk "数字: 1" []], .mk "关系符: <" [],
               .mk "数字: 2" []],
             .mk "逻辑符: or"
              [.mk "条件表达式" [.mk "*" [.mk "变量: b" [], .mk "数字: 2" []], .mk "关系符: >" [],
                 .mk "数字: 3" []],
               .mk "条件表达式" [.mk "-" [.mk "变量: c" [], .mk "数字: 1" []], .mk "关系符: <" [],
                 .mk "数字: 3" []]]])
            (advanceN 17 (Parser.new (Lexer.new "a+1<2 and b*2>3 or c-1<3".toList)))) ∧
    (parse (Parser.new (Lexer.new
        "program p; begin if a<1 and b<2 or c<3 then x:=1 end.".toList))).root
      = some (.mk "程序" [.mk "关键字: program" [], .mk "程序名: p" [],
          .mk "块" [.mk "语句列表" [.mk "If语句" [.mk "逻辑符: and"
            [.mk "条件表达式" [.mk "变量: a" [], .mk "关系符: <" [], .mk "数字: 1" []],
             .mk "逻辑符: or"
              [.mk "条件表达式" [.mk "变量: b" [], .mk "关系符: <" [], .mk "数字: 2" []],
               .mk "条件表达式" [.mk "变量: c" [], .mk "关系符: <" [], .mk "数字: 3" []]]],
            .mk "赋值语句" [.mk "左值: x" [], .mk "数字: 1" []]]]]]) ∧
    (∀ (fuel : Nat) (p p1 : Parser) (t : ASTNode), Cond fuel p = .ok t p1 →
      ∀ (o : String) (l r : ASTNode), t = .mk o [l, r] →
        (∃ a rel b, l = .mk "条件表达式" [a, .mk ("关系符: " ++ rel) [], b]) ∧
        ∀ o1, l.value ≠ "逻辑符: " ++ o1) := by
  refine ⟨fun fuel hf => Cond_of_le 8 fuel _ _ _ (by decide) hf, fun fuel p1 h => ?_,
    fun fuel hf => Cond_of_le 8 fuel _ _ _ (by decide) hf,
    fun fuel hf => Cond_of_le 9 fuel _ _ _ (by decide) hf, ?_,
    fun fuel p p1 t h o l r ht => Cond_left_child fuel p p1 t o l r h ht⟩
  · exact (Cond_left_child fuel _ p1 _ _ _ _ h rfl).2 "and" rfl
  · rw [parse_chain_program]

end Parser
